import Mathlib

/-!
# biogo.bam record reader (`reader.go`)

A shallow embedding of `Reader.Read`, `Reader.Fetch`, `readCigarOps`,
`errReader` and `binaryReader` from
`src/code.google.com/p/biogo.bam/reader.go`, together with the properties of
the record codec and of the indexed fetch that the specification states.

Conventions of the embedding:

* a Go `[]byte` is a `List UInt8`; a Go `string` is its byte sequence;
* Go `int32` / `int` values are `Int`, `uint8` / `uint16` / `uint32` values are
  `Nat`; conversions that may wrap are written with an explicit modulus;
* an `io.Reader` is a state `σ` with a function `rd : σ → Nat → ReadOut σ`
  (the argument is `len(p)`);
* a Go function that may abort with a run-time panic returns `Result.crash`.
-/

namespace bam

/-! ## Machine integers -/

/-- The Go conversion `int32(x)`: wrap an integer into the signed 32-bit range. -/
def toInt32 (x : Int) : Int := (x + 2147483648) % 4294967296 - 2147483648

/-- Go `binary.LittleEndian.Uint16` on two bytes. -/
def le16 (b0 b1 : UInt8) : Nat := b0.toNat + 256 * b1.toNat

/-- Go `binary.LittleEndian.Uint32` on four bytes. -/
def le32 (b0 b1 b2 b3 : UInt8) : Nat :=
  b0.toNat + 256 * b1.toNat + 65536 * b2.toNat + 16777216 * b3.toNat

/-- Byte `i` of a buffer (`buf[i]`); every use below is within the buffer. -/
def byteAt (buf : List UInt8) (i : Nat) : UInt8 := buf.getD i 0

/-! ## Streams -/

/-- Errors an underlying `io.Reader` may report. -/
inductive StreamError where
  | EOF
  | other (code : Nat)
  deriving DecidableEq

/-- The outcome of one `io.Reader.Read(p)` call: the bytes stored in
`p[0:n]`, the error, and the stream afterwards. -/
structure ReadOut (σ : Type) where
  data : List UInt8
  err : Option StreamError
  next : σ
  deriving DecidableEq

/-- Modelled from the spec: SeekableByteStream.read (the `bgzf` package is not
among the sources). An in-memory byte stream that fills the whole buffer when
it holds enough bytes, and otherwise hands over what is left together with
the end-of-stream error. -/
def memRead (s : List UInt8) (n : Nat) : ReadOut (List UInt8) :=
  if n ≤ s.length then ⟨s.take n, none, s.drop n⟩
  else ⟨s, some StreamError.EOF, []⟩

/-- Modelled from the spec: SeekableByteStream.read, for a stream that reports
its end one read later: it hands over the bytes it has left without an error,
and returns the end-of-stream error once a read finds it empty. It serves the
same reads in full as `memRead`; the counterexamples below are evaluated on
both, so that they do not rest on how the end of the stream is reported. -/
def memReadLate (s : List UInt8) (n : Nat) : ReadOut (List UInt8) :=
  if n ≤ s.length then ⟨s.take n, none, s.drop n⟩
  else if s.length = 0 then ⟨[], some StreamError.EOF, []⟩
  else ⟨s, none, []⟩

/-- Go `copy(p, data)` for `len(data) ≤ len(p)`: the front of the buffer is
overwritten, the rest keeps its old contents. -/
def overlay (data p : List UInt8) : List UInt8 := data ++ p.drop data.length

/-- `errReader` of reader.go: the stream, the byte counter and the sticky error. -/
structure errReader (σ : Type) where
  r : σ
  n : Int
  err : Option StreamError
  deriving DecidableEq

/-- `errReader.Read` (reader.go 222-230); `len` is `len(p)`, the returned list
is `p[0:n]`. -/
def errReader.Read {σ : Type} (rd : σ → Nat → ReadOut σ) (r : errReader σ) (len : Nat) :
    List UInt8 × errReader σ :=
  match r.err with
  | some _ => ([], r)
  | none =>
    let o := rd r.r len
    (o.data, { r := o.next, n := r.n + o.data.length, err := o.err })

/-- `binaryReader` of reader.go: an `errReader` and the 4-byte scratch buffer. -/
structure binaryReader (σ : Type) where
  r : errReader σ
  buf : List UInt8
  deriving DecidableEq

/-- `binaryReader.readUint8` (reader.go 237-240). -/
def binaryReader.readUint8 {σ : Type} (rd : σ → Nat → ReadOut σ) (b : binaryReader σ) :
    Nat × binaryReader σ :=
  let p := errReader.Read rd b.r 1
  let buf := overlay p.1 b.buf
  ((byteAt buf 0).toNat, { r := p.2, buf := buf })

/-- `binaryReader.readUint16` (reader.go 242-245). -/
def binaryReader.readUint16 {σ : Type} (rd : σ → Nat → ReadOut σ) (b : binaryReader σ) :
    Nat × binaryReader σ :=
  let p := errReader.Read rd b.r 2
  let buf := overlay p.1 b.buf
  (le16 (byteAt buf 0) (byteAt buf 1), { r := p.2, buf := buf })

/-- `binaryReader.readUint32` (reader.go 252-255). -/
def binaryReader.readUint32 {σ : Type} (rd : σ → Nat → ReadOut σ) (b : binaryReader σ) :
    Nat × binaryReader σ :=
  let p := errReader.Read rd b.r 4
  let buf := overlay p.1 b.buf
  (le32 (byteAt buf 0) (byteAt buf 1) (byteAt buf 2) (byteAt buf 3), { r := p.2, buf := buf })

/-- `binaryReader.readInt32` (reader.go 247-250). -/
def binaryReader.readInt32 {σ : Type} (rd : σ → Nat → ReadOut σ) (b : binaryReader σ) :
    Int × binaryReader σ :=
  let p := errReader.Read rd b.r 4
  let buf := overlay p.1 b.buf
  (toInt32 (le32 (byteAt buf 0) (byteAt buf 1) (byteAt buf 2) (byteAt buf 3)),
    { r := p.2, buf := buf })

/-- The loop of `readCigarOps` (reader.go 207-212): `k` operations are still
to be read, `co` holds the ones read so far. On a stream error the function
returns `nil`. -/
def readCigarOpsLoop {σ : Type} (rd : σ → Nat → ReadOut σ) :
    Nat → binaryReader σ → List Nat → List Nat × binaryReader σ
  | 0, br, co => (co, br)
  | k + 1, br, co =>
    let p := br.readUint32 rd
    match p.2.r.err with
    | some _ => ([], p.2)
    | none => readCigarOpsLoop rd k p.2 (co ++ [p.1])

/-- `readCigarOps` (reader.go 205-214). -/
def readCigarOps {σ : Type} (rd : σ → Nat → ReadOut σ) (br : binaryReader σ) (n : Nat) :
    List Nat × binaryReader σ :=
  readCigarOpsLoop rd n br []

/-! ## Records -/

/-- Modelled from the spec: Reference (the header package is not among the
sources): an entry of the reference table, with its id, name and length. -/
structure Reference where
  id : Int
  name : String
  len : Int
  deriving DecidableEq

/-- `NybbleSeq`: the logical length and the packed bases. -/
structure NybbleSeq where
  Length : Int
  Seq : List UInt8
  deriving DecidableEq

/-- Modelled from the spec: Record (its declaration is not among the sources):
the fields `Reader.Read` assigns. `A` is the type of the parsed auxiliary tags. -/
structure Record (A : Type) where
  Name : List UInt8
  Ref : Option Reference
  Pos : Int
  MapQ : Nat
  Cigar : List Nat
  Flags : Nat
  MateRef : Option Reference
  MatePos : Int
  TempLen : Int
  Seq : NybbleSeq
  Qual : List UInt8
  AuxTags : A
  deriving DecidableEq

/-- The errors `Reader.Read` returns: the sticky error of the underlying stream
(`r.err`), or one of the errors it creates with `errors.New`. -/
inductive Error where
  /-- `r.err`, as the stream returned it (reader.go 107, 119, 142). -/
  | stream (e : StreamError)
  /-- "bam: truncated record name" (reader.go 113). -/
  | truncatedName
  /-- "bam: truncated sequence" (reader.go 124). -/
  | truncatedSequence
  /-- "bam: truncated quality" (reader.go 131). -/
  | truncatedQuality
  /-- "bam: truncated auxilliary data" (reader.go 137). -/
  | truncatedAux
  /-- "bam: reference id out of range" (reader.go 148). -/
  | refOutOfRange
  /-- "bam: mate reference id out of range" (reader.go 156). -/
  | mateRefOutOfRange
  deriving DecidableEq

/-- What a call of `Reader.Read` does: return the record, return an error (and
a nil record), or abort with a run-time panic. -/
inductive Result (A : Type) where
  | ok (rec : Record A)
  | error (e : Error)
  | crash
  deriving DecidableEq

/-- Modelled from the spec: Record.buf_alloc (record.go is not among the
sources): a slice of `size` bytes of the record's reusable scratch buffer,
which `buf_reset` empties at the start of each `Read`. A Go slice has no
negative length, so a negative size is a run-time panic (`none`). The bytes
are given as zero; `Read` uses a slice only after a read has filled it whole,
so what it held before is never seen. -/
def buf_alloc (size : Int) : Option (List UInt8) :=
  if size < 0 then none else some (List.replicate size.toNat 0)

/-- The size of the packed sequence, `int((lSeq + 1) >> 1)` of reader.go 122-123:
the sum wraps in `int32` and the shift is arithmetic (it rounds down). -/
def packedLen (lSeq : Int) : Int := toInt32 (lSeq + 1) / 2

/-- The Go slice expression `p[:hi]`; out of range is a run-time panic (`none`). -/
def sliceTo (p : List UInt8) (hi : Int) : Option (List UInt8) :=
  if hi < 0 ∨ (p.length : Int) < hi then none else some (p.take hi.toNat)

/-- The local variables of `Reader.Read` after the fixed-length part has been
read (reader.go 90-105), in the order of `bamRecordFixed`; the bin field is
read and dropped. -/
structure Fixed where
  blockSize : Int
  refID : Int
  pos : Int
  nLen : Nat
  mapQ : Nat
  nCigar : Nat
  flags : Nat
  lSeq : Int
  nextRefID : Int
  nextPos : Int
  tLen : Int
  deriving DecidableEq

/-- `Reader.Read`, the record header (reader.go 86-105): the twelve reads from
a fresh `errReader` and `binaryReader` on the stream, with the counter reset
after the block size. -/
def Reader.readFixed {σ : Type} (rd : σ → Nat → ReadOut σ) (s : σ) : Fixed × binaryReader σ :=
  let bin : binaryReader σ := { r := { r := s, n := 0, err := none }, buf := [0, 0, 0, 0] }
  let p0 := bin.readInt32 rd
  -- The blocksize field is not included in the blocksize.
  let bin : binaryReader σ := { r := { r := p0.2.r.r, n := 0, err := p0.2.r.err }, buf := p0.2.buf }
  let p1 := bin.readInt32 rd
  let p2 := p1.2.readInt32 rd
  let p3 := p2.2.readUint8 rd
  let p4 := p3.2.readUint8 rd
  let p5 := p4.2.readUint16 rd
  let p6 := p5.2.readUint16 rd
  let p7 := p6.2.readUint16 rd
  let p8 := p7.2.readInt32 rd
  let p9 := p8.2.readInt32 rd
  let p10 := p9.2.readInt32 rd
  let p11 := p10.2.readInt32 rd
  ({ blockSize := p0.1, refID := p1.1, pos := p2.1, nLen := p3.1, mapQ := p4.1, nCigar := p6.1,
     flags := p7.1, lSeq := p8.1, nextRefID := p9.1, nextPos := p10.1, tLen := p11.1 }, p11.2)

/-- `Reader.Read`, the variable length data (reader.go 110-143), from the
values of the header and the reader state after it. `parseAux` is the
auxiliary-tag parser (not among the sources; `none` is a panic inside it).
`Result.ok` carries the record as it stands at line 143. -/
def Reader.readVariable {σ A : Type} (rd : σ → Nat → ReadOut σ)
    (parseAux : List UInt8 → Option A) (fx : Fixed) (bin : binaryReader σ) (rc : Record A) :
    Result A × σ :=
  match buf_alloc (fx.nLen : Int) with
  | none => (Result.crash, bin.r.r)
  | some name =>
  let q := errReader.Read rd bin.r name.length
  if (q.1.length : Int) ≠ (fx.nLen : Int) then (Result.error Error.truncatedName, q.2.r) else
  let name := overlay q.1 name
  match sliceTo name ((name.length : Int) - 1) with
  | none => (Result.crash, q.2.r)
  | some nm =>
  let rc := { rc with Name := nm }
  let c := readCigarOps rd { r := q.2, buf := bin.buf } fx.nCigar
  let rc := { rc with Cigar := c.1 }
  match c.2.r.err with
  | some e => (Result.error (Error.stream e), c.2.r.r)
  | none =>
  match buf_alloc (packedLen fx.lSeq) with
  | none => (Result.crash, c.2.r.r)
  | some seq =>
  let q := errReader.Read rd c.2.r seq.length
  if (q.1.length : Int) ≠ packedLen fx.lSeq then
    (Result.error Error.truncatedSequence, q.2.r) else
  let rc := { rc with Seq := { Length := fx.lSeq, Seq := overlay q.1 seq } }
  match buf_alloc fx.lSeq with
  | none => (Result.crash, q.2.r)
  | some qual =>
  let q := errReader.Read rd q.2 qual.length
  let rc := { rc with Qual := overlay q.1 qual }
  if (q.1.length : Int) ≠ fx.lSeq then (Result.error Error.truncatedQuality, q.2.r) else
  match buf_alloc (fx.blockSize - q.2.n) with
  | none => (Result.crash, q.2.r)
  | some auxTags =>
  let q := errReader.Read rd q.2 auxTags.length
  if q.2.n ≠ fx.blockSize then (Result.error Error.truncatedAux, q.2.r) else
  match parseAux (overlay q.1 auxTags) with
  | none => (Result.crash, q.2.r)
  | some tags =>
  let rc := { rc with AuxTags := tags }
  match q.2.err with
  | some e => (Result.error (Error.stream e), q.2.r)
  | none => (Result.ok rc, q.2.r)

/-- `Reader.Read`, the reference lookup (reader.go 145-163); `refs` is
`br.h.Refs()`. An index outside the table is a run-time panic. -/
def Reader.resolveRefs {A : Type} (refs : List Reference) (fx : Fixed) (rc : Record A) :
    Result A :=
  let refsN : Int := toInt32 (refs.length : Int)
  if fx.refID ≠ -1 ∧ (fx.refID < -1 ∨ fx.refID ≥ refsN) then
    Result.error Error.refOutOfRange else
  match (if fx.refID ≠ -1 then (refs[fx.refID.toNat]?).map some else some none) with
  | none => Result.crash
  | some ref =>
  let rc := { rc with Ref := ref }
  if fx.nextRefID ≠ -1 ∧ (fx.nextRefID < -1 ∨ fx.nextRefID ≥ refsN) then
    Result.error Error.mateRefOutOfRange else
  match (if fx.nextRefID ≠ -1 then (refs[fx.nextRefID.toNat]?).map some else some none) with
  | none => Result.crash
  | some mref => Result.ok { rc with MateRef := mref }

/-- `Reader.Read` (reader.go 85-164): the header, the check of the sticky error
(lines 106-108), the variable length data and the reference lookup. `rd` is
the underlying stream `br.r`, `s` its position and `rc` the record passed in;
the result comes with the stream position afterwards. -/
def Reader.Read {σ A : Type} (rd : σ → Nat → ReadOut σ) (parseAux : List UInt8 → Option A)
    (refs : List Reference) (s : σ) (rc : Record A) : Result A × σ :=
  let p := Reader.readFixed rd s
  let fx := p.1
  let rc := { rc with Pos := fx.pos, MapQ := fx.mapQ, Flags := fx.flags,
                      MatePos := fx.nextPos, TempLen := fx.tLen }
  match p.2.r.err with
  | some e => (Result.error (Error.stream e), p.2.r.r)
  | none =>
    let v := Reader.readVariable rd parseAux fx p.2 rc
    match v.1 with
    | Result.ok rc => (Reader.resolveRefs refs fx rc, v.2)
    | res => (res, v.2)

/-! ## Fetch -/

/-- Modelled from the spec: a virtual offset (the `bgzf` package is not among
the sources): the start of a compressed block in the file and the byte offset
inside the decompressed block. -/
structure Offset where
  File : Int
  Block : Nat
  deriving DecidableEq

/-- Modelled from the spec: Chunk, a half-open interval of virtual offsets. -/
structure Chunk where
  Begin : Offset
  End : Offset
  deriving DecidableEq

/-- The Go zero value `Record{}` that `Fetch` reads into (reader.go 180);
`nilTags` is the zero value of the auxiliary tags. -/
def Record.zero {A : Type} (nilTags : A) : Record A :=
  { Name := [], Ref := none, Pos := 0, MapQ := 0, Cigar := [], Flags := 0, MateRef := none,
    MatePos := 0, TempLen := 0, Seq := { Length := 0, Seq := [] }, Qual := [],
    AuxTags := nilTags }

/-- What a call of `Reader.Fetch` does. The Go function has no results: it
either returns, having printed some lines and left the stream at some
position, or aborts with a run-time panic. -/
inductive FetchResult (σ : Type) where
  | returned (printed : List String) (stream : σ)
  | crash
  deriving DecidableEq

/-- The loop of `Reader.Fetch` (reader.go 182-202). Each iteration uses one
unit of fuel (`none`: the fuel ran out before the loop ended). `s` is the
position of the stream, `rc` the record `rec` as the last `Read` left it, and
`End` is `Record.End` (not among the sources). `rec.Ref.id` on a record
without a reference is a nil dereference, a run-time panic. -/
def Reader.fetchLoop {σ A : Type} (rd : σ → Nat → ReadOut σ) (parseAux : List UInt8 → Option A)
    (refs : List Reference) (End : Record A → Int) (rid beg endp : Int) :
    Nat → σ → Record A → Bool → Option (FetchResult σ)
  | 0, _, _, _ => none
  | fuel + 1, s, rc, hasStarted =>
    match Reader.Read rd parseAux refs s rc with
    | (Result.crash, _) => some FetchResult.crash
    | (Result.error _, s1) => some (FetchResult.returned [] s1)
    | (Result.ok rec, s1) =>
      match rec.Ref with
      | none => some FetchResult.crash
      | some ref =>
        let refID := ref.id
        if hasStarted = false then
          if refID > rid ∨ (refID = rid ∧ rec.Pos > endp) then
            some (FetchResult.returned ["Wrong in reading the bam file"] s1)
          else if refID < rid ∨ (refID = rid ∧ End rec < beg) then
            Reader.fetchLoop rd parseAux refs End rid beg endp fuel s1 rec false
          else if refID = rid ∧ End rec > beg then
            Reader.fetchLoop rd parseAux refs End rid beg endp fuel s1 rec true
          else
            Reader.fetchLoop rd parseAux refs End rid beg endp fuel s1 rec false
        else
          if refID > rid ∨ (refID = rid ∧ rec.Pos > endp) then
            some (FetchResult.returned [] s1)
          else
            Reader.fetchLoop rd parseAux refs End rid beg endp fuel s1 rec true

/-- `Reader.Fetch` (reader.go 166-203). `idxChunks` is `idx.Chunks` (the index
is not among the sources); `seek` is the `Seek` of the stream when the stream
is a `*bgzf.Reader`, and `none` when the type assertion of line 170 fails;
`fuel` bounds the iterations of the loop. Indexing an empty chunk list at line
169 is a run-time panic. -/
def Reader.Fetch {σ A : Type} (rd : σ → Nat → ReadOut σ) (parseAux : List UInt8 → Option A)
    (refs : List Reference) (End : Record A → Int) (seek : Option (σ → Offset → σ))
    (nilTags : A) (idxChunks : Int → Int → Int → List Chunk) (rid beg endp : Int)
    (fuel : Nat) (s : σ) : Option (FetchResult σ) :=
  match idxChunks rid beg endp with
  | [] => some FetchResult.crash
  | c :: _ =>
    let leftMostOffset := c.Begin
    match seek with
    | none => some (FetchResult.returned ["not a bgzf file"] s)
    | some sk =>
      Reader.fetchLoop rd parseAux refs End rid beg endp fuel (sk s leftMostOffset)
        (Record.zero nilTags) false

/-! ## Reading from the in-memory stream: auxiliary definitions -/

/-- The state of an `errReader` on the in-memory stream `bs` after reads that
asked for `m` bytes in all: either every read was served and the stream stands
at offset `m`, or the stream ran out and the error is set. -/
def Served (bs : List UInt8) (m : Nat) (r : errReader (List UInt8)) : Prop :=
  (r.err = none ∧ m ≤ bs.length ∧ r.r = bs.drop m) ∨
  (r.err = some StreamError.EOF ∧ bs.length < m ∧ r.r = [])

/-- A stream over a byte string that serves every read in full while it holds
enough bytes; what it does when it runs out is left open. -/
def ServesInFull (rd : List UInt8 → Nat → ReadOut (List UInt8)) : Prop :=
  ∀ (s : List UInt8) (n : Nat), n ≤ s.length → rd s n = ⟨s.take n, none, s.drop n⟩

/-- The first `k` CIGAR operations held by a byte string: the little-endian
32-bit words, in order. -/
def cigarOf : List UInt8 → Nat → List Nat
  | b0 :: b1 :: b2 :: b3 :: t, k + 1 => le32 b0 b1 b2 b3 :: cigarOf t k
  | _, _ => []

/-- The signed 32-bit little-endian value at offset `off` of a byte string. -/
def i32At (bs : List UInt8) (off : Nat) : Int :=
  toInt32 (le32 (byteAt bs off) (byteAt bs (off + 1)) (byteAt bs (off + 2)) (byteAt bs (off + 3)))

/-- The unsigned 16-bit little-endian value at offset `off` of a byte string. -/
def u16At (bs : List UInt8) (off : Nat) : Nat := le16 (byteAt bs off) (byteAt bs (off + 1))

/-- The unsigned 8-bit value at offset `off` of a byte string. -/
def u8At (bs : List UInt8) (off : Nat) : Nat := (byteAt bs off).toNat

/-- The header fields of a block by their offsets in the stream: the length
field at 0-3, then the 32 bytes of the fixed part (so offset `i` after the
length field is offset `4 + i` here). -/
def fixedOf (bs : List UInt8) : Fixed :=
  { blockSize := i32At bs 0, refID := i32At bs 4, pos := i32At bs 8, nLen := u8At bs 12,
    mapQ := u8At bs 13, nCigar := u16At bs 16, flags := u16At bs 18, lSeq := i32At bs 20,
    nextRefID := i32At bs 24, nextPos := i32At bs 28, tLen := i32At bs 32 }

/-- The variable length part of `Reader.Read` on an in-memory stream `t`, by
cases on how far the stream reaches; `n0` is the byte counter on entry. -/
def varSpec {A : Type} (parseAux : List UInt8 → Option A) (fx : Fixed) (t : List UInt8)
    (n0 : Int) (rc : Record A) : Result A × List UInt8 :=
  let o1 := fx.nLen
  let o2 := o1 + 4 * fx.nCigar
  let sb := packedLen fx.lSeq
  let o3 := o2 + sb.toNat
  let o4 := o3 + fx.lSeq.toNat
  let a := fx.blockSize - (n0 + fx.nLen + 4 * fx.nCigar + sb + fx.lSeq)
  if t.length < o1 then (Result.error Error.truncatedName, [])
  else if fx.nLen = 0 then (Result.crash, t)
  else if t.length < o2 then (Result.error (Error.stream StreamError.EOF), [])
  else if sb < 0 then (Result.crash, t.drop o2)
  else if t.length < o3 then (Result.error Error.truncatedSequence, [])
  else if fx.lSeq < 0 then (Result.crash, t.drop o3)
  else if t.length < o4 then (Result.error Error.truncatedQuality, [])
  else if a < 0 then (Result.crash, t.drop o4)
  else if t.length < o4 + a.toNat then (Result.error Error.truncatedAux, [])
  else
    match parseAux ((t.drop o4).take a.toNat) with
    | none => (Result.crash, t.drop (o4 + a.toNat))
    | some tags =>
      (Result.ok { rc with
          Name := t.take (fx.nLen - 1)
          Cigar := cigarOf (t.drop o1) fx.nCigar
          Seq := { Length := fx.lSeq, Seq := (t.drop o2).take sb.toNat }
          Qual := (t.drop o3).take fx.lSeq.toNat
          AuxTags := tags },
        t.drop (o4 + a.toNat))

/-- `Reader.Read` on an in-memory stream `bs`, by cases on how far the stream
reaches: fewer than 36 bytes end in the stream's error; otherwise the header
fields are those at the fixed offsets and the rest of the stream is decoded as
the variable length part. -/
def readSpec {A : Type} (parseAux : List UInt8 → Option A) (refs : List Reference)
    (bs : List UInt8) (rc : Record A) : Result A × List UInt8 :=
  if bs.length < 36 then (Result.error (Error.stream StreamError.EOF), [])
  else
    let fx := fixedOf bs
    let v := varSpec parseAux fx (bs.drop 36) 32
      { rc with Pos := fx.pos, MapQ := fx.mapQ, Flags := fx.flags,
                MatePos := fx.nextPos, TempLen := fx.tLen }
    match v.1 with
    | Result.ok rc => (Reader.resolveRefs refs fx rc, v.2)
    | res => (res, v.2)

/-- The number of bytes `Read` asks the stream for, on a block with header
values `fx`, when none of its steps fails: the length field and the fixed
header (36), the name, the CIGAR words, the packed sequence, the quality
bytes, and what is then left of the declared length. -/
def Fixed.requested (fx : Fixed) : Nat :=
  36 + (fx.nLen + 4 * fx.nCigar + (packedLen fx.lSeq).toNat + fx.lSeq.toNat +
    (fx.blockSize - (32 + fx.nLen + 4 * fx.nCigar + packedLen fx.lSeq + fx.lSeq)).toNat)

/-- A byte string that holds all the bytes `Read` asks for: on it every read
of `Read` is satisfied in full. -/
def Supplied (bs : List UInt8) : Prop := (fixedOf bs).requested ≤ bs.length

instance (bs : List UInt8) : Decidable (Supplied bs) := by
  unfold Supplied
  infer_instance

/-! ## Blocks as the specification lays them out -/

/-- The number of bytes of a packed sequence of `n` bases, `⌈n/2⌉`. -/
def ceilHalf (n : Int) : Int := (n + 1) / 2

/-- Offset in the stream of the first CIGAR byte: after the length field, the
fixed header and the name. -/
def Fixed.cigarOff (fx : Fixed) : Nat := 36 + fx.nLen

/-- Offset in the stream of the first byte of the packed sequence. -/
def Fixed.seqOff (fx : Fixed) : Nat := 36 + (fx.nLen + 4 * fx.nCigar)

/-- Offset in the stream of the first quality byte. -/
def Fixed.qualOff (fx : Fixed) : Nat := 36 + (fx.nLen + 4 * fx.nCigar + (ceilHalf fx.lSeq).toNat)

/-- Offset in the stream of the first byte after the quality scores. -/
def Fixed.auxOff (fx : Fixed) : Nat :=
  36 + (fx.nLen + 4 * fx.nCigar + (ceilHalf fx.lSeq).toNat + fx.lSeq.toNat)

/-- The number of auxiliary bytes of a block: what is left of the declared
length `L` after the fixed header, the name, the CIGAR operations, the packed
sequence and the quality scores. -/
def Fixed.auxLen (fx : Fixed) : Int :=
  fx.blockSize - (32 + fx.nLen + 4 * fx.nCigar + ceilHalf fx.lSeq + fx.lSeq)

/-- The bytes of the auxiliary block. -/
def auxBytes (bs : List UInt8) : List UInt8 :=
  (bs.drop (fixedOf bs).auxOff).take (fixedOf bs).auxLen.toNat

/-- A stream that begins with a block well-formed in every respect but the
reference ids: the name has its terminator byte, the sequence length is not
negative, the declared length covers the fields, the stream holds the whole
block, and the auxiliary parser accepts the auxiliary bytes. -/
def WellFormed {A : Type} (parseAux : List UInt8 → Option A) (bs : List UInt8) : Prop :=
  1 ≤ (fixedOf bs).nLen ∧ 0 ≤ (fixedOf bs).lSeq ∧ 0 ≤ (fixedOf bs).auxLen ∧
  4 + (fixedOf bs).blockSize ≤ (bs.length : Int) ∧ (parseAux (auxBytes bs)).isSome = true

instance {A : Type} (parseAux : List UInt8 → Option A) (bs : List UInt8) :
    Decidable (WellFormed parseAux bs) := by
  unfold WellFormed
  infer_instance

/-- The record a well-formed block decodes to before the reference ids are
looked up; `tags` are the parsed auxiliary tags and `rc` the record passed in. -/
def decoded {A : Type} (bs : List UInt8) (rc : Record A) (tags : A) : Record A :=
  { Name := (bs.drop 36).take ((fixedOf bs).nLen - 1)
    Ref := rc.Ref
    Pos := (fixedOf bs).pos
    MapQ := (fixedOf bs).mapQ
    Cigar := cigarOf (bs.drop (fixedOf bs).cigarOff) (fixedOf bs).nCigar
    Flags := (fixedOf bs).flags
    MateRef := rc.MateRef
    MatePos := (fixedOf bs).nextPos
    TempLen := (fixedOf bs).tLen
    Seq := { Length := (fixedOf bs).lSeq
             Seq := (bs.drop (fixedOf bs).seqOff).take (ceilHalf (fixedOf bs).lSeq).toNat }
    Qual := (bs.drop (fixedOf bs).qualOff).take (fixedOf bs).lSeq.toNat
    AuxTags := tags }

/-! ## Sample data -/

/-- A reference table of two entries. -/
def sampleRefs : List Reference := [⟨0, "chr1", 1000⟩, ⟨1, "chr2", 2000⟩]

/-- A record to read into. -/
def sampleRecord : Record (List UInt8) :=
  { Name := [], Ref := none, Pos := 0, MapQ := 0, Cigar := [], Flags := 0, MateRef := none,
    MatePos := 0, TempLen := 0, Seq := { Length := 0, Seq := [] }, Qual := [], AuxTags := [] }

/-- The length field of the sample block: `L = 48`. -/
def sampleLen : List UInt8 := [48, 0, 0, 0]

/-- The 48 bytes of the sample block after the length field: reference 1,
position 5, a 2-byte name, mapping quality 30, bin 0x0707, two CIGAR
operations, flags 16, 3 bases, no mate reference, mate position 9, template
length -2; then the name `A` with its terminator (offsets 36-37 of the block),
the two CIGAR words (38-45), two packed bytes (46-47), three quality bytes
(48-50) and one auxiliary byte (51). -/
def sampleBody : List UInt8 :=
  [1, 0, 0, 0,  5, 0, 0, 0,  2,  30,  7, 7,  2, 0,  16, 0,  3, 0, 0, 0,
   255, 255, 255, 255,  9, 0, 0, 0,  254, 255, 255, 255,
   65, 0,  64, 0, 0, 0,  17, 0, 0, 0,  18, 64,  20, 21, 22,  99]

/-- The record the sample block decodes to. -/
def sampleDecoded : Record (List UInt8) :=
  { Name := [65], Ref := some ⟨1, "chr2", 2000⟩, Pos := 5, MapQ := 30, Cigar := [64, 17],
    Flags := 16, MateRef := none, MatePos := 9, TempLen := -2,
    Seq := { Length := 3, Seq := [18, 64] }, Qual := [20, 21, 22], AuxTags := [99] }

/-- The sample block: its length field and its 48 bytes. -/
def sampleBlock : List UInt8 := sampleLen ++ sampleBody

/-- The sample block with both reference ids set to -1 (an unmapped record
without a mate reference). -/
def sampleUnmapped : List UInt8 :=
  [48, 0, 0, 0,
   255, 255, 255, 255,  5, 0, 0, 0,  2,  30,  7, 7,  2, 0,  16, 0,  3, 0, 0, 0,
   255, 255, 255, 255,  9, 0, 0, 0,  254, 255, 255, 255,
   65, 0,  64, 0, 0, 0,  17, 0, 0, 0,  18, 64,  20, 21, 22,  99]

/-- The error `Read` returns when the stream ends at offset `k` inside a block
with header values `fx`: the stream's own end-of-stream error inside the length
field, the fixed header and the CIGAR words, and the error of the field that
holds byte `k` otherwise. -/
def truncError (fx : Fixed) (k : Nat) : Error :=
  if k < 36 then Error.stream StreamError.EOF
  else if k < fx.cigarOff then Error.truncatedName
  else if k < fx.seqOff then Error.stream StreamError.EOF
  else if k < fx.qualOff then Error.truncatedSequence
  else if k < fx.auxOff then Error.truncatedQuality
  else Error.truncatedAux

/-- The variable-length fields of a block. -/
inductive Field where
  | name
  | cigar
  | sequence
  | quality
  | aux
  deriving DecidableEq

/-- The field an error of reader.go names in its text, if it names one: the
four `truncated ...` errors do, the stream's error and the reference-id errors
do not. -/
def Error.names : Error → Option Field
  | Error.truncatedName => some Field.name
  | Error.truncatedSequence => some Field.sequence
  | Error.truncatedQuality => some Field.quality
  | Error.truncatedAux => some Field.aux
  | _ => none

/-- The field that holds the byte at offset `k` of a block with header values
`fx` (`none` inside the length field and the fixed header). -/
def fieldAt (fx : Fixed) (k : Nat) : Option Field :=
  if k < 36 then none
  else if k < fx.cigarOff then some Field.name
  else if k < fx.seqOff then some Field.cigar
  else if k < fx.qualOff then some Field.sequence
  else if k < fx.auxOff then some Field.quality
  else some Field.aux

/-- A stream with the length field `L = 0` in front of the 48 bytes of the
sample block. -/
def sampleShortLength : List UInt8 := [0, 0, 0, 0] ++ sampleBody

/-- A stream with the length field `L = -1` in front of the 48 bytes of the
sample block. -/
def sampleNegativeLength : List UInt8 := [255, 255, 255, 255] ++ sampleBody

/-- The sample block with the last byte of its 2-byte name set to `B` (66)
in place of the terminator. -/
def sampleUnterminated : List UInt8 := sampleBlock.set 37 66

/-- A stream of 36 bytes: the length field `L = 0` and a fixed header whose
name length is 0. -/
def sampleEmptyName : List UInt8 :=
  [0, 0, 0, 0,
   1, 0, 0, 0,  5, 0, 0, 0,  0,  30,  7, 7,  0, 0,  16, 0,  0, 0, 0, 0,
   255, 255, 255, 255,  9, 0, 0, 0,  254, 255, 255, 255]


/-! ## Runs of `errReader.Read` -/

/-- A stream instrumented with the log of what it has returned: every call of
the underlying `Read` appends the number of bytes it returned. -/
def logged {σ : Type} (rd : σ → Nat → ReadOut σ) (st : σ × List Nat) (n : Nat) :
    ReadOut (σ × List Nat) :=
  let o := rd st.1 n
  ⟨o.data, o.err, (o.next, st.2 ++ [o.data.length])⟩

/-- A run of `errReader.Read` calls, one for each buffer length of the list;
the result is the reader after the last call. -/
def errReader.run {σ : Type} (rd : σ → Nat → ReadOut σ) (r : errReader σ) :
    List Nat → errReader σ
  | [] => r
  | k :: ks => errReader.run rd (errReader.Read rd r k).2 ks

/-- The sum of a log of byte counts. -/
def logSum : List Nat → Int
  | [] => 0
  | k :: ks => (k : Int) + logSum ks

/-! ## Records passed in and results mapped over -/

/-- The fields of `b` that the variable length part of `Read` assigns, set in `a`. -/
def Record.withVar {A : Type} (a b : Record A) : Record A :=
  { a with Name := b.Name, Cigar := b.Cigar, Seq := b.Seq, Qual := b.Qual, AuxTags := b.AuxTags }

/-- A function on records applied to the record of a result, if it has one. -/
def Result.over {A : Type} (f : Record A → Record A) : Result A → Result A
  | Result.ok r => Result.ok (f r)
  | res => res

/-- A record with other contents to read into: what an earlier `Read` might
have left in it. -/
def sampleStale : Record (List UInt8) :=
  { Name := [90, 90], Ref := some ⟨0, "chr1", 1000⟩, Pos := 77, MapQ := 3, Cigar := [1, 2, 3],
    Flags := 4, MateRef := some ⟨1, "chr2", 2000⟩, MatePos := 88, TempLen := 99,
    Seq := { Length := 2, Seq := [255] }, Qual := [1, 1], AuxTags := [5, 6, 7] }

/-- The sample block with the sequence length `2^31 - 1` in its header. -/
def sampleMaxSeq : List UInt8 :=
  [48, 0, 0, 0,
   1, 0, 0, 0,  5, 0, 0, 0,  2,  30,  7, 7,  2, 0,  16, 0,  255, 255, 255, 127,
   255, 255, 255, 255,  9, 0, 0, 0,  254, 255, 255, 255,
   65, 0,  64, 0, 0, 0,  17, 0, 0, 0,  18, 64,  20, 21, 22,  99]

/-- The sample block with the sequence length `-1` in its header. -/
def sampleNegativeSeq : List UInt8 :=
  [48, 0, 0, 0,
   1, 0, 0, 0,  5, 0, 0, 0,  2,  30,  7, 7,  2, 0,  16, 0,  255, 255, 255, 255,
   255, 255, 255, 255,  9, 0, 0, 0,  254, 255, 255, 255,
   65, 0,  64, 0, 0, 0,  17, 0, 0, 0,  18, 64,  20, 21, 22,  99]

/-! ## Streams of records, as the specification of `Fetch` speaks of them -/

/-- The bytes of one decodable record: `b` is a block that `Read` decodes to
`rec`, with nothing left over. -/
def Decodes {A : Type} (parseAux : List UInt8 → Option A) (refs : List Reference)
    (nilTags : A) (b : List UInt8) (rec : Record A) : Prop :=
  Reader.Read memRead parseAux refs b (Record.zero nilTags) = (Result.ok rec, [])

instance {A : Type} [DecidableEq A] (parseAux : List UInt8 → Option A) (refs : List Reference)
    (nilTags : A) (b : List UInt8) (rec : Record A) :
    Decidable (Decodes parseAux refs nilTags b rec) := by
  unfold Decodes
  infer_instance

/-- The stream made of blocks in a row. -/
def blocksToStream : List (List UInt8) → List UInt8
  | [] => []
  | b :: bs => b ++ blocksToStream bs

/-- A record past the query window of `Fetch`: its reference id is greater than
the target `rid`, or equal to it with a position beyond `endp`. The reference
id is that of the reference the record resolved to. -/
def PastWindow {A : Type} (rid endp : Int) (rec : Record A) (ref : Reference) : Prop :=
  ref.id > rid ∨ (ref.id = rid ∧ rec.Pos > endp)

instance {A : Type} (rid endp : Int) (rec : Record A) (ref : Reference) :
    Decidable (PastWindow rid endp rec ref) := by
  unfold PastWindow
  infer_instance

/-- A reference table whose entries carry their position as id, as the header
assigns them. -/
def IndexedTable (refs : List Reference) : Prop :=
  ∀ (i : Nat) (r : Reference), refs[i]? = some r → r.id = (i : Int)

/-- The records the specification has `Fetch` yield, from the records of the
stream in their order: those on the reference `rid` whose alignment interval
`[pos, end)` meets `[beg, endp)`. -/
def overlapping {A : Type} (End : Record A → Int) (rid beg endp : Int)
    (recs : List (Record A)) : List (Record A) :=
  recs.filter (fun r => decide (r.Ref.map (fun ref => ref.id) = some rid ∧
    r.Pos < endp ∧ beg < End r))

/-- A stand-in for `Record.End` (not among the sources) in the examples: the
position plus the number of bases. -/
def sampleEnd (r : Record (List UInt8)) : Int := r.Pos + r.Seq.Length

/-- An index that returns the same single chunk for every query. -/
def sampleChunks (_ _ _ : Int) : List Chunk := [⟨⟨0, 0⟩, ⟨0, 52⟩⟩]

/-- A `Seek` that leaves the in-memory stream where it is. -/
def sampleSeek (s : List UInt8) (_ : Offset) : List UInt8 := s

/-- The sample block at position 200 in place of 5. -/
def sampleLater : List UInt8 := sampleBlock.set 8 200

/-! ## The in-memory stream under `errReader` and `binaryReader` -/

theorem errRead_full (s : List UInt8) (n : Int) (k : Nat) (h : k ≤ s.length) :
    errReader.Read memRead ⟨s, n, none⟩ k = (s.take k, ⟨s.drop k, n + k, none⟩) := by
  simp [errReader.Read, memRead, h]

theorem errRead_short (s : List UInt8) (n : Int) (k : Nat) (h : s.length < k) :
    errReader.Read memRead ⟨s, n, none⟩ k = (s, ⟨[], n + s.length, some StreamError.EOF⟩) := by
  simp [errReader.Read, memRead, Nat.not_le.mpr h]

theorem errRead_sticky {σ : Type} (rd : σ → Nat → ReadOut σ) (s : σ) (n : Int)
    (e : StreamError) (k : Nat) :
    errReader.Read rd ⟨s, n, some e⟩ k = ([], ⟨s, n, some e⟩) := rfl

theorem readInt32_mem (b0 b1 b2 b3 : UInt8) (t buf : List UInt8) (n : Int) :
    binaryReader.readInt32 memRead ⟨⟨b0 :: b1 :: b2 :: b3 :: t, n, none⟩, buf⟩ =
      (toInt32 (le32 b0 b1 b2 b3), ⟨⟨t, n + 4, none⟩, b0 :: b1 :: b2 :: b3 :: buf.drop 4⟩) := by
  simp [binaryReader.readInt32, errReader.Read, memRead, overlay, byteAt]

theorem readUint32_mem (b0 b1 b2 b3 : UInt8) (t buf : List UInt8) (n : Int) :
    binaryReader.readUint32 memRead ⟨⟨b0 :: b1 :: b2 :: b3 :: t, n, none⟩, buf⟩ =
      (le32 b0 b1 b2 b3, ⟨⟨t, n + 4, none⟩, b0 :: b1 :: b2 :: b3 :: buf.drop 4⟩) := by
  simp [binaryReader.readUint32, errReader.Read, memRead, overlay, byteAt]

theorem readUint16_mem (b0 b1 : UInt8) (t buf : List UInt8) (n : Int) :
    binaryReader.readUint16 memRead ⟨⟨b0 :: b1 :: t, n, none⟩, buf⟩ =
      (le16 b0 b1, ⟨⟨t, n + 2, none⟩, b0 :: b1 :: buf.drop 2⟩) := by
  simp [binaryReader.readUint16, errReader.Read, memRead, overlay, byteAt]

theorem readUint8_mem (b0 : UInt8) (t buf : List UInt8) (n : Int) :
    binaryReader.readUint8 memRead ⟨⟨b0 :: t, n, none⟩, buf⟩ =
      (b0.toNat, ⟨⟨t, n + 1, none⟩, b0 :: buf.drop 1⟩) := by
  simp [binaryReader.readUint8, errReader.Read, memRead, overlay, byteAt]

theorem Served.read {bs : List UInt8} {m : Nat} {r : errReader (List UInt8)}
    (h : Served bs m r) (k : Nat) : Served bs (m + k) (errReader.Read memRead r k).2 := by
  obtain ⟨s, n, e⟩ := r
  rcases h with ⟨he, hm, hr⟩ | ⟨he, hm, hr⟩
  · simp only at he hr
    subst he hr
    by_cases hk : k ≤ (bs.drop m).length
    · rw [errRead_full _ _ _ hk]
      left
      simp only [List.length_drop] at hk
      refine ⟨rfl, by omega, ?_⟩
      simp [List.drop_drop, Nat.add_comm]
    · rw [errRead_short _ _ _ (Nat.lt_of_not_le hk)]
      right
      simp only [List.length_drop] at hk
      exact ⟨rfl, by omega, rfl⟩
  · simp only at he hr
    subst he hr
    right
    exact ⟨rfl, by omega, rfl⟩

theorem Served.readInt32 {bs : List UInt8} {m : Nat} {b : binaryReader (List UInt8)}
    (h : Served bs m b.r) : Served bs (m + 4) (b.readInt32 memRead).2.r := h.read 4

theorem Served.readUint32 {bs : List UInt8} {m : Nat} {b : binaryReader (List UInt8)}
    (h : Served bs m b.r) : Served bs (m + 4) (b.readUint32 memRead).2.r := h.read 4

theorem Served.readUint16 {bs : List UInt8} {m : Nat} {b : binaryReader (List UInt8)}
    (h : Served bs m b.r) : Served bs (m + 2) (b.readUint16 memRead).2.r := h.read 2

theorem Served.readUint8 {bs : List UInt8} {m : Nat} {b : binaryReader (List UInt8)}
    (h : Served bs m b.r) : Served bs (m + 1) (b.readUint8 memRead).2.r := h.read 1

theorem readFixed_served (bs : List UInt8) : Served bs 36 (Reader.readFixed memRead bs).2.r := by
  unfold Reader.readFixed
  dsimp only
  refine @Served.readInt32 bs 32 _ ?_
  refine @Served.readInt32 bs 28 _ ?_
  refine @Served.readInt32 bs 24 _ ?_
  refine @Served.readInt32 bs 20 _ ?_
  refine @Served.readUint16 bs 18 _ ?_
  refine @Served.readUint16 bs 16 _ ?_
  refine @Served.readUint16 bs 14 _ ?_
  refine @Served.readUint8 bs 13 _ ?_
  refine @Served.readUint8 bs 12 _ ?_
  refine @Served.readInt32 bs 8 _ ?_
  refine @Served.readInt32 bs 4 _ ?_
  have h0 : Served bs 0 ⟨bs, 0, none⟩ := Or.inl ⟨rfl, Nat.zero_le _, rfl⟩
  exact @Served.readInt32 bs 0 ⟨⟨bs, 0, none⟩, [0, 0, 0, 0]⟩ h0

theorem readFixed_short (bs : List UInt8) (h : bs.length < 36) :
    (Reader.readFixed memRead bs).2.r.err = some StreamError.EOF ∧
    (Reader.readFixed memRead bs).2.r.r = [] := by
  rcases readFixed_served bs with ⟨_, hm, _⟩ | ⟨he, _, hr⟩
  · omega
  · exact ⟨he, hr⟩

theorem readFixed_cons (b0 b1 b2 b3 b4 b5 b6 b7 b8 b9 b10 b11 b12 b13 b14 b15 b16 b17 b18 b19 b20 b21 b22 b23 b24 b25 b26 b27 b28 b29 b30 b31 b32 b33 b34 b35 : UInt8) (t : List UInt8) :
    Reader.readFixed memRead (b0 :: b1 :: b2 :: b3 :: b4 :: b5 :: b6 :: b7 :: b8 :: b9 :: b10 :: b11 :: b12 :: b13 :: b14 :: b15 :: b16 :: b17 :: b18 :: b19 :: b20 :: b21 :: b22 :: b23 :: b24 :: b25 :: b26 :: b27 :: b28 :: b29 :: b30 :: b31 :: b32 :: b33 :: b34 :: b35 :: t) =
      ({ blockSize := toInt32 (le32 b0 b1 b2 b3), refID := toInt32 (le32 b4 b5 b6 b7),
         pos := toInt32 (le32 b8 b9 b10 b11), nLen := b12.toNat, mapQ := b13.toNat,
         nCigar := le16 b16 b17, flags := le16 b18 b19, lSeq := toInt32 (le32 b20 b21 b22 b23),
         nextRefID := toInt32 (le32 b24 b25 b26 b27), nextPos := toInt32 (le32 b28 b29 b30 b31),
         tLen := toInt32 (le32 b32 b33 b34 b35) },
       { r := { r := t, n := 32, err := none }, buf := [b32, b33, b34, b35] }) := by
  simp only [Reader.readFixed, readInt32_mem, readUint8_mem, readUint16_mem]
  simp

theorem cigarLoop_full (k : Nat) : ∀ (s buf : List UInt8) (n : Int) (co : List Nat),
    4 * k ≤ s.length →
    (readCigarOpsLoop memRead k ⟨⟨s, n, none⟩, buf⟩ co).1 = co ++ cigarOf s k ∧
    (readCigarOpsLoop memRead k ⟨⟨s, n, none⟩, buf⟩ co).2.r = ⟨s.drop (4 * k), n + 4 * k, none⟩ := by
  induction k with
  | zero => intro s buf n co _; simp [readCigarOpsLoop, cigarOf]
  | succ k ih =>
    intro s buf n co h
    obtain ⟨b0, b1, b2, b3, t, rfl⟩ : ∃ b0 b1 b2 b3 t, s = b0 :: b1 :: b2 :: b3 :: t := by
      rcases s with _ | ⟨b0, _ | ⟨b1, _ | ⟨b2, _ | ⟨b3, t⟩⟩⟩⟩ <;> simp at h <;> try omega
      exact ⟨_, _, _, _, _, rfl⟩
    have ht : 4 * k ≤ t.length := by simp at h; omega
    obtain ⟨h1, h2⟩ := ih t (b0 :: b1 :: b2 :: b3 :: buf.drop 4) (n + 4) (co ++ [le32 b0 b1 b2 b3]) ht
    simp only [readCigarOpsLoop, readUint32_mem]
    rw [h1, h2]
    refine ⟨by simp [cigarOf], ?_⟩
    have e : 4 * (k + 1) = 4 + 4 * k := by omega
    rw [e, ← List.drop_drop]
    simp
    omega

theorem cigarLoop_short (k : Nat) : ∀ (s buf : List UInt8) (n : Int) (co : List Nat),
    s.length < 4 * k →
    (readCigarOpsLoop memRead k ⟨⟨s, n, none⟩, buf⟩ co).2.r.err = some StreamError.EOF ∧
    (readCigarOpsLoop memRead k ⟨⟨s, n, none⟩, buf⟩ co).2.r.r = [] := by
  induction k with
  | zero => intro s buf n co h; omega
  | succ k ih =>
    intro s buf n co h
    by_cases h4 : 4 ≤ s.length
    · obtain ⟨b0, b1, b2, b3, t, rfl⟩ : ∃ b0 b1 b2 b3 t, s = b0 :: b1 :: b2 :: b3 :: t := by
        rcases s with _ | ⟨b0, _ | ⟨b1, _ | ⟨b2, _ | ⟨b3, t⟩⟩⟩⟩ <;> simp at h4
        exact ⟨_, _, _, _, _, rfl⟩
      have ht : t.length < 4 * k := by simp at h; omega
      simp only [readCigarOpsLoop, readUint32_mem]
      exact ih t _ _ _ ht
    · have hs : s.length < 4 := by omega
      simp [readCigarOpsLoop, binaryReader.readUint32, errRead_short _ _ _ hs]
theorem sliceTo_take (t : List UInt8) (k : Nat) (hk : 1 ≤ k) (h : k ≤ t.length) :
    sliceTo (List.take k t) ((k : Int) - 1) = some (List.take (k - 1) t) := by
  have e : ((k : Int) - 1).toNat = k - 1 := by omega
  have hc : ¬ ((k : Int) - 1 < 0 ∨ ((List.take k t).length : Int) < (k : Int) - 1) := by
    simp only [List.length_take, Nat.min_eq_left h]
    omega
  simp only [sliceTo, if_neg hc, e, List.take_take]
  congr 2
  omega

theorem readCigarOps_full (s buf : List UInt8) (n : Int) (k : Nat) (h : 4 * k ≤ s.length) :
    (readCigarOps memRead ⟨⟨s, n, none⟩, buf⟩ k).1 = cigarOf s k ∧
    (readCigarOps memRead ⟨⟨s, n, none⟩, buf⟩ k).2.r = ⟨s.drop (4 * k), n + 4 * k, none⟩ := by
  simpa [readCigarOps] using cigarLoop_full k s buf n [] h

theorem readCigarOps_short (s buf : List UInt8) (n : Int) (k : Nat) (h : s.length < 4 * k) :
    (readCigarOps memRead ⟨⟨s, n, none⟩, buf⟩ k).2.r.err = some StreamError.EOF ∧
    (readCigarOps memRead ⟨⟨s, n, none⟩, buf⟩ k).2.r.r = [] := by
  simpa [readCigarOps] using cigarLoop_short k s buf n [] h

theorem buf_alloc_nonneg (x : Int) (h : 0 ≤ x) : buf_alloc x = some (List.replicate x.toNat 0) := by
  simp [buf_alloc, Int.not_lt.mpr h]

theorem buf_alloc_neg (x : Int) (h : x < 0) : buf_alloc x = none := by
  simp [buf_alloc, h]

theorem overlay_take (s : List UInt8) (k : Nat) (h : k ≤ s.length) :
    overlay (List.take k s) (List.replicate k 0) = List.take k s := by
  simp [overlay, Nat.min_eq_left h]

theorem readVariable_mem {A : Type} (parseAux : List UInt8 → Option A) (fx : Fixed)
    (t buf : List UInt8) (n0 : Int) (rc : Record A) :
    Reader.readVariable memRead parseAux fx ⟨⟨t, n0, none⟩, buf⟩ rc = varSpec parseAux fx t n0 rc := by
  unfold Reader.readVariable varSpec
  simp only [buf_alloc_nonneg _ (Int.ofNat_nonneg fx.nLen), List.length_replicate, Int.toNat_ofNat]
  by_cases h1 : t.length < fx.nLen
  · have h1' : ¬ ((t.length : Int) = fx.nLen) := by omega
    simp only [errRead_short _ _ _ h1, if_pos h1, ne_eq, h1', not_false_eq_true, if_true]
  rw [if_neg h1]
  have h1' : fx.nLen ≤ t.length := by omega
  simp only [errRead_full _ _ _ h1', List.length_take, Nat.min_eq_left h1', ne_eq,
    not_true_eq_false, if_false, overlay_take _ _ h1']
  by_cases h0 : fx.nLen = 0
  · simp [h0, sliceTo]
  rw [if_neg h0, sliceTo_take _ _ (by omega) h1']
  simp only []
  by_cases h2 : t.length < fx.nLen + 4 * fx.nCigar
  · have h2' : (List.drop fx.nLen t).length < 4 * fx.nCigar := by
      simp only [List.length_drop]; omega
    obtain ⟨e1, e2⟩ := readCigarOps_short _ buf (n0 + fx.nLen) _ h2'
    simp only [e1, e2, if_pos h2]
  rw [if_neg h2]
  have h2' : 4 * fx.nCigar ≤ (List.drop fx.nLen t).length := by
    simp only [List.length_drop]; omega
  obtain ⟨e1, e2⟩ := readCigarOps_full _ buf (n0 + fx.nLen) _ h2'
  simp only [e1, e2, List.drop_drop]
  by_cases h3 : packedLen fx.lSeq < 0
  · simp only [buf_alloc_neg _ h3, if_pos h3]
  rw [if_neg h3]
  have h3' : 0 ≤ packedLen fx.lSeq := by omega
  simp only [buf_alloc_nonneg _ h3', List.length_replicate]
  have hsb : ((packedLen fx.lSeq).toNat : Int) = packedLen fx.lSeq := Int.toNat_of_nonneg h3'
  by_cases h4 : t.length < fx.nLen + 4 * fx.nCigar + (packedLen fx.lSeq).toNat
  · have h4' : (List.drop (fx.nLen + 4 * fx.nCigar) t).length < (packedLen fx.lSeq).toNat := by
      simp only [List.length_drop]; omega
    have h4'' : ¬ (((List.drop (fx.nLen + 4 * fx.nCigar) t).length : Int) = packedLen fx.lSeq) := by
      omega
    simp only [errRead_short _ _ _ h4', if_pos h4, h4'', not_false_eq_true, if_true]
  rw [if_neg h4]
  have h4' : (packedLen fx.lSeq).toNat ≤ (List.drop (fx.nLen + 4 * fx.nCigar) t).length := by
    simp only [List.length_drop]; omega
  simp only [errRead_full _ _ _ h4', List.length_take, Nat.min_eq_left h4', hsb,
    not_true_eq_false, if_false, overlay_take _ _ h4', List.drop_drop]
  by_cases h5 : fx.lSeq < 0
  · simp only [buf_alloc_neg _ h5, if_pos h5]
  rw [if_neg h5]
  have h5' : 0 ≤ fx.lSeq := by omega
  have hls : ((fx.lSeq).toNat : Int) = fx.lSeq := Int.toNat_of_nonneg h5'
  simp only [buf_alloc_nonneg _ h5', List.length_replicate]
  by_cases h6 : t.length < fx.nLen + 4 * fx.nCigar + (packedLen fx.lSeq).toNat + fx.lSeq.toNat
  · have h6' : (List.drop (fx.nLen + 4 * fx.nCigar + (packedLen fx.lSeq).toNat) t).length
        < fx.lSeq.toNat := by
      simp only [List.length_drop]; omega
    have h6'' : ¬ (((List.drop (fx.nLen + 4 * fx.nCigar + (packedLen fx.lSeq).toNat) t).length : Int)
        = fx.lSeq) := by omega
    simp only [errRead_short _ _ _ h6', if_pos h6, h6'', not_false_eq_true, if_true]
  rw [if_neg h6]
  have h6' : fx.lSeq.toNat ≤
      (List.drop (fx.nLen + 4 * fx.nCigar + (packedLen fx.lSeq).toNat) t).length := by
    simp only [List.length_drop]; omega
  simp only [errRead_full _ _ _ h6', List.length_take, Nat.min_eq_left h6', hsb, hls,
    not_true_eq_false, if_false, overlay_take _ _ h6', List.drop_drop]
  generalize hn : n0 + ↑fx.nLen + 4 * ↑fx.nCigar + packedLen fx.lSeq + fx.lSeq = n4
  generalize ha : fx.blockSize - n4 = a
  generalize ho : fx.nLen + 4 * fx.nCigar + (packedLen fx.lSeq).toNat + fx.lSeq.toNat = o4
  by_cases h7 : a < 0
  · simp only [buf_alloc_neg _ h7, if_pos h7]
  rw [if_neg h7]
  have h7' : 0 ≤ a := by omega
  have hat : ((a.toNat : Nat) : Int) = a := Int.toNat_of_nonneg h7'
  simp only [buf_alloc_nonneg _ h7', List.length_replicate]
  by_cases h8 : t.length < o4 + a.toNat
  · have h8' : (List.drop o4 t).length < a.toNat := by
      simp only [List.length_drop]; omega
    have h8'' : ¬ (n4 + ((List.drop o4 t).length : Int) = fx.blockSize) := by omega
    simp only [errRead_short _ _ _ h8', if_pos h8, h8'', not_false_eq_true, if_true]
  rw [if_neg h8]
  have h8' : a.toNat ≤ (List.drop o4 t).length := by
    simp only [List.length_drop]; omega
  have h8'' : n4 + a = fx.blockSize := by omega
  simp only [errRead_full _ _ _ h8', hat, h8'', not_true_eq_false, if_false, overlay_take _ _ h8',
    List.drop_drop]
theorem readFixed_full (bs : List UInt8) (h : 36 ≤ bs.length) :
    Reader.readFixed memRead bs =
      (fixedOf bs, ⟨⟨bs.drop 36, 32, none⟩, (bs.drop 32).take 4⟩) := by
  iterate 36 (rcases bs with _ | ⟨b, bs⟩; · simp at h)
  rw [readFixed_cons]
  simp [fixedOf, i32At, u16At, u8At, byteAt]

theorem Read_mem {A : Type} (parseAux : List UInt8 → Option A) (refs : List Reference)
    (bs : List UInt8) (rc : Record A) :
    Reader.Read memRead parseAux refs bs rc = readSpec parseAux refs bs rc := by
  unfold Reader.Read readSpec
  by_cases h : bs.length < 36
  · obtain ⟨he, hr⟩ := readFixed_short bs h
    simp only [he, hr, if_pos h]
  · rw [if_neg h]
    simp only [readFixed_full bs (by omega), readVariable_mem]
theorem toInt32_range (x : Int) : -2147483648 ≤ toInt32 x ∧ toInt32 x < 2147483648 := by
  unfold toInt32; omega

theorem packedLen_eq (n : Int) (h0 : 0 ≤ n) (h1 : n < 2147483647) : packedLen n = ceilHalf n := by
  unfold packedLen ceilHalf toInt32; omega

theorem packedLen_max : packedLen 2147483647 = -1073741824 := by decide

theorem lSeq_range (bs : List UInt8) :
    -2147483648 ≤ (fixedOf bs).lSeq ∧ (fixedOf bs).lSeq < 2147483648 := toInt32_range _

theorem blockSize_range (bs : List UInt8) :
    -2147483648 ≤ (fixedOf bs).blockSize ∧ (fixedOf bs).blockSize < 2147483648 := toInt32_range _

/-- The variable part succeeds on a stream that holds every field in full. -/
theorem varSpec_full {A : Type} (parseAux : List UInt8 → Option A) (fx : Fixed)
    (t : List UInt8) (n0 : Int) (rc : Record A) (tags : A)
    (h1 : 1 ≤ fx.nLen) (h2 : 0 ≤ fx.lSeq) (h3 : 0 ≤ packedLen fx.lSeq)
    (h4 : 0 ≤ fx.blockSize - (n0 + fx.nLen + 4 * fx.nCigar + packedLen fx.lSeq + fx.lSeq))
    (h5 : fx.nLen + 4 * fx.nCigar + (packedLen fx.lSeq).toNat + fx.lSeq.toNat +
      (fx.blockSize - (n0 + fx.nLen + 4 * fx.nCigar + packedLen fx.lSeq + fx.lSeq)).toNat
        ≤ t.length)
    (hp : parseAux ((t.drop (fx.nLen + 4 * fx.nCigar + (packedLen fx.lSeq).toNat
        + fx.lSeq.toNat)).take
        (fx.blockSize - (n0 + fx.nLen + 4 * fx.nCigar + packedLen fx.lSeq + fx.lSeq)).toNat)
        = some tags) :
    varSpec parseAux fx t n0 rc =
      (Result.ok { rc with
          Name := t.take (fx.nLen - 1)
          Cigar := cigarOf (t.drop fx.nLen) fx.nCigar
          Seq := { Length := fx.lSeq,
                   Seq := (t.drop (fx.nLen + 4 * fx.nCigar)).take (packedLen fx.lSeq).toNat }
          Qual := (t.drop (fx.nLen + 4 * fx.nCigar + (packedLen fx.lSeq).toNat)).take
                    fx.lSeq.toNat
          AuxTags := tags },
        t.drop (fx.nLen + 4 * fx.nCigar + (packedLen fx.lSeq).toNat + fx.lSeq.toNat +
          (fx.blockSize - (n0 + fx.nLen + 4 * fx.nCigar + packedLen fx.lSeq + fx.lSeq)).toNat)) := by
  unfold varSpec
  simp only []
  iterate 9 rw [if_neg (by omega)]
  rw [hp]

/-- When the variable part succeeds, the stream held every field in full. -/
theorem varSpec_ok {A : Type} (parseAux : List UInt8 → Option A) (fx : Fixed)
    (t : List UInt8) (n0 : Int) (rc rec : Record A) (s' : List UInt8)
    (h : varSpec parseAux fx t n0 rc = (Result.ok rec, s')) :
    1 ≤ fx.nLen ∧ 0 ≤ fx.lSeq ∧ 0 ≤ packedLen fx.lSeq ∧
    0 ≤ fx.blockSize - (n0 + fx.nLen + 4 * fx.nCigar + packedLen fx.lSeq + fx.lSeq) ∧
    fx.nLen + 4 * fx.nCigar + (packedLen fx.lSeq).toNat + fx.lSeq.toNat +
      (fx.blockSize - (n0 + fx.nLen + 4 * fx.nCigar + packedLen fx.lSeq + fx.lSeq)).toNat
        ≤ t.length ∧
    ∃ tags, parseAux ((t.drop (fx.nLen + 4 * fx.nCigar + (packedLen fx.lSeq).toNat
        + fx.lSeq.toNat)).take
        (fx.blockSize - (n0 + fx.nLen + 4 * fx.nCigar + packedLen fx.lSeq + fx.lSeq)).toNat)
        = some tags := by
  unfold varSpec at h
  simp only [] at h
  by_cases c1 : t.length < fx.nLen
  · rw [if_pos c1] at h; cases h
  rw [if_neg c1] at h
  by_cases c2 : fx.nLen = 0
  · rw [if_pos c2] at h; cases h
  rw [if_neg c2] at h
  by_cases c3 : t.length < fx.nLen + 4 * fx.nCigar
  · rw [if_pos c3] at h; cases h
  rw [if_neg c3] at h
  by_cases c4 : packedLen fx.lSeq < 0
  · rw [if_pos c4] at h; cases h
  rw [if_neg c4] at h
  by_cases c5 : t.length < fx.nLen + 4 * fx.nCigar + (packedLen fx.lSeq).toNat
  · rw [if_pos c5] at h; cases h
  rw [if_neg c5] at h
  by_cases c6 : fx.lSeq < 0
  · rw [if_pos c6] at h; cases h
  rw [if_neg c6] at h
  by_cases c7 : t.length < fx.nLen + 4 * fx.nCigar + (packedLen fx.lSeq).toNat + fx.lSeq.toNat
  · rw [if_pos c7] at h; cases h
  rw [if_neg c7] at h
  by_cases c8 : fx.blockSize - (n0 + fx.nLen + 4 * fx.nCigar + packedLen fx.lSeq + fx.lSeq) < 0
  · rw [if_pos c8] at h; cases h
  rw [if_neg c8] at h
  by_cases c9 : t.length < fx.nLen + 4 * fx.nCigar + (packedLen fx.lSeq).toNat + fx.lSeq.toNat +
      (fx.blockSize - (n0 + fx.nLen + 4 * fx.nCigar + packedLen fx.lSeq + fx.lSeq)).toNat
  · rw [if_pos c9] at h; cases h
  rw [if_neg c9] at h
  refine ⟨by omega, by omega, by omega, by omega, by omega, ?_⟩
  cases hp : parseAux ((t.drop (fx.nLen + 4 * fx.nCigar + (packedLen fx.lSeq).toNat
        + fx.lSeq.toNat)).take
        (fx.blockSize - (n0 + fx.nLen + 4 * fx.nCigar + packedLen fx.lSeq + fx.lSeq)).toNat) with
  | none => rw [hp] at h; cases h
  | some tags => exact ⟨tags, rfl⟩
theorem fx_facts (fx : Fixed) (h2 : 0 ≤ fx.lSeq) (h3 : 0 ≤ fx.auxLen)
    (hb : fx.blockSize < 2147483648) :
    0 ≤ ceilHalf fx.lSeq ∧ packedLen fx.lSeq = ceilHalf fx.lSeq ∧ 0 ≤ fx.blockSize ∧
    fx.auxOff + fx.auxLen.toNat = 4 + fx.blockSize.toNat := by
  unfold Fixed.auxLen at h3
  have hc0 : 0 ≤ ceilHalf fx.lSeq := by unfold ceilHalf; omega
  have hN : fx.lSeq < 2147483647 := by unfold ceilHalf at h3 hc0; omega
  refine ⟨hc0, packedLen_eq _ h2 hN, by omega, ?_⟩
  unfold Fixed.auxOff Fixed.auxLen
  omega

theorem Read_wf {A : Type} (parseAux : List UInt8 → Option A) (refs : List Reference)
    (bs : List UInt8) (rc : Record A) (tags : A) (hw : WellFormed parseAux bs)
    (hp : parseAux (auxBytes bs) = some tags) :
    Reader.Read memRead parseAux refs bs rc =
      (Reader.resolveRefs refs (fixedOf bs) (decoded bs rc tags),
        bs.drop (4 + (fixedOf bs).blockSize.toNat)) := by
  obtain ⟨h1, h2, h3, h4, _⟩ := hw
  have hb := (blockSize_range bs).2
  unfold auxBytes at hp
  rw [Read_mem]
  unfold readSpec decoded
  generalize fixedOf bs = fx at *
  obtain ⟨hc0, hpk, hL, hend⟩ := fx_facts fx h2 h3 hb
  unfold Fixed.auxOff Fixed.auxLen at hp hend
  unfold Fixed.auxLen at h3
  have h36 : ¬ bs.length < 36 := by clear hpk; omega
  rw [if_neg h36]
  simp only []
  have hlen : (bs.drop 36).length = bs.length - 36 := List.length_drop _ _
  rw [← hpk] at hc0 h3 hend hp
  have hv := varSpec_full parseAux fx (bs.drop 36) 32
    { rc with Pos := fx.pos, MapQ := fx.mapQ, Flags := fx.flags,
              MatePos := fx.nextPos, TempLen := fx.tLen } tags h1 h2
    hc0 h3 (by rw [hlen]; clear hpk; omega) (by rw [List.drop_drop]; exact hp)
  rw [hv]
  have e : 36 + (fx.nLen + 4 * fx.nCigar + (packedLen fx.lSeq).toNat
      + fx.lSeq.toNat + (fx.blockSize - (32 + (fx.nLen : Int)
      + 4 * (fx.nCigar : Int) + packedLen fx.lSeq + fx.lSeq)).toNat)
      = 4 + fx.blockSize.toNat := by clear hpk; omega
  simp only [List.drop_drop, e]
  simp only [hpk, Fixed.cigarOff, Fixed.seqOff, Fixed.qualOff]
theorem packedLen_nonneg (n : Int) (h0 : 0 ≤ n) (h1 : n < 2147483648) (hp : 0 ≤ packedLen n) :
    n < 2147483647 := by
  unfold packedLen toInt32 at hp; omega

theorem Read_ok {A : Type} (parseAux : List UInt8 → Option A) (refs : List Reference)
    (bs : List UInt8) (rc rec : Record A) (s' : List UInt8)
    (h : Reader.Read memRead parseAux refs bs rc = (Result.ok rec, s')) :
    WellFormed parseAux bs ∧ ∃ tags, parseAux (auxBytes bs) = some tags ∧
      Reader.resolveRefs refs (fixedOf bs) (decoded bs rc tags) = Result.ok rec ∧
      s' = bs.drop (4 + (fixedOf bs).blockSize.toNat) := by
  have h0 := h
  rw [Read_mem] at h
  unfold readSpec at h
  by_cases h36 : bs.length < 36
  · rw [if_pos h36] at h; cases h
  rw [if_neg h36] at h
  simp only [] at h
  have hw : WellFormed parseAux bs ∧ ∃ tags, parseAux (auxBytes bs) = some tags := by
    have hr := (lSeq_range bs).2
    unfold WellFormed auxBytes
    generalize fixedOf bs = fx at *
    rcases hv : varSpec parseAux fx (bs.drop 36) 32
      { rc with Pos := fx.pos, MapQ := fx.mapQ, Flags := fx.flags,
                MatePos := fx.nextPos, TempLen := fx.tLen } with ⟨res, s2⟩
    rw [hv] at h
    cases res with
    | error e => cases h
    | crash => cases h
    | ok r1 =>
      obtain ⟨q1, q2, q3, q4, q5, tags, q6⟩ := varSpec_ok _ _ _ _ _ _ _ hv
      rw [List.length_drop] at q5
      have hL : 4 + fx.blockSize ≤ (bs.length : Int) := by omega
      have hN := packedLen_nonneg _ q2 hr q3
      have hpk := packedLen_eq _ q2 hN
      rw [hpk] at q4 q6
      rw [List.drop_drop] at q6
      unfold Fixed.auxOff Fixed.auxLen
      exact ⟨⟨q1, q2, q4, hL, by rw [q6]; rfl⟩, tags, q6⟩
  obtain ⟨hw, tags, hp⟩ := hw
  refine ⟨hw, tags, hp, ?_⟩
  rw [Read_wf parseAux refs bs rc tags hw hp] at h0
  obtain ⟨e1, e2⟩ := Prod.mk.inj h0
  exact ⟨e1, e2.symm⟩
theorem toInt32_small (x : Int) (h0 : 0 ≤ x) (h1 : x < 2147483648) : toInt32 x = x := by
  unfold toInt32; omega

/-- The reference lookup on a table that fits the `int32` count. -/
theorem resolveRefs_eq {A : Type} (refs : List Reference) (fx : Fixed) (rc : Record A)
    (hlen : refs.length < 2147483648) :
    Reader.resolveRefs refs fx rc =
      if fx.refID < -1 ∨ (refs.length : Int) ≤ fx.refID then Result.error Error.refOutOfRange
      else if fx.nextRefID < -1 ∨ (refs.length : Int) ≤ fx.nextRefID then
        Result.error Error.mateRefOutOfRange
      else Result.ok { rc with
        Ref := if fx.refID = -1 then none else refs[fx.refID.toNat]?
        MateRef := if fx.nextRefID = -1 then none else refs[fx.nextRefID.toNat]? } := by
  unfold Reader.resolveRefs
  simp only [toInt32_small _ (Int.ofNat_nonneg _) (by omega : (refs.length : Int) < 2147483648)]
  by_cases h1 : fx.refID < -1 ∨ (refs.length : Int) ≤ fx.refID
  · rw [if_pos h1, if_pos ⟨by omega, by omega⟩]
  rw [if_neg h1, if_neg (by omega)]
  have l1 : (if fx.refID ≠ -1 then Option.map some refs[fx.refID.toNat]? else some none) =
      some (if fx.refID = -1 then none else refs[fx.refID.toNat]?) := by
    by_cases e : fx.refID = -1
    · simp [e]
    · have : fx.refID.toNat < refs.length := by omega
      simp [e, List.getElem?_eq_getElem this]
  rw [l1]
  simp only []
  by_cases h2 : fx.nextRefID < -1 ∨ (refs.length : Int) ≤ fx.nextRefID
  · rw [if_pos h2, if_pos ⟨by omega, by omega⟩]
  rw [if_neg h2, if_neg (by omega)]
  have l2 : (if fx.nextRefID ≠ -1 then Option.map some refs[fx.nextRefID.toNat]? else some none) =
      some (if fx.nextRefID = -1 then none else refs[fx.nextRefID.toNat]?) := by
    by_cases e : fx.nextRefID = -1
    · simp [e]
    · have : fx.nextRefID.toNat < refs.length := by omega
      simp [e, List.getElem?_eq_getElem this]
  rw [l2]

theorem lookup_some (refs : List Reference) (x : Int) (ref : Option Reference)
    (h : (if x ≠ -1 then Option.map some refs[x.toNat]? else some none) = some ref) :
    (x = -1 → ref = none) ∧ (x ≠ -1 → ∃ r, refs[x.toNat]? = some r ∧ ref = some r) := by
  by_cases e : x = -1
  · rw [if_neg (by simpa using e)] at h
    exact ⟨fun _ => (Option.some.inj h).symm, fun c => absurd e c⟩
  · rw [if_pos e] at h
    refine ⟨fun c => absurd c e, fun _ => ?_⟩
    cases hr : refs[x.toNat]? with
    | none => rw [hr] at h; cases h
    | some r => rw [hr] at h; exact ⟨r, rfl, (Option.some.inj h).symm⟩

/-- What a successful reference lookup stores, for any table. -/
theorem resolveRefs_ok {A : Type} (refs : List Reference) (fx : Fixed) (rc rec : Record A)
    (h : Reader.resolveRefs refs fx rc = Result.ok rec) :
    -1 ≤ fx.refID ∧ -1 ≤ fx.nextRefID ∧
    (fx.refID = -1 → rec.Ref = none) ∧
    (fx.refID ≠ -1 → ∃ r, refs[fx.refID.toNat]? = some r ∧ rec.Ref = some r) ∧
    (fx.nextRefID = -1 → rec.MateRef = none) ∧
    (fx.nextRefID ≠ -1 → ∃ r, refs[fx.nextRefID.toNat]? = some r ∧ rec.MateRef = some r) ∧
    rec = { rc with Ref := rec.Ref, MateRef := rec.MateRef } := by
  unfold Reader.resolveRefs at h
  simp only [] at h
  by_cases c1 : fx.refID ≠ -1 ∧ (fx.refID < -1 ∨ fx.refID ≥ toInt32 (refs.length : Int))
  · rw [if_pos c1] at h; cases h
  rw [if_neg c1] at h
  cases hl1 : (if fx.refID ≠ -1 then Option.map some refs[fx.refID.toNat]? else some none) with
  | none => rw [hl1] at h; cases h
  | some ref =>
    rw [hl1] at h
    simp only [] at h
    by_cases c2 : fx.nextRefID ≠ -1 ∧
        (fx.nextRefID < -1 ∨ fx.nextRefID ≥ toInt32 (refs.length : Int))
    · rw [if_pos c2] at h; cases h
    rw [if_neg c2] at h
    cases hl2 : (if fx.nextRefID ≠ -1 then Option.map some refs[fx.nextRefID.toNat]?
        else some none) with
    | none => rw [hl2] at h; cases h
    | some mref =>
      rw [hl2] at h
      cases h
      obtain ⟨a1, a2⟩ := lookup_some refs _ _ hl1
      obtain ⟨b1, b2⟩ := lookup_some refs _ _ hl2
      refine ⟨?_, ?_, a1, a2, b1, b2, rfl⟩
      · by_cases e : fx.refID = -1
        · omega
        · have := not_and.mp c1 e; omega
      · by_cases e : fx.nextRefID = -1
        · omega
        · have := not_and.mp c2 e; omega
theorem byteAt_set_ne (bs : List UInt8) (i j : Nat) (x : UInt8) (h : j ≠ i) :
    byteAt (bs.set j x) i = byteAt bs i := by
  simp [byteAt, List.getElem?_set_ne h]

theorem byteAt_append (bs more : List UInt8) (i : Nat) (h : i < bs.length) :
    byteAt (bs ++ more) i = byteAt bs i := by
  simp [byteAt, List.getElem?_append_left h]

theorem byteAt_take (bs : List UInt8) (i k : Nat) (h : i < k) :
    byteAt (bs.take k) i = byteAt bs i := by
  simp [byteAt, List.getElem?_take_of_lt h]

theorem byteAt_drop (bs : List UInt8) (i k : Nat) :
    byteAt (bs.drop k) i = byteAt bs (k + i) := by
  simp [byteAt, List.getElem?_drop]

theorem take_set_le (l : List UInt8) (m n : Nat) (a : UInt8) (h : m ≤ n) :
    (l.set n a).take m = l.take m := by
  apply List.ext_getElem?
  intro i
  rw [List.getElem?_take, List.getElem?_take]
  split
  · rw [List.getElem?_set_ne (by omega)]
  · rfl

/-- The header fields depend only on the first 36 bytes, the two bytes of the
bin field apart. -/
theorem fixedOf_congr (bs bs' : List UInt8)
    (h : ∀ i, i < 36 → i ≠ 14 → i ≠ 15 → byteAt bs' i = byteAt bs i) :
    fixedOf bs' = fixedOf bs := by
  simp only [fixedOf, i32At, u16At, u8At, h 0 (by decide) (by decide) (by decide), h 1 (by decide) (by decide) (by decide), h 2 (by decide) (by decide) (by decide), h 3 (by decide) (by decide) (by decide), h 4 (by decide) (by decide) (by decide), h 5 (by decide) (by decide) (by decide), h 6 (by decide) (by decide) (by decide), h 7 (by decide) (by decide) (by decide), h 8 (by decide) (by decide) (by decide), h 9 (by decide) (by decide) (by decide), h 10 (by decide) (by decide) (by decide), h 11 (by decide) (by decide) (by decide), h 12 (by decide) (by decide) (by decide), h 13 (by decide) (by decide) (by decide), h 16 (by decide) (by decide) (by decide), h 17 (by decide) (by decide) (by decide), h 18 (by decide) (by decide) (by decide), h 19 (by decide) (by decide) (by decide), h 20 (by decide) (by decide) (by decide), h 21 (by decide) (by decide) (by decide), h 22 (by decide) (by decide) (by decide), h 23 (by decide) (by decide) (by decide), h 24 (by decide) (by decide) (by decide), h 25 (by decide) (by decide) (by decide), h 26 (by decide) (by decide) (by decide), h 27 (by decide) (by decide) (by decide), h 28 (by decide) (by decide) (by decide), h 29 (by decide) (by decide) (by decide), h 30 (by decide) (by decide) (by decide), h 31 (by decide) (by decide) (by decide), h 32 (by decide) (by decide) (by decide), h 33 (by decide) (by decide) (by decide), h 34 (by decide) (by decide) (by decide), h 35 (by decide) (by decide) (by decide)]

theorem readSpec_congr {A : Type} (parseAux : List UInt8 → Option A) (refs : List Reference)
    (bs bs' : List UInt8) (rc : Record A) (h1 : bs'.length = bs.length)
    (h2 : fixedOf bs' = fixedOf bs) (h3 : bs'.drop 36 = bs.drop 36) :
    readSpec parseAux refs bs' rc = readSpec parseAux refs bs rc := by
  unfold readSpec
  rw [h1, h2, h3]
theorem byteAt_append_right (len body : List UInt8) (i : Nat) :
    byteAt (len ++ body) (len.length + i) = byteAt body i := by
  simp [byteAt, List.getElem?_append_right]

/-- What an accepted read returns: the decoded record with the two references
filled in. -/
theorem Read_ok_rec {A : Type} (parseAux : List UInt8 → Option A) (refs : List Reference)
    (bs : List UInt8) (rc rec : Record A) (s' : List UInt8)
    (h : Reader.Read memRead parseAux refs bs rc = (Result.ok rec, s')) :
    ∃ tags, parseAux (auxBytes bs) = some tags ∧
      rec = { decoded bs rc tags with Ref := rec.Ref, MateRef := rec.MateRef } := by
  obtain ⟨_, tags, hp, hres, _⟩ := Read_ok parseAux refs bs rc rec s' h
  exact ⟨tags, hp, (resolveRefs_ok refs _ _ _ hres).2.2.2.2.2.2⟩

theorem fixedOf_append_len (len body : List UInt8) (hlen : len.length = 4) :
    fixedOf (len ++ body) =
      { blockSize := i32At len 0, refID := i32At body 0, pos := i32At body 4,
        nLen := u8At body 8, mapQ := u8At body 9, nCigar := u16At body 12,
        flags := u16At body 14, lSeq := i32At body 16, nextRefID := i32At body 20,
        nextPos := i32At body 24, tLen := i32At body 28 } := by
  have hb : ∀ i, byteAt (len ++ body) (4 + i) = byteAt body i := by
    intro i; rw [← hlen]; exact byteAt_append_right len body i
  have ha : ∀ i, i < 4 → byteAt (len ++ body) i = byteAt len i := by
    intro i hi; exact byteAt_append _ _ _ (by omega)
  simp only [fixedOf, i32At, u16At, u8At]
  rw [ha 0 (by decide), ha 1 (by decide), ha 2 (by decide), ha 3 (by decide)]
  rw [← hb 0, ← hb 1, ← hb 2, ← hb 3, ← hb 4, ← hb 5, ← hb 6, ← hb 7, ← hb 8, ← hb 9,
    ← hb 12, ← hb 13, ← hb 14, ← hb 15, ← hb 16, ← hb 17, ← hb 18, ← hb 19, ← hb 20, ← hb 21,
    ← hb 22, ← hb 23, ← hb 24, ← hb 25, ← hb 26, ← hb 27, ← hb 28, ← hb 29, ← hb 30, ← hb 31]

theorem drop_append_len (len body : List UInt8) (hlen : len.length = 4) (k : Nat) :
    (len ++ body).drop (36 + k) = body.drop (32 + k) := by
  rw [List.drop_append_eq_append_drop, hlen, List.drop_eq_nil_of_le (by omega)]
  simp
  congr 1
  omega

theorem seg_take_append (bs next : List UInt8) (o m k : Nat) (h1 : o + m ≤ k)
    (h2 : k ≤ bs.length) :
    ((bs.take k ++ next).drop o).take m = (bs.drop o).take m := by
  have hl : (bs.take k).length = k := by rw [List.length_take]; omega
  rw [List.drop_append_of_le_length (by omega),
    List.take_append_of_le_length (by rw [List.length_drop]; omega),
    List.drop_take, List.take_take]
  congr 1
  omega

theorem cigarOf_congr (c : Nat) : ∀ (s s' : List UInt8),
    s.take (4 * c) = s'.take (4 * c) → cigarOf s c = cigarOf s' c := by
  induction c with
  | zero =>
    intro s s' _
    rcases s with _ | ⟨a0, _ | ⟨a1, _ | ⟨a2, _ | ⟨a3, t⟩⟩⟩⟩ <;>
      rcases s' with _ | ⟨b0, _ | ⟨b1, _ | ⟨b2, _ | ⟨b3, t'⟩⟩⟩⟩ <;> simp [cigarOf]
  | succ c ih =>
    intro s s' h
    have e : 4 * (c + 1) = 4 * c + 1 + 1 + 1 + 1 := by omega
    rw [e] at h
    rcases s with _ | ⟨a0, _ | ⟨a1, _ | ⟨a2, _ | ⟨a3, t⟩⟩⟩⟩ <;>
      rcases s' with _ | ⟨b0, _ | ⟨b1, _ | ⟨b2, _ | ⟨b3, t'⟩⟩⟩⟩ <;>
      simp [cigarOf] at h ⊢
    obtain ⟨rfl, rfl, rfl, rfl, ht⟩ := h
    exact ⟨rfl, ih t t' ht⟩

theorem fixedOf_take_append (bs next : List UInt8) (k : Nat) (hk : 36 ≤ k)
    (hk2 : k ≤ bs.length) : fixedOf (bs.take k ++ next) = fixedOf bs := by
  apply fixedOf_congr
  intro i hi _ _
  rw [byteAt_append _ _ _ (by rw [List.length_take]; omega), byteAt_take _ _ _ (by omega)]
theorem drop_take_append (bs next : List UInt8) (k : Nat) (hk : k ≤ bs.length) :
    List.drop k (bs.take k ++ next) = next := by
  have hl : (bs.take k).length = k := by rw [List.length_take]; omega
  rw [List.drop_append_eq_append_drop, hl, Nat.sub_self, List.drop_eq_nil_of_le (by omega)]
  rfl

theorem le_cast_add (L : Int) (m : Nat) (hL : 0 ≤ L) :
    4 + L ≤ ((4 + L.toNat + m : Nat) : Int) := by omega

/-- Where the fields of a well-formed block lie within its `4 + L` bytes. -/
theorem fx_layout (fx : Fixed) (n : Nat) (h1 : 1 ≤ fx.nLen) (h2 : 0 ≤ fx.lSeq)
    (h3 : 0 ≤ fx.auxLen) (h4 : 4 + fx.blockSize ≤ (n : Int)) (hb : fx.blockSize < 2147483648) :
    36 ≤ 4 + fx.blockSize.toNat ∧ 4 + fx.blockSize.toNat ≤ n ∧
    36 + (fx.nLen - 1) ≤ 4 + fx.blockSize.toNat ∧
    fx.cigarOff + 4 * fx.nCigar ≤ 4 + fx.blockSize.toNat ∧
    fx.seqOff + (ceilHalf fx.lSeq).toNat ≤ 4 + fx.blockSize.toNat ∧
    fx.qualOff + fx.lSeq.toNat ≤ 4 + fx.blockSize.toNat ∧
    fx.auxOff + fx.auxLen.toNat = 4 + fx.blockSize.toNat ∧
    0 ≤ fx.blockSize := by
  obtain ⟨hc0, hpk, hL, hend⟩ := fx_facts fx h2 h3 hb
  clear hpk
  unfold Fixed.auxOff Fixed.auxLen at hend
  unfold Fixed.auxLen at h3
  unfold Fixed.cigarOff Fixed.seqOff Fixed.qualOff Fixed.auxOff Fixed.auxLen
  refine ⟨?_, ?_, ?_, ?_, ?_, ?_, ?_, ?_⟩ <;> omega

/-- An accepted block is decoded the same way whatever follows it, and `Read`
stops right after it. -/
theorem Read_frame {A : Type} (parseAux : List UInt8 → Option A) (refs : List Reference)
    (bs : List UInt8) (rc rec : Record A) (s' : List UInt8)
    (h : Reader.Read memRead parseAux refs bs rc = (Result.ok rec, s')) (next : List UInt8) :
    Reader.Read memRead parseAux refs (bs.take (4 + (fixedOf bs).blockSize.toNat) ++ next) rc
      = (Result.ok rec, next) := by
  obtain ⟨hw, tags, hp, hres, _⟩ := Read_ok parseAux refs bs rc rec s' h
  have hb := (blockSize_range bs).2
  obtain ⟨h1, h2, h3, h4, h5⟩ := hw
  obtain ⟨hk36, hkl, l1, l2, l3, l4, l5, hL⟩ := fx_layout _ _ h1 h2 h3 h4 hb
  have hfx := fixedOf_take_append bs next _ hk36 hkl
  have haux : auxBytes (bs.take (4 + (fixedOf bs).blockSize.toNat) ++ next) = auxBytes bs := by
    unfold auxBytes
    rw [hfx]
    exact seg_take_append _ _ _ _ _ (Nat.le_of_eq l5) hkl
  have hdec : decoded (bs.take (4 + (fixedOf bs).blockSize.toNat) ++ next) rc tags
      = decoded bs rc tags := by
    unfold decoded
    rw [hfx, seg_take_append bs next 36 _ _ l1 hkl,
      cigarOf_congr _ _ _ (seg_take_append bs next _ _ _ l2 hkl),
      seg_take_append bs next _ _ _ l3 hkl, seg_take_append bs next _ _ _ l4 hkl]
  have hw' : WellFormed parseAux (bs.take (4 + (fixedOf bs).blockSize.toNat) ++ next) := by
    unfold WellFormed
    rw [hfx, haux]
    refine ⟨h1, h2, h3, ?_, h5⟩
    rw [List.length_append, List.length_take, Nat.min_eq_left hkl]
    exact le_cast_add _ _ hL
  rw [Read_wf parseAux refs _ rc tags hw' (by rw [haux]; exact hp), hfx, hdec, hres,
    drop_take_append _ _ _ hkl]
theorem consumed_arith (L : Int) (n m : Nat) (hL : 0 ≤ L) (h : 4 + L.toNat ≤ n)
    (hm : m = n - (4 + L.toNat)) : (n : Int) - m = 4 + L := by omega

/-- The reference lookup fails exactly on an id outside `-1 ≤ id < refCount`,
first for the record's own reference, then for its mate's. -/
theorem resolveRefs_cases {A : Type} (refs : List Reference) (fx : Fixed) (rc : Record A)
    (hlen : refs.length < 2147483648) :
    ((∃ e, Reader.resolveRefs refs fx rc = Result.error e) ↔
      ¬ ((-1 ≤ fx.refID ∧ fx.refID < (refs.length : Int)) ∧
         (-1 ≤ fx.nextRefID ∧ fx.nextRefID < (refs.length : Int)))) ∧
    (¬ (-1 ≤ fx.refID ∧ fx.refID < (refs.length : Int)) →
      Reader.resolveRefs refs fx rc = Result.error Error.refOutOfRange) ∧
    ((-1 ≤ fx.refID ∧ fx.refID < (refs.length : Int)) →
      ¬ (-1 ≤ fx.nextRefID ∧ fx.nextRefID < (refs.length : Int)) →
      Reader.resolveRefs refs fx rc = Result.error Error.mateRefOutOfRange) ∧
    ((-1 ≤ fx.refID ∧ fx.refID < (refs.length : Int)) →
      (-1 ≤ fx.nextRefID ∧ fx.nextRefID < (refs.length : Int)) →
      ∃ rec, Reader.resolveRefs refs fx rc = Result.ok rec) := by
  rw [resolveRefs_eq refs fx rc hlen]
  by_cases c1 : fx.refID < -1 ∨ (refs.length : Int) ≤ fx.refID
  · rw [if_pos c1]
    refine ⟨⟨fun _ => (by omega), fun _ => ⟨_, rfl⟩⟩, fun _ => rfl, fun h => (by omega),
      fun h => (by omega)⟩
  · rw [if_neg c1]
    by_cases c2 : fx.nextRefID < -1 ∨ (refs.length : Int) ≤ fx.nextRefID
    · rw [if_pos c2]
      refine ⟨⟨fun _ => (by omega), fun _ => ⟨_, rfl⟩⟩, fun h => (by omega), fun _ _ => rfl,
        fun _ h => (by omega)⟩
    · rw [if_neg c2]
      refine ⟨⟨fun ⟨e, he⟩ => (by cases he), fun h => (by omega)⟩, fun h => (by omega),
        fun _ h => (by omega), fun _ _ => ⟨_, rfl⟩⟩

theorem resolveRefs_unmapped {A : Type} (refs : List Reference) (fx : Fixed) (rc : Record A)
    (h1 : fx.refID = -1) (h2 : fx.nextRefID = -1) :
    Reader.resolveRefs refs fx rc = Result.ok { rc with Ref := none, MateRef := none } := by
  unfold Reader.resolveRefs
  simp [h1, h2]

/-- The variable part on a stream that ends before the block does: the error of
the first field that is not there in full. -/
theorem varSpec_short {A : Type} (parseAux : List UInt8 → Option A) (fx : Fixed)
    (t : List UInt8) (n0 : Int) (rc : Record A)
    (h1 : 1 ≤ fx.nLen) (h2 : 0 ≤ fx.lSeq) (h3 : 0 ≤ packedLen fx.lSeq)
    (h4 : 0 ≤ fx.blockSize - (n0 + fx.nLen + 4 * fx.nCigar + packedLen fx.lSeq + fx.lSeq))
    (h5 : t.length < fx.nLen + 4 * fx.nCigar + (packedLen fx.lSeq).toNat + fx.lSeq.toNat +
      (fx.blockSize - (n0 + fx.nLen + 4 * fx.nCigar + packedLen fx.lSeq + fx.lSeq)).toNat) :
    varSpec parseAux fx t n0 rc =
      (Result.error
        (if t.length < fx.nLen then Error.truncatedName
         else if t.length < fx.nLen + 4 * fx.nCigar then Error.stream StreamError.EOF
         else if t.length < fx.nLen + 4 * fx.nCigar + (packedLen fx.lSeq).toNat then
           Error.truncatedSequence
         else if t.length < fx.nLen + 4 * fx.nCigar + (packedLen fx.lSeq).toNat + fx.lSeq.toNat
           then Error.truncatedQuality
         else Error.truncatedAux), []) := by
  unfold varSpec
  simp only []
  by_cases c1 : t.length < fx.nLen
  · rw [if_pos c1, if_pos c1]
  rw [if_neg c1, if_neg c1, if_neg (by omega)]
  by_cases c2 : t.length < fx.nLen + 4 * fx.nCigar
  · rw [if_pos c2, if_pos c2]
  rw [if_neg c2, if_neg c2, if_neg (by omega)]
  by_cases c3 : t.length < fx.nLen + 4 * fx.nCigar + (packedLen fx.lSeq).toNat
  · rw [if_pos c3, if_pos c3]
  rw [if_neg c3, if_neg c3, if_neg (by omega)]
  by_cases c4 : t.length < fx.nLen + 4 * fx.nCigar + (packedLen fx.lSeq).toNat + fx.lSeq.toNat
  · rw [if_pos c4, if_pos c4]
  rw [if_neg c4, if_neg c4, if_neg (by omega), if_pos h5]

theorem truncError_eq (fx : Fixed) (k : Nat) (hk : 36 ≤ k)
    (hpk : packedLen fx.lSeq = ceilHalf fx.lSeq) :
    (if k - 36 < fx.nLen then Error.truncatedName
     else if k - 36 < fx.nLen + 4 * fx.nCigar then Error.stream StreamError.EOF
     else if k - 36 < fx.nLen + 4 * fx.nCigar + (packedLen fx.lSeq).toNat then
       Error.truncatedSequence
     else if k - 36 < fx.nLen + 4 * fx.nCigar + (packedLen fx.lSeq).toNat + fx.lSeq.toNat
       then Error.truncatedQuality
     else Error.truncatedAux) = truncError fx k := by
  unfold truncError Fixed.cigarOff Fixed.seqOff Fixed.qualOff Fixed.auxOff
  rw [hpk]
  clear hpk
  split_ifs <;> first | rfl | omega

theorem trunc_arith (fx : Fixed) (k : Nat) (hk36 : 36 ≤ k) (hk : k < 4 + fx.blockSize.toNat)
    (hend : fx.auxOff + fx.auxLen.toNat = 4 + fx.blockSize.toNat) :
    k - 36 < fx.nLen + 4 * fx.nCigar + (ceilHalf fx.lSeq).toNat + fx.lSeq.toNat +
      (fx.blockSize - (32 + (fx.nLen : Int) + 4 * (fx.nCigar : Int) + ceilHalf fx.lSeq
        + fx.lSeq)).toNat := by
  unfold Fixed.auxOff Fixed.auxLen at hend
  omega

theorem fixedOf_take (bs : List UInt8) (k : Nat) (hk : 36 ≤ k) (hk2 : k ≤ bs.length) :
    fixedOf (bs.take k) = fixedOf bs := by
  have := fixedOf_take_append bs [] k hk hk2
  rwa [List.append_nil] at this

/-- `Read` on a stream that ends at offset `k` inside a well-formed block. -/
theorem Read_truncated {A : Type} (parseAux : List UInt8 → Option A) (refs : List Reference)
    (bs : List UInt8) (rc : Record A) (hw : WellFormed parseAux bs) (k : Nat)
    (hk : k < 4 + (fixedOf bs).blockSize.toNat) :
    Reader.Read memRead parseAux refs (bs.take k) rc =
      (Result.error (truncError (fixedOf bs) k), []) := by
  have hb := (blockSize_range bs).2
  obtain ⟨h1, h2, h3, h4, _⟩ := hw
  obtain ⟨_, hkl, _, _, _, _, hend, _⟩ := fx_layout _ _ h1 h2 h3 h4 hb
  obtain ⟨hc0, hpk, _, _⟩ := fx_facts _ h2 h3 hb
  have hkb : k ≤ bs.length := Nat.le_of_lt (Nat.lt_of_lt_of_le hk hkl)
  rw [Read_mem]
  unfold readSpec
  rw [List.length_take, Nat.min_eq_left hkb]
  by_cases c0 : k < 36
  · rw [if_pos c0]
    unfold truncError
    rw [if_pos c0]
  rw [if_neg c0]
  have hk36 : 36 ≤ k := Nat.le_of_not_lt c0
  rw [fixedOf_take bs k hk36 hkb]
  simp only []
  have hlen : ((bs.take k).drop 36).length = k - 36 := by
    rw [List.length_drop, List.length_take, Nat.min_eq_left hkb]
  have hv := varSpec_short parseAux (fixedOf bs) ((bs.take k).drop 36) 32
    { rc with Pos := (fixedOf bs).pos, MapQ := (fixedOf bs).mapQ, Flags := (fixedOf bs).flags,
              MatePos := (fixedOf bs).nextPos, TempLen := (fixedOf bs).tLen } h1 h2
    (by rw [hpk]; exact hc0) (by rw [hpk]; exact h3)
    (by rw [hlen, hpk]; exact trunc_arith _ _ hk36 hk hend)
  rw [hv, hlen, truncError_eq _ _ hk36 hpk]

/-- A declared length below 32 never yields a record. -/
theorem Read_small_length {A : Type} (parseAux : List UInt8 → Option A)
    (refs : List Reference) (bs : List UInt8) (rc rec : Record A) (s' : List UInt8)
    (hL : i32At bs 0 < 32) :
    Reader.Read memRead parseAux refs bs rc ≠ (Result.ok rec, s') := by
  intro h
  obtain ⟨⟨h1, h2, h3, _, _⟩, _⟩ := Read_ok parseAux refs bs rc rec s' h
  change (fixedOf bs).blockSize < 32 at hL
  generalize fixedOf bs = fx at *
  unfold Fixed.auxLen ceilHalf at h3
  omega

theorem varSpec_set_name {A : Type} (parseAux : List UInt8 → Option A) (fx : Fixed)
    (t : List UInt8) (n0 : Int) (rc : Record A) (x : UInt8) (h1 : 1 ≤ fx.nLen) :
    varSpec parseAux fx (t.set (fx.nLen - 1) x) n0 rc = varSpec parseAux fx t n0 rc := by
  have d : ∀ m, fx.nLen ≤ m → List.drop m (t.set (fx.nLen - 1) x) = List.drop m t :=
    fun m hm => List.drop_set_of_lt _ _ (by omega)
  unfold varSpec
  simp only [List.length_set, take_set_le _ _ _ _ (Nat.le_refl _)]
  rw [d _ (Nat.le_refl _), d _ (by omega), d _ (by omega), d _ (by omega), d _ (by omega)]
  have hn : ¬ fx.nLen = 0 := by omega
  rw [if_neg hn, if_neg hn]


/-! ## Streams that serve reads in full -/

theorem memRead_servesInFull : ServesInFull memRead := by
  intro s n h
  simp [memRead, h]

theorem memReadLate_servesInFull : ServesInFull memReadLate := by
  intro s n h
  simp [memReadLate, h]

section AnyStream

variable {rd : List UInt8 → Nat → ReadOut (List UInt8)}

theorem errRead_any (hrd : ServesInFull rd) (s : List UInt8) (n : Int) (k : Nat)
    (h : k ≤ s.length) :
    errReader.Read rd ⟨s, n, none⟩ k = (s.take k, ⟨s.drop k, n + k, none⟩) := by
  simp [errReader.Read, hrd s k h, Nat.min_eq_left h]

theorem readInt32_any (hrd : ServesInFull rd) (b0 b1 b2 b3 : UInt8) (t buf : List UInt8)
    (n : Int) :
    binaryReader.readInt32 rd ⟨⟨b0 :: b1 :: b2 :: b3 :: t, n, none⟩, buf⟩ =
      (toInt32 (le32 b0 b1 b2 b3), ⟨⟨t, n + 4, none⟩, b0 :: b1 :: b2 :: b3 :: buf.drop 4⟩) := by
  simp [binaryReader.readInt32, errRead_any hrd, overlay, byteAt]

theorem readUint32_any (hrd : ServesInFull rd) (b0 b1 b2 b3 : UInt8) (t buf : List UInt8)
    (n : Int) :
    binaryReader.readUint32 rd ⟨⟨b0 :: b1 :: b2 :: b3 :: t, n, none⟩, buf⟩ =
      (le32 b0 b1 b2 b3, ⟨⟨t, n + 4, none⟩, b0 :: b1 :: b2 :: b3 :: buf.drop 4⟩) := by
  simp [binaryReader.readUint32, errRead_any hrd, overlay, byteAt]

theorem readUint16_any (hrd : ServesInFull rd) (b0 b1 : UInt8) (t buf : List UInt8) (n : Int) :
    binaryReader.readUint16 rd ⟨⟨b0 :: b1 :: t, n, none⟩, buf⟩ =
      (le16 b0 b1, ⟨⟨t, n + 2, none⟩, b0 :: b1 :: buf.drop 2⟩) := by
  simp [binaryReader.readUint16, errRead_any hrd, overlay, byteAt]

theorem readUint8_any (hrd : ServesInFull rd) (b0 : UInt8) (t buf : List UInt8) (n : Int) :
    binaryReader.readUint8 rd ⟨⟨b0 :: t, n, none⟩, buf⟩ =
      (b0.toNat, ⟨⟨t, n + 1, none⟩, b0 :: buf.drop 1⟩) := by
  simp [binaryReader.readUint8, errRead_any hrd, overlay, byteAt]

theorem readFixed_any (hrd : ServesInFull rd) (bs : List UInt8) (h : 36 ≤ bs.length) :
    Reader.readFixed rd bs = Reader.readFixed memRead bs := by
  rw [readFixed_full bs h]
  iterate 36 (rcases bs with _ | ⟨b, bs⟩; · simp at h)
  simp only [Reader.readFixed, readInt32_any hrd, readUint8_any hrd, readUint16_any hrd]
  simp [fixedOf, i32At, u16At, u8At, byteAt]

theorem cigarLoop_any (hrd : ServesInFull rd) (k : Nat) :
    ∀ (s buf : List UInt8) (n : Int) (co : List Nat), 4 * k ≤ s.length →
    (readCigarOpsLoop rd k ⟨⟨s, n, none⟩, buf⟩ co).1 = co ++ cigarOf s k ∧
    (readCigarOpsLoop rd k ⟨⟨s, n, none⟩, buf⟩ co).2.r = ⟨s.drop (4 * k), n + 4 * k, none⟩ := by
  induction k with
  | zero => intro s buf n co _; simp [readCigarOpsLoop, cigarOf]
  | succ k ih =>
    intro s buf n co h
    obtain ⟨b0, b1, b2, b3, t, rfl⟩ : ∃ b0 b1 b2 b3 t, s = b0 :: b1 :: b2 :: b3 :: t := by
      rcases s with _ | ⟨b0, _ | ⟨b1, _ | ⟨b2, _ | ⟨b3, t⟩⟩⟩⟩ <;> simp at h <;> try omega
      exact ⟨_, _, _, _, _, rfl⟩
    have ht : 4 * k ≤ t.length := by simp at h; omega
    obtain ⟨h1, h2⟩ := ih t (b0 :: b1 :: b2 :: b3 :: buf.drop 4) (n + 4)
      (co ++ [le32 b0 b1 b2 b3]) ht
    simp only [readCigarOpsLoop, readUint32_any hrd]
    rw [h1, h2]
    refine ⟨by simp [cigarOf], ?_⟩
    have e : 4 * (k + 1) = 4 + 4 * k := by omega
    rw [e, ← List.drop_drop]
    simp
    omega

theorem readCigarOps_any (hrd : ServesInFull rd) (s buf : List UInt8) (n : Int) (k : Nat)
    (h : 4 * k ≤ s.length) :
    (readCigarOps rd ⟨⟨s, n, none⟩, buf⟩ k).1 = cigarOf s k ∧
    (readCigarOps rd ⟨⟨s, n, none⟩, buf⟩ k).2.r = ⟨s.drop (4 * k), n + 4 * k, none⟩ := by
  simpa [readCigarOps] using cigarLoop_any hrd k s buf n [] h

/-- On a stream that holds all the bytes `Read` asks for, the variable part runs
the same on every stream that serves reads in full. -/
theorem readVariable_any {A : Type} (hrd : ServesInFull rd) (parseAux : List UInt8 → Option A)
    (fx : Fixed) (t buf : List UInt8) (n0 : Int) (rc : Record A)
    (hc : fx.nLen + 4 * fx.nCigar + (packedLen fx.lSeq).toNat + fx.lSeq.toNat +
      (fx.blockSize - (n0 + fx.nLen + 4 * fx.nCigar + packedLen fx.lSeq + fx.lSeq)).toNat
        ≤ t.length) :
    Reader.readVariable rd parseAux fx ⟨⟨t, n0, none⟩, buf⟩ rc =
      varSpec parseAux fx t n0 rc := by
  unfold Reader.readVariable varSpec
  simp only [buf_alloc_nonneg _ (Int.ofNat_nonneg fx.nLen), List.length_replicate, Int.toNat_ofNat]
  have h1 : ¬ t.length < fx.nLen := by omega
  rw [if_neg h1]
  have h1' : fx.nLen ≤ t.length := by omega
  simp only [errRead_any hrd _ _ _ h1', List.length_take, Nat.min_eq_left h1', ne_eq,
    not_true_eq_false, if_false, overlay_take _ _ h1']
  by_cases h0 : fx.nLen = 0
  · simp [h0, sliceTo]
  rw [if_neg h0, sliceTo_take _ _ (by omega) h1']
  simp only []
  have h2 : ¬ t.length < fx.nLen + 4 * fx.nCigar := by omega
  rw [if_neg h2]
  have h2' : 4 * fx.nCigar ≤ (List.drop fx.nLen t).length := by
    simp only [List.length_drop]; omega
  obtain ⟨e1, e2⟩ := readCigarOps_any hrd _ buf (n0 + fx.nLen) _ h2'
  simp only [e1, e2, List.drop_drop]
  by_cases h3 : packedLen fx.lSeq < 0
  · simp only [buf_alloc_neg _ h3, if_pos h3]
  rw [if_neg h3]
  have h3' : 0 ≤ packedLen fx.lSeq := by omega
  simp only [buf_alloc_nonneg _ h3', List.length_replicate]
  have hsb : ((packedLen fx.lSeq).toNat : Int) = packedLen fx.lSeq := Int.toNat_of_nonneg h3'
  have h4 : ¬ t.length < fx.nLen + 4 * fx.nCigar + (packedLen fx.lSeq).toNat := by omega
  rw [if_neg h4]
  have h4' : (packedLen fx.lSeq).toNat ≤ (List.drop (fx.nLen + 4 * fx.nCigar) t).length := by
    simp only [List.length_drop]; omega
  simp only [errRead_any hrd _ _ _ h4', List.length_take, Nat.min_eq_left h4', hsb,
    not_true_eq_false, if_false, overlay_take _ _ h4', List.drop_drop]
  by_cases h5 : fx.lSeq < 0
  · simp only [buf_alloc_neg _ h5, if_pos h5]
  rw [if_neg h5]
  have h5' : 0 ≤ fx.lSeq := by omega
  have hls : ((fx.lSeq).toNat : Int) = fx.lSeq := Int.toNat_of_nonneg h5'
  simp only [buf_alloc_nonneg _ h5', List.length_replicate]
  have h6 : ¬ t.length < fx.nLen + 4 * fx.nCigar + (packedLen fx.lSeq).toNat + fx.lSeq.toNat := by
    omega
  rw [if_neg h6]
  have h6' : fx.lSeq.toNat ≤
      (List.drop (fx.nLen + 4 * fx.nCigar + (packedLen fx.lSeq).toNat) t).length := by
    simp only [List.length_drop]; omega
  simp only [errRead_any hrd _ _ _ h6', List.length_take, Nat.min_eq_left h6', hsb, hls,
    not_true_eq_false, if_false, overlay_take _ _ h6', List.drop_drop]
  generalize hn : n0 + ↑fx.nLen + 4 * ↑fx.nCigar + packedLen fx.lSeq + fx.lSeq = n4 at *
  generalize ha : fx.blockSize - n4 = a at *
  generalize ho : fx.nLen + 4 * fx.nCigar + (packedLen fx.lSeq).toNat + fx.lSeq.toNat = o4 at *
  by_cases h7 : a < 0
  · simp only [buf_alloc_neg _ h7, if_pos h7]
  rw [if_neg h7]
  have h7' : 0 ≤ a := by omega
  have hat : ((a.toNat : Nat) : Int) = a := Int.toNat_of_nonneg h7'
  simp only [buf_alloc_nonneg _ h7', List.length_replicate]
  have h8 : ¬ t.length < o4 + a.toNat := by omega
  rw [if_neg h8]
  have h8' : a.toNat ≤ (List.drop o4 t).length := by
    simp only [List.length_drop]; omega
  have h8'' : n4 + a = fx.blockSize := by omega
  simp only [errRead_any hrd _ _ _ h8', hat, h8'', not_true_eq_false, if_false,
    overlay_take _ _ h8', List.drop_drop]

/-- On a stream that holds all the bytes `Read` asks for, `Read` runs the same
on every stream that serves reads in full as on the in-memory stream. -/
theorem Read_supplied {A : Type} (hrd : ServesInFull rd) (parseAux : List UInt8 → Option A)
    (refs : List Reference) (bs : List UInt8) (rc : Record A) (hs : Supplied bs) :
    Reader.Read rd parseAux refs bs rc = Reader.Read memRead parseAux refs bs rc := by
  unfold Supplied Fixed.requested at hs
  have h36 : 36 ≤ bs.length := Nat.le_trans (Nat.le_add_right _ _) hs
  have hlen : (bs.drop 36).length = bs.length - 36 := List.length_drop _ _
  unfold Reader.Read
  rw [readFixed_any hrd bs h36, readFixed_full bs h36]
  simp only []
  rw [readVariable_mem]
  rw [readVariable_any hrd parseAux (fixedOf bs) (bs.drop 36) _ 32 _
    (by rw [hlen]; exact Nat.le_sub_of_add_le (by rw [Nat.add_comm]; exact hs))]

end AnyStream

/-! ## Accepted blocks on the in-memory stream -/

/-- The header fields of an accepted record, on the in-memory stream. -/
theorem fixed_header_mem {A : Type} (parseAux : List UInt8 → Option A) (refs : List Reference)
    (len body : List UInt8) (rc rec : Record A) (s' : List UInt8) (hlen : len.length = 4)
    (h : Reader.Read memRead parseAux refs (len ++ body) rc = (Result.ok rec, s')) :
    rec.Pos = i32At body 4 ∧ rec.MapQ = u8At body 9 ∧ rec.Flags = u16At body 14 ∧
    rec.MatePos = i32At body 24 ∧ rec.TempLen = i32At body 28 ∧
    ∀ x y : UInt8, Reader.Read memRead parseAux refs (len ++ (body.set 10 x).set 11 y) rc
      = (Result.ok rec, s') := by
  obtain ⟨tags, _, hrec⟩ := Read_ok_rec parseAux refs _ rc rec s' h
  have hb : ∀ i, byteAt (len ++ body) (4 + i) = byteAt body i := by
    intro i; rw [← hlen]; exact byteAt_append_right len body i
  refine ⟨?_, ?_, ?_, ?_, ?_, ?_⟩
  · rw [hrec]; simp only [decoded, fixedOf, i32At]
    rw [← hb 4, ← hb 5, ← hb 6, ← hb 7]
  · rw [hrec]; simp only [decoded, fixedOf, u8At]
    rw [← hb 9]
  · rw [hrec]; simp only [decoded, fixedOf, u16At]
    rw [← hb 14, ← hb 15]
  · rw [hrec]; simp only [decoded, fixedOf, i32At]
    rw [← hb 24, ← hb 25, ← hb 26, ← hb 27]
  · rw [hrec]; simp only [decoded, fixedOf, i32At]
    rw [← hb 28, ← hb 29, ← hb 30, ← hb 31]
  · intro x y
    rw [← h, Read_mem, Read_mem]
    apply readSpec_congr
    · simp
    · apply fixedOf_congr
      intro i hi h14 h15
      by_cases h4 : i < 4
      · rw [byteAt_append _ _ _ (by omega), byteAt_append _ _ _ (by omega)]
      · obtain ⟨j, rfl⟩ : ∃ j, i = 4 + j := ⟨i - 4, by omega⟩
        rw [← hlen, byteAt_append_right, byteAt_append_right,
          byteAt_set_ne _ _ _ _ (by omega), byteAt_set_ne _ _ _ _ (by omega)]
    · rw [List.drop_append_eq_append_drop, List.drop_append_eq_append_drop, hlen,
        List.drop_set_of_lt _ _ (by omega), List.drop_set_of_lt _ _ (by omega)]

/-- The variable length fields of an accepted record, on the in-memory stream. -/
theorem variable_layout_mem {A : Type} (parseAux : List UInt8 → Option A)
    (refs : List Reference) (len body : List UInt8) (rc rec : Record A) (s' : List UInt8)
    (hlen : len.length = 4)
    (h : Reader.Read memRead parseAux refs (len ++ body) rc = (Result.ok rec, s')) :
    1 ≤ u8At body 8 ∧ 0 ≤ i32At body 16 ∧ i32At len 0 ≤ (body.length : Int) ∧
    rec.Name = (body.drop 32).take (u8At body 8 - 1) ∧
    rec.Seq.Seq = (body.drop (32 + (u8At body 8 + 4 * u16At body 12))).take
      (ceilHalf (i32At body 16)).toNat ∧
    rec.Seq.Length = i32At body 16 ∧
    rec.Qual = (body.drop (32 + (u8At body 8 + 4 * u16At body 12
      + (ceilHalf (i32At body 16)).toNat))).take (i32At body 16).toNat ∧
    0 ≤ i32At len 0 - (32 + u8At body 8 + 4 * u16At body 12 + ceilHalf (i32At body 16)
      + i32At body 16) ∧
    parseAux ((body.drop (32 + (u8At body 8 + 4 * u16At body 12
        + (ceilHalf (i32At body 16)).toNat + (i32At body 16).toNat))).take
      (i32At len 0 - (32 + u8At body 8 + 4 * u16At body 12 + ceilHalf (i32At body 16)
        + i32At body 16)).toNat) = some rec.AuxTags ∧
    (i32At body 16 = 0 → rec.Seq.Seq = [] ∧ rec.Qual = [] ∧
      parseAux ((body.drop (32 + (u8At body 8 + 4 * u16At body 12))).take
        (i32At len 0 - (32 + u8At body 8 + 4 * u16At body 12)).toNat) = some rec.AuxTags) := by
  obtain ⟨hw, _⟩ := Read_ok parseAux refs _ rc rec s' h
  obtain ⟨tags, hp, hrec⟩ := Read_ok_rec parseAux refs _ rc rec s' h
  obtain ⟨h1, h2, h3, h4, _⟩ := hw
  have hN := congrArg (fun r => r.Seq.Length) hrec
  have hName := congrArg (fun r => r.Name) hrec
  have hSeq := congrArg (fun r => r.Seq.Seq) hrec
  have hQual := congrArg (fun r => r.Qual) hrec
  have hAux := congrArg (fun r => r.AuxTags) hrec
  simp only [decoded] at hN hName hSeq hQual hAux
  unfold auxBytes at hp
  unfold Fixed.auxOff Fixed.auxLen at hp
  unfold Fixed.auxLen at h3
  unfold Fixed.seqOff at hSeq
  unfold Fixed.qualOff at hQual
  rw [drop_append_len _ _ hlen] at hp hSeq hQual
  rw [show (36 : Nat) = 36 + 0 from rfl, drop_append_len _ _ hlen] at hName
  rw [fixedOf_append_len _ _ hlen] at h1 h2 h3 h4 hp hN hName hSeq hQual
  simp only [] at h1 h2 h3 h4 hp hN hName hSeq hQual
  rw [List.length_append, hlen] at h4
  rw [← hAux] at hp
  refine ⟨h1, h2, by omega, hName, hSeq, hN, hQual, h3, hp, ?_⟩
  intro h0
  rw [h0] at hSeq hQual hp
  refine ⟨by simpa [ceilHalf] using hSeq, by simpa using hQual, ?_⟩
  simpa [ceilHalf] using hp

/-- The bytes an accepted `Read` takes, on the in-memory stream. -/
theorem block_size_mem {A : Type} (parseAux : List UInt8 → Option A) (refs : List Reference)
    (bs : List UInt8) (rc rec : Record A) (s' : List UInt8)
    (h : Reader.Read memRead parseAux refs bs rc = (Result.ok rec, s')) :
    0 ≤ i32At bs 0 ∧ s' = bs.drop (4 + (i32At bs 0).toNat) ∧
    (bs.length : Int) - s'.length = 4 + i32At bs 0 ∧
    ∀ (b2 rest : List UInt8) (rc2 rec2 : Record A),
      Reader.Read memRead parseAux refs b2 rc2 = (Result.ok rec2, []) →
      Reader.Read memRead parseAux refs (bs.take (4 + (i32At bs 0).toNat) ++ (b2 ++ rest)) rc
        = (Result.ok rec, b2 ++ rest) ∧
      Reader.Read memRead parseAux refs
        (Reader.Read memRead parseAux refs
          (bs.take (4 + (i32At bs 0).toNat) ++ (b2 ++ rest)) rc).2 rc2
        = (Result.ok rec2, rest) := by
  obtain ⟨hw, tags, hp, hres, hs⟩ := Read_ok parseAux refs bs rc rec s' h
  have hb := (blockSize_range bs).2
  obtain ⟨h1, h2, h3, h4, h5⟩ := hw
  obtain ⟨_, hkl, _, _, _, _, _, hL⟩ := fx_layout _ _ h1 h2 h3 h4 hb
  have hfr := Read_frame parseAux refs bs rc rec s' h
  change 0 ≤ i32At bs 0 at hL
  change 4 + (i32At bs 0).toNat ≤ bs.length at hkl
  change s' = bs.drop (4 + (i32At bs 0).toNat) at hs
  change ∀ next, Reader.Read memRead parseAux refs
    (bs.take (4 + (i32At bs 0).toNat) ++ next) rc = (Result.ok rec, next) at hfr
  refine ⟨hL, hs, ?_, ?_⟩
  · exact consumed_arith _ _ _ hL hkl (by rw [hs, List.length_drop])
  · intro b2 rest rc2 rec2 h2
    have hf2 := Read_frame parseAux refs b2 rc2 rec2 [] h2 rest
    obtain ⟨_, _, _, _, hs2⟩ := Read_ok parseAux refs b2 rc2 rec2 [] h2
    have hlen2 : b2.length ≤ 4 + (fixedOf b2).blockSize.toNat := by
      have := congrArg List.length hs2
      rw [List.length_drop, List.length_nil] at this
      exact Nat.le_of_sub_eq_zero this.symm
    rw [List.take_of_length_le hlen2] at hf2
    rw [hfr (b2 ++ rest)]
    exact ⟨rfl, hf2⟩

/-- The reference ids `Read` rejects, on the in-memory stream. -/
theorem reference_bounds_mem {A : Type} (parseAux : List UInt8 → Option A)
    (refs : List Reference) (bs : List UInt8) (rc : Record A)
    (hw : WellFormed parseAux bs) (hlen : refs.length < 2147483648) :
    ((∃ e, (Reader.Read memRead parseAux refs bs rc).1 = Result.error e) ↔
      ¬ ((-1 ≤ i32At bs 4 ∧ i32At bs 4 < (refs.length : Int)) ∧
         (-1 ≤ i32At bs 24 ∧ i32At bs 24 < (refs.length : Int)))) ∧
    (¬ (-1 ≤ i32At bs 4 ∧ i32At bs 4 < (refs.length : Int)) →
      (Reader.Read memRead parseAux refs bs rc).1 = Result.error Error.refOutOfRange) ∧
    ((-1 ≤ i32At bs 4 ∧ i32At bs 4 < (refs.length : Int)) →
      ¬ (-1 ≤ i32At bs 24 ∧ i32At bs 24 < (refs.length : Int)) →
      (Reader.Read memRead parseAux refs bs rc).1 = Result.error Error.mateRefOutOfRange) ∧
    ((-1 ≤ i32At bs 4 ∧ i32At bs 4 < (refs.length : Int)) →
      (-1 ≤ i32At bs 24 ∧ i32At bs 24 < (refs.length : Int)) →
      ∃ rec, (Reader.Read memRead parseAux refs bs rc).1 = Result.ok rec) := by
  have hp : ∃ tags, parseAux (auxBytes bs) = some tags := Option.isSome_iff_exists.mp hw.2.2.2.2
  obtain ⟨tags, hp⟩ := hp
  rw [Read_wf parseAux refs bs rc tags hw hp]
  have key := resolveRefs_cases refs (fixedOf bs) (decoded bs rc tags) hlen
  simp only [fixedOf] at key ⊢
  exact key

/-- The references of an accepted record, on the in-memory stream. -/
theorem reference_resolution_mem {A : Type} (parseAux : List UInt8 → Option A)
    (refs : List Reference) (bs : List UInt8) (rc : Record A) :
    (∀ rec s', Reader.Read memRead parseAux refs bs rc = (Result.ok rec, s') →
      -1 ≤ i32At bs 4 ∧ -1 ≤ i32At bs 24 ∧
      (i32At bs 4 = -1 → rec.Ref = none) ∧
      (i32At bs 4 ≠ -1 → ∃ r, refs[(i32At bs 4).toNat]? = some r ∧ rec.Ref = some r) ∧
      (i32At bs 24 = -1 → rec.MateRef = none) ∧
      (i32At bs 24 ≠ -1 → ∃ r, refs[(i32At bs 24).toNat]? = some r ∧ rec.MateRef = some r)) ∧
    (WellFormed parseAux bs → i32At bs 4 = -1 → i32At bs 24 = -1 →
      ∃ rec, (Reader.Read memRead parseAux refs bs rc).1 = Result.ok rec ∧
        rec.Ref = none ∧ rec.MateRef = none) := by
  constructor
  · intro rec s' h
    obtain ⟨_, tags, _, hres, _⟩ := Read_ok parseAux refs bs rc rec s' h
    obtain ⟨a1, a2, a3, a4, a5, a6, _⟩ := resolveRefs_ok refs _ _ _ hres
    simp only [fixedOf] at a1 a2 a3 a4 a5 a6
    exact ⟨a1, a2, a3, a4, a5, a6⟩
  · intro hw h1 h2
    obtain ⟨tags, hp⟩ := Option.isSome_iff_exists.mp hw.2.2.2.2
    rw [Read_wf parseAux refs bs rc tags hw hp]
    have key := resolveRefs_unmapped refs (fixedOf bs) (decoded bs rc tags)
      (by simp only [fixedOf]; exact h1) (by simp only [fixedOf]; exact h2)
    dsimp only
    rw [key]
    exact ⟨_, rfl, rfl, rfl⟩

/-- The last name byte has no influence, on the in-memory stream. -/
theorem name_terminator_mem {A : Type} (parseAux : List UInt8 → Option A)
    (refs : List Reference) (bs : List UInt8) (rc rec : Record A) (s' : List UInt8)
    (h : Reader.Read memRead parseAux refs bs rc = (Result.ok rec, s')) (x : UInt8) :
    1 ≤ u8At bs 12 ∧ rec.Name = (bs.drop 36).take (u8At bs 12 - 1) ∧
    Reader.Read memRead parseAux refs (bs.set (36 + (u8At bs 12 - 1)) x) rc
      = (Result.ok rec, s') := by
  obtain ⟨⟨h1, _⟩, _⟩ := Read_ok parseAux refs bs rc rec s' h
  obtain ⟨tags, _, hrec⟩ := Read_ok_rec parseAux refs bs rc rec s' h
  have hName := congrArg (fun r => r.Name) hrec
  simp only [decoded] at hName
  change 1 ≤ u8At bs 12 at h1
  change rec.Name = (bs.drop 36).take (u8At bs 12 - 1) at hName
  refine ⟨h1, hName, ?_⟩
  have hfx : fixedOf (bs.set (36 + (u8At bs 12 - 1)) x) = fixedOf bs := by
    apply fixedOf_congr
    intro i hi _ _
    exact byteAt_set_ne _ _ _ _ (by omega)
  rw [← h, Read_mem, Read_mem]
  unfold readSpec
  rw [List.length_set, hfx, ← List.set_drop]
  have hv := varSpec_set_name parseAux (fixedOf bs) (bs.drop 36) 32
    { rc with Pos := (fixedOf bs).pos, MapQ := (fixedOf bs).mapQ, Flags := (fixedOf bs).flags,
              MatePos := (fixedOf bs).nextPos, TempLen := (fixedOf bs).tLen } x h1
  change varSpec parseAux (fixedOf bs) ((bs.drop 36).set (u8At bs 12 - 1) x) 32 _ = _ at hv
  simp only []
  rw [hv]


/-! ## From the in-memory stream to every stream -/

theorem requested_eq (fx : Fixed) (h2 : 0 ≤ fx.lSeq) (h3 : 0 ≤ fx.auxLen)
    (hb : fx.blockSize < 2147483648) : fx.requested = 4 + fx.blockSize.toNat := by
  obtain ⟨_, hpk, _, hend⟩ := fx_facts fx h2 h3 hb
  unfold Fixed.requested
  rw [hpk]
  clear hpk
  unfold Fixed.auxOff Fixed.auxLen at hend
  omega

/-- A stream that begins with a well-formed block holds all the bytes `Read`
asks for. -/
theorem Supplied_of_wf {A : Type} {parseAux : List UInt8 → Option A} {bs : List UInt8}
    (hw : WellFormed parseAux bs) : Supplied bs := by
  obtain ⟨h1, h2, h3, h4, _⟩ := hw
  have hb := (blockSize_range bs).2
  obtain ⟨_, hkl, _⟩ := fx_layout _ _ h1 h2 h3 h4 hb
  unfold Supplied
  rw [requested_eq _ h2 h3 hb]
  exact hkl

/-- A stream the in-memory `Read` accepts holds all the bytes `Read` asks for. -/
theorem Supplied_of_ok {A : Type} {parseAux : List UInt8 → Option A} {refs : List Reference}
    {bs : List UInt8} {rc rec : Record A} {s' : List UInt8}
    (h : Reader.Read memRead parseAux refs bs rc = (Result.ok rec, s')) : Supplied bs :=
  Supplied_of_wf (Read_ok parseAux refs bs rc rec s' h).1

theorem Supplied_congr (bs bs' : List UInt8) (h1 : bs'.length = bs.length)
    (h2 : fixedOf bs' = fixedOf bs) (hs : Supplied bs) : Supplied bs' := by
  unfold Supplied at hs ⊢
  rw [h1, h2]
  exact hs

theorem fixedOf_set_bin (len body : List UInt8) (x y : UInt8) (hlen : len.length = 4) :
    fixedOf (len ++ (body.set 10 x).set 11 y) = fixedOf (len ++ body) := by
  apply fixedOf_congr
  intro i hi h14 h15
  by_cases h4 : i < 4
  · rw [byteAt_append _ _ _ (by omega), byteAt_append _ _ _ (by omega)]
  · obtain ⟨j, rfl⟩ : ∃ j, i = 4 + j := ⟨i - 4, by omega⟩
    rw [← hlen, byteAt_append_right, byteAt_append_right,
      byteAt_set_ne _ _ _ _ (by omega), byteAt_set_ne _ _ _ _ (by omega)]

theorem fixedOf_set_tail (bs : List UInt8) (i : Nat) (x : UInt8) (hi : 36 ≤ i) :
    fixedOf (bs.set i x) = fixedOf bs := by
  apply fixedOf_congr
  intro j hj _ _
  exact byteAt_set_ne _ _ _ _ (by omega)


/-! ## CIGAR words and runs of reads -/

theorem cigarOf_length (k : Nat) : ∀ s : List UInt8, 4 * k ≤ s.length →
    (cigarOf s k).length = k := by
  induction k with
  | zero => intro s _; cases s <;> simp [cigarOf]
  | succ k ih =>
    intro s h
    match s, h with
    | b0 :: b1 :: b2 :: b3 :: t, h =>
      simp only [cigarOf, List.length_cons]
      rw [ih t (by simp only [List.length_cons] at h; omega)]

theorem cigarOf_get (k : Nat) : ∀ (s : List UInt8) (i : Nat), 4 * k ≤ s.length → i < k →
    (cigarOf s k)[i]? = some (le32 (byteAt s (4 * i)) (byteAt s (4 * i + 1))
      (byteAt s (4 * i + 2)) (byteAt s (4 * i + 3))) := by
  induction k with
  | zero => intro s i _ hi; omega
  | succ k ih =>
    intro s i h hi
    match s, h with
    | b0 :: b1 :: b2 :: b3 :: t, h =>
      cases i with
      | zero => simp [cigarOf, byteAt]
      | succ j =>
        simp only [cigarOf, List.getElem?_cons_succ]
        rw [ih t j (by simp only [List.length_cons] at h; omega) (by omega)]
        have e : ∀ m, byteAt (b0 :: b1 :: b2 :: b3 :: t) (4 * (j + 1) + m) = byteAt t (4 * j + m) := by
          intro m
          have : 4 * (j + 1) + m = (4 * j + m) + 1 + 1 + 1 + 1 := by omega
          rw [this]
          simp [byteAt]
        have e0 := e 0
        simp only [Nat.add_zero] at e0
        rw [e0, e 1, e 2, e 3]

theorem le32_bytes (b0 b1 b2 b3 : UInt8) :
    le32 b0 b1 b2 b3 < 4294967296 ∧
    le32 b0 b1 b2 b3 % 256 = b0.toNat ∧ le32 b0 b1 b2 b3 / 256 % 256 = b1.toNat ∧
    le32 b0 b1 b2 b3 / 65536 % 256 = b2.toNat ∧ le32 b0 b1 b2 b3 / 16777216 = b3.toNat := by
  have h0 := b0.toNat_lt
  have h1 := b1.toNat_lt
  have h2 := b2.toNat_lt
  have h3 := b3.toNat_lt
  unfold le32
  simp only [UInt8.size] at h0 h1 h2 h3
  refine ⟨?_, ?_, ?_, ?_, ?_⟩ <;> omega

theorem run_sticky {σ : Type} (rd : σ → Nat → ReadOut σ) (r : errReader σ) (e : StreamError)
    (h : r.err = some e) : ∀ ks : List Nat, errReader.run rd r ks = r := by
  intro ks
  induction ks with
  | nil => rfl
  | cons k ks ih =>
    have h1 : errReader.Read rd r k = ([], r) := by
      unfold errReader.Read
      rw [h]
    simp only [errReader.run, h1]
    exact ih

theorem logSum_append (l : List Nat) (k : Nat) : logSum (l ++ [k]) = logSum l + k := by
  induction l with
  | nil => simp [logSum]
  | cons a l ih =>
    show (a : Int) + logSum (l ++ [k]) = (a : Int) + logSum l + k
    rw [ih]
    omega

theorem run_count {σ : Type} (rd : σ → Nat → ReadOut σ) (ks : List Nat) :
    ∀ r : errReader (σ × List Nat), r.n = logSum r.r.2 →
      (errReader.run (logged rd) r ks).n = logSum (errReader.run (logged rd) r ks).r.2 := by
  induction ks with
  | nil => intro r h; exact h
  | cons k ks ih =>
    intro r h
    simp only [errReader.run]
    apply ih
    unfold errReader.Read
    cases he : r.err with
    | some e => exact h
    | none =>
      simp only [logged]
      rw [logSum_append, h]

/-! ## The record passed in, and blocks with an empty name -/

theorem readVariable_rc {σ A : Type} (rd : σ → Nat → ReadOut σ)
    (parseAux : List UInt8 → Option A) (fx : Fixed) (bin : binaryReader σ) (rc rc' : Record A) :
    Reader.readVariable rd parseAux fx bin rc' =
      ((Reader.readVariable rd parseAux fx bin rc).1.over (fun r => rc'.withVar r),
       (Reader.readVariable rd parseAux fx bin rc).2) := by
  unfold Reader.readVariable
  repeat' first | split | (dsimp only; split)
  all_goals rfl

theorem resolveRefs_congr {A : Type} (refs : List Reference) (fx : Fixed) (a b : Record A)
    (h : { a with Ref := none, MateRef := none } = { b with Ref := none, MateRef := none }) :
    Reader.resolveRefs refs fx a = Reader.resolveRefs refs fx b := by
  have key : ∀ x y : Option Reference,
      { a with Ref := x, MateRef := y } = { b with Ref := x, MateRef := y } := fun x y =>
    congrArg (fun r : Record A => { r with Ref := x, MateRef := y }) h
  unfold Reader.resolveRefs
  repeat' first | split | (dsimp only; split)
  all_goals first | rfl | exact congrArg Result.ok (key _ _)

/-- `Read` does not depend on what the record passed in holds. -/
theorem Read_rc {σ A : Type} (rd : σ → Nat → ReadOut σ) (parseAux : List UInt8 → Option A)
    (refs : List Reference) (s : σ) (rc rc' : Record A) :
    Reader.Read rd parseAux refs s rc' = Reader.Read rd parseAux refs s rc := by
  unfold Reader.Read
  generalize Reader.readFixed rd s = p
  dsimp only
  split
  · rfl
  · have e1 := readVariable_rc rd parseAux p.1 p.2
      { rc with Pos := p.1.pos, MapQ := p.1.mapQ, Flags := p.1.flags, MatePos := p.1.nextPos,
                TempLen := p.1.tLen }
      { rc' with Pos := p.1.pos, MapQ := p.1.mapQ, Flags := p.1.flags, MatePos := p.1.nextPos,
                 TempLen := p.1.tLen }
    have e2 := readVariable_rc rd parseAux p.1 p.2
      { rc with Pos := p.1.pos, MapQ := p.1.mapQ, Flags := p.1.flags, MatePos := p.1.nextPos,
                TempLen := p.1.tLen }
      { rc with Pos := p.1.pos, MapQ := p.1.mapQ, Flags := p.1.flags, MatePos := p.1.nextPos,
                TempLen := p.1.tLen }
    rw [e1]
    generalize Reader.readVariable rd parseAux _ _ _ = V at e2 ⊢
    obtain ⟨res, s1⟩ := V
    cases res with
    | crash => rfl
    | error e => rfl
    | ok r =>
      have hr : r = _ := Result.ok.inj (congrArg Prod.fst e2)
      dsimp only [Result.over]
      rw [hr]
      exact congrArg (fun x => (x, s1)) (resolveRefs_congr refs _ _ _ rfl)

theorem readVariable_noName {A : Type} (rd : List UInt8 → Nat → ReadOut (List UInt8))
    (hrd : ServesInFull rd) (parseAux : List UInt8 → Option A)
    (fx : Fixed) (t buf : List UInt8) (n0 : Int) (rc : Record A) (h0 : fx.nLen = 0) :
    Reader.readVariable rd parseAux fx ⟨⟨t, n0, none⟩, buf⟩ rc = (Result.crash, t) := by
  have hr := errRead_any hrd t n0 0 (Nat.zero_le _)
  unfold Reader.readVariable
  rw [h0]
  simp only [buf_alloc, Nat.cast_zero, lt_self_iff_false, if_false, Int.toNat_zero,
    List.replicate_zero, List.length_nil]
  rw [hr]
  simp [overlay, sliceTo]

theorem Read_noName {A : Type} (rd : List UInt8 → Nat → ReadOut (List UInt8))
    (hrd : ServesInFull rd) (parseAux : List UInt8 → Option A) (refs : List Reference)
    (bs : List UInt8) (rc : Record A) (h36 : 36 ≤ bs.length) (h0 : u8At bs 12 = 0) :
    Reader.Read rd parseAux refs bs rc = (Result.crash, bs.drop 36) := by
  unfold Reader.Read
  rw [readFixed_any hrd bs h36, readFixed_full bs h36]
  dsimp only
  rw [readVariable_noName rd hrd parseAux _ _ _ _ _ h0]

/-! ## Blocks with a reference id out of range, and blocks in a row -/

/-- The variable part never returns one of the two reference-id errors. -/
theorem varSpec_error_kind {A : Type} (parseAux : List UInt8 → Option A) (fx : Fixed)
    (t : List UInt8) (n0 : Int) (rc : Record A) (e : Error) (s' : List UInt8)
    (h : varSpec parseAux fx t n0 rc = (Result.error e, s')) :
    e ≠ Error.refOutOfRange ∧ e ≠ Error.mateRefOutOfRange := by
  unfold varSpec at h
  simp only [] at h
  have done : ∀ {e' : Error} {s1 : List UInt8}, e' ≠ Error.refOutOfRange →
      e' ≠ Error.mateRefOutOfRange →
      ((Result.error e', s1) : Result A × List UInt8) = (Result.error e, s') →
      e ≠ Error.refOutOfRange ∧ e ≠ Error.mateRefOutOfRange := by
    intro e' s1 a1 a2 hh
    have := Result.error.inj (Prod.mk.inj hh).1
    subst this
    exact ⟨a1, a2⟩
  by_cases c1 : t.length < fx.nLen
  · rw [if_pos c1] at h; exact done (by decide) (by decide) h
  rw [if_neg c1] at h
  by_cases c2 : fx.nLen = 0
  · rw [if_pos c2] at h; cases h
  rw [if_neg c2] at h
  by_cases c3 : t.length < fx.nLen + 4 * fx.nCigar
  · rw [if_pos c3] at h; exact done (by decide) (by decide) h
  rw [if_neg c3] at h
  by_cases c4 : packedLen fx.lSeq < 0
  · rw [if_pos c4] at h; cases h
  rw [if_neg c4] at h
  by_cases c5 : t.length < fx.nLen + 4 * fx.nCigar + (packedLen fx.lSeq).toNat
  · rw [if_pos c5] at h; exact done (by decide) (by decide) h
  rw [if_neg c5] at h
  by_cases c6 : fx.lSeq < 0
  · rw [if_pos c6] at h; cases h
  rw [if_neg c6] at h
  by_cases c7 : t.length < fx.nLen + 4 * fx.nCigar + (packedLen fx.lSeq).toNat + fx.lSeq.toNat
  · rw [if_pos c7] at h; exact done (by decide) (by decide) h
  rw [if_neg c7] at h
  by_cases c8 : fx.blockSize - (n0 + fx.nLen + 4 * fx.nCigar + packedLen fx.lSeq + fx.lSeq) < 0
  · rw [if_pos c8] at h; cases h
  rw [if_neg c8] at h
  by_cases c9 : t.length < fx.nLen + 4 * fx.nCigar + (packedLen fx.lSeq).toNat + fx.lSeq.toNat +
      (fx.blockSize - (n0 + fx.nLen + 4 * fx.nCigar + packedLen fx.lSeq + fx.lSeq)).toNat
  · rw [if_pos c9] at h; exact done (by decide) (by decide) h
  rw [if_neg c9] at h
  split at h <;> cases h

/-- A well-formed block is well-formed, with the same fields, whatever follows
its `4 + L` bytes. -/
theorem WellFormed_frame {A : Type} (parseAux : List UInt8 → Option A) (bs : List UInt8)
    (rc : Record A) (tags : A) (hw : WellFormed parseAux bs) (next : List UInt8) :
    WellFormed parseAux (bs.take (4 + (fixedOf bs).blockSize.toNat) ++ next) ∧
    fixedOf (bs.take (4 + (fixedOf bs).blockSize.toNat) ++ next) = fixedOf bs ∧
    auxBytes (bs.take (4 + (fixedOf bs).blockSize.toNat) ++ next) = auxBytes bs ∧
    decoded (bs.take (4 + (fixedOf bs).blockSize.toNat) ++ next) rc tags = decoded bs rc tags ∧
    (bs.take (4 + (fixedOf bs).blockSize.toNat) ++ next).drop (4 + (fixedOf bs).blockSize.toNat)
      = next := by
  have hb := (blockSize_range bs).2
  obtain ⟨h1, h2, h3, h4, h5⟩ := hw
  obtain ⟨hk36, hkl, l1, l2, l3, l4, l5, hL⟩ := fx_layout _ _ h1 h2 h3 h4 hb
  have hfx := fixedOf_take_append bs next _ hk36 hkl
  have haux : auxBytes (bs.take (4 + (fixedOf bs).blockSize.toNat) ++ next) = auxBytes bs := by
    unfold auxBytes
    rw [hfx]
    exact seg_take_append _ _ _ _ _ (Nat.le_of_eq l5) hkl
  refine ⟨?_, hfx, haux, ?_, drop_take_append _ _ _ hkl⟩
  · unfold WellFormed
    rw [hfx, haux]
    refine ⟨h1, h2, h3, ?_, h5⟩
    rw [List.length_append, List.length_take, Nat.min_eq_left hkl]
    exact le_cast_add _ _ hL
  · unfold decoded
    rw [hfx, seg_take_append bs next 36 _ _ l1 hkl,
      cigarOf_congr _ _ _ (seg_take_append bs next _ _ _ l2 hkl),
      seg_take_append bs next _ _ _ l3 hkl, seg_take_append bs next _ _ _ l4 hkl]

/-- A well-formed block followed by anything: `Read` decodes the block, looks
up its references and stops right after it. -/
theorem Read_frame_wf {A : Type} (parseAux : List UInt8 → Option A) (refs : List Reference)
    (bs : List UInt8) (rc : Record A) (tags : A) (hw : WellFormed parseAux bs)
    (hp : parseAux (auxBytes bs) = some tags) (next : List UInt8) :
    Reader.Read memRead parseAux refs (bs.take (4 + (fixedOf bs).blockSize.toNat) ++ next) rc
      = (Reader.resolveRefs refs (fixedOf bs) (decoded bs rc tags), next) := by
  obtain ⟨hw', hfx, haux, hdec, hdrop⟩ := WellFormed_frame parseAux bs rc tags hw next
  rw [Read_wf parseAux refs _ rc tags hw' (by rw [haux]; exact hp), hfx, hdec, hdrop]

/-- When `Read` returns a reference-id error the block was well-formed and read
in full. -/
theorem Read_ref_error {A : Type} (parseAux : List UInt8 → Option A) (refs : List Reference)
    (bs : List UInt8) (rc : Record A) (e : Error) (s' : List UInt8)
    (he : e = Error.refOutOfRange ∨ e = Error.mateRefOutOfRange)
    (h : Reader.Read memRead parseAux refs bs rc = (Result.error e, s')) :
    WellFormed parseAux bs ∧ ∃ tags, parseAux (auxBytes bs) = some tags ∧
      Reader.resolveRefs refs (fixedOf bs) (decoded bs rc tags) = Result.error e ∧
      s' = bs.drop (4 + (fixedOf bs).blockSize.toNat) := by
  have h0 := h
  rw [Read_mem] at h
  unfold readSpec at h
  by_cases h36 : bs.length < 36
  · rw [if_pos h36] at h
    obtain ⟨e1, _⟩ := Prod.mk.inj h
    have e2 := Result.error.inj e1
    rcases he with he | he <;> rw [he] at e2 <;> cases e2
  rw [if_neg h36] at h
  simp only [] at h
  have hw : WellFormed parseAux bs ∧ ∃ tags, parseAux (auxBytes bs) = some tags := by
    have hr := (lSeq_range bs).2
    unfold WellFormed auxBytes
    generalize fixedOf bs = fx at *
    rcases hv : varSpec parseAux fx (bs.drop 36) 32
      { rc with Pos := fx.pos, MapQ := fx.mapQ, Flags := fx.flags,
                MatePos := fx.nextPos, TempLen := fx.tLen } with ⟨res, s2⟩
    rw [hv] at h
    cases res with
    | error e' =>
      obtain ⟨e1, _⟩ := Prod.mk.inj h
      have e2 := Result.error.inj e1
      subst e2
      have hk := varSpec_error_kind _ _ _ _ _ _ _ hv
      rcases he with he | he
      · exact absurd he hk.1
      · exact absurd he hk.2
    | crash => cases h
    | ok r1 =>
      obtain ⟨q1, q2, q3, q4, q5, tags, q6⟩ := varSpec_ok _ _ _ _ _ _ _ hv
      rw [List.length_drop] at q5
      have hL : 4 + fx.blockSize ≤ (bs.length : Int) := by omega
      have hN := packedLen_nonneg _ q2 hr q3
      have hpk := packedLen_eq _ q2 hN
      rw [hpk] at q4 q6
      rw [List.drop_drop] at q6
      unfold Fixed.auxOff Fixed.auxLen
      exact ⟨⟨q1, q2, q4, hL, by rw [q6]; rfl⟩, tags, q6⟩
  obtain ⟨hw, tags, hp⟩ := hw
  refine ⟨hw, tags, hp, ?_⟩
  rw [Read_wf parseAux refs bs rc tags hw hp] at h0
  obtain ⟨e1, e2⟩ := Prod.mk.inj h0
  exact ⟨e1, e2.symm⟩

/-- An accepted block that ends the stream is decoded the same way when more
bytes follow it, and `Read` stops at the first of them. -/
theorem Read_append {A : Type} (parseAux : List UInt8 → Option A) (refs : List Reference)
    (b : List UInt8) (rc rec : Record A)
    (h : Reader.Read memRead parseAux refs b rc = (Result.ok rec, [])) (rest : List UInt8) :
    Reader.Read memRead parseAux refs (b ++ rest) rc = (Result.ok rec, rest) := by
  have hf := Read_frame parseAux refs b rc rec [] h rest
  obtain ⟨_, _, _, _, hs⟩ := Read_ok parseAux refs b rc rec [] h
  have hlen : b.length ≤ 4 + (fixedOf b).blockSize.toNat := by
    have := congrArg List.length hs
    rw [List.length_drop, List.length_nil] at this
    exact Nat.le_of_sub_eq_zero this.symm
  rw [List.take_of_length_le hlen] at hf
  exact hf

/-! ## The loop of `Fetch` -/

theorem fetchLoop_error {σ A : Type} (rd : σ → Nat → ReadOut σ)
    (parseAux : List UInt8 → Option A) (refs : List Reference) (End : Record A → Int)
    (rid beg endp : Int) (fuel : Nat) (s s1 : σ) (rc : Record A) (hs : Bool) (e : Error)
    (h : Reader.Read rd parseAux refs s rc = (Result.error e, s1)) :
    Reader.fetchLoop rd parseAux refs End rid beg endp (fuel + 1) s rc hs
      = some (FetchResult.returned [] s1) := by
  simp only [Reader.fetchLoop, h]

theorem fetchLoop_crash {σ A : Type} (rd : σ → Nat → ReadOut σ)
    (parseAux : List UInt8 → Option A) (refs : List Reference) (End : Record A → Int)
    (rid beg endp : Int) (fuel : Nat) (s s1 : σ) (rc : Record A) (hs : Bool)
    (h : Reader.Read rd parseAux refs s rc = (Result.crash, s1)) :
    Reader.fetchLoop rd parseAux refs End rid beg endp (fuel + 1) s rc hs
      = some FetchResult.crash := by
  simp only [Reader.fetchLoop, h]

theorem fetchLoop_unmapped {σ A : Type} (rd : σ → Nat → ReadOut σ)
    (parseAux : List UInt8 → Option A) (refs : List Reference) (End : Record A → Int)
    (rid beg endp : Int) (fuel : Nat) (s s1 : σ) (rc rec : Record A) (hs : Bool)
    (h : Reader.Read rd parseAux refs s rc = (Result.ok rec, s1)) (hr : rec.Ref = none) :
    Reader.fetchLoop rd parseAux refs End rid beg endp (fuel + 1) s rc hs
      = some FetchResult.crash := by
  simp only [Reader.fetchLoop, h, hr]

theorem fetchLoop_past {σ A : Type} (rd : σ → Nat → ReadOut σ)
    (parseAux : List UInt8 → Option A) (refs : List Reference) (End : Record A → Int)
    (rid beg endp : Int) (fuel : Nat) (s s1 : σ) (rc rec : Record A) (hs : Bool)
    (ref : Reference)
    (h : Reader.Read rd parseAux refs s rc = (Result.ok rec, s1)) (hr : rec.Ref = some ref)
    (hp : PastWindow rid endp rec ref) :
    Reader.fetchLoop rd parseAux refs End rid beg endp (fuel + 1) s rc hs
      = some (FetchResult.returned
          (if hs = false then ["Wrong in reading the bam file"] else []) s1) := by
  unfold PastWindow at hp
  simp only [Reader.fetchLoop, h, hr]
  cases hs
  · simp only [if_true, if_pos hp]
  · rw [if_neg (by decide), if_pos hp, if_neg (by decide)]

theorem fetchLoop_continue {σ A : Type} (rd : σ → Nat → ReadOut σ)
    (parseAux : List UInt8 → Option A) (refs : List Reference) (End : Record A → Int)
    (rid beg endp : Int) (s s1 : σ) (rc rec : Record A) (hs : Bool)
    (ref : Reference)
    (h : Reader.Read rd parseAux refs s rc = (Result.ok rec, s1)) (hr : rec.Ref = some ref)
    (hp : ¬ PastWindow rid endp rec ref) :
    ∃ hs', ∀ fuel, Reader.fetchLoop rd parseAux refs End rid beg endp (fuel + 1) s rc hs
      = Reader.fetchLoop rd parseAux refs End rid beg endp fuel s1 rec hs' := by
  unfold PastWindow at hp
  simp only [Reader.fetchLoop, h, hr]
  cases hs
  · by_cases c2 : ref.id < rid ∨ (ref.id = rid ∧ End rec < beg)
    · exact ⟨false, fun _ => by simp only [if_true, if_neg hp, if_pos c2]⟩
    · by_cases c3 : ref.id = rid ∧ End rec > beg
      · exact ⟨true, fun _ => by simp only [if_true, if_neg hp, if_neg c2, if_pos c3]⟩
      · exact ⟨false, fun _ => by simp only [if_true, if_neg hp, if_neg c2, if_neg c3]⟩
  · refine ⟨true, fun _ => ?_⟩
    rw [if_neg (by decide), if_neg hp]

/-- A decodable block at the front of an in-memory stream: on every stream that
serves reads in full, and whatever the record passed in holds, `Read` returns
its record and stops at the first byte after it. -/
theorem Read_block {A : Type} (rd : List UInt8 → Nat → ReadOut (List UInt8))
    (hrd : ServesInFull rd) (parseAux : List UInt8 → Option A) (refs : List Reference)
    (nilTags : A) (b : List UInt8) (rec : Record A) (hd : Decodes parseAux refs nilTags b rec)
    (more : List UInt8) (rc : Record A) :
    Reader.Read rd parseAux refs (b ++ more) rc = (Result.ok rec, more) := by
  unfold Decodes at hd
  have h1 := Read_append parseAux refs b _ rec hd more
  rw [Read_rc rd parseAux refs (b ++ more) (Record.zero nilTags) rc,
    Read_supplied hrd parseAux refs _ _ (Supplied_of_ok h1)]
  exact h1

/-- The scan of `Fetch` over decodable records that are not past the window: it
reads them all, one per iteration, and goes on with what follows them. -/
theorem fetchLoop_scan {A : Type} (rd : List UInt8 → Nat → ReadOut (List UInt8))
    (hrd : ServesInFull rd) (parseAux : List UInt8 → Option A) (refs : List Reference)
    (End : Record A → Int) (nilTags : A) (rid beg endp : Int) (tail : List UInt8)
    (pre : List (List UInt8 × Record A × Reference)) :
    (∀ x ∈ pre, Decodes parseAux refs nilTags x.1 x.2.1 ∧ x.2.1.Ref = some x.2.2 ∧
      ¬ PastWindow rid endp x.2.1 x.2.2) →
    ∀ (rc : Record A) (hs : Bool), ∃ rc' hs', ∀ fuel,
      Reader.fetchLoop rd parseAux refs End rid beg endp (pre.length + fuel)
        (blocksToStream (pre.map (fun x => x.1)) ++ tail) rc hs
      = Reader.fetchLoop rd parseAux refs End rid beg endp fuel tail rc' hs' := by
  induction pre with
  | nil =>
    intro _ rc hs
    refine ⟨rc, hs, fun fuel => ?_⟩
    simp only [List.length_nil, Nat.zero_add, List.map_nil, blocksToStream, List.nil_append]
  | cons x pre ih =>
    intro hpre rc hs
    obtain ⟨hd, hr, hp⟩ := hpre x (List.mem_cons_self _ _)
    have hrest := ih (fun y hy => hpre y (List.mem_cons_of_mem _ hy))
    have hread := Read_block rd hrd parseAux refs nilTags x.1 x.2.1 hd
      (blocksToStream (pre.map (fun x => x.1)) ++ tail) rc
    obtain ⟨hs1, hstep⟩ := fetchLoop_continue rd parseAux refs End rid beg endp _ _ rc _ hs _
      hread hr hp
    obtain ⟨rc', hs', hgo⟩ := hrest x.2.1 hs1
    refine ⟨rc', hs', fun fuel => ?_⟩
    have e1 : (x :: pre).length + fuel = (pre.length + fuel) + 1 := by
      simp only [List.length_cons]; omega
    simp only [List.map_cons, blocksToStream, List.append_assoc]
    rw [e1, hstep, hgo]

/-- On an indexed table the id `Fetch` compares is the reference id the record
carries in its header, which is then not negative. -/
theorem Decodes_ref_id {A : Type} (parseAux : List UInt8 → Option A) (refs : List Reference)
    (nilTags : A) (b : List UInt8) (rec : Record A) (ref : Reference)
    (hidx : IndexedTable refs) (hd : Decodes parseAux refs nilTags b rec)
    (hr : rec.Ref = some ref) : 0 ≤ i32At b 4 ∧ ref.id = i32At b 4 := by
  unfold Decodes at hd
  obtain ⟨a1, _, a3, a4, _⟩ := (reference_resolution_mem parseAux refs b (Record.zero nilTags)).1
    rec [] hd
  by_cases h : i32At b 4 = -1
  · rw [a3 h] at hr
    cases hr
  · obtain ⟨r, h1, h2⟩ := a4 h
    rw [h2] at hr
    have e := Option.some.inj hr
    subst e
    have hid := hidx _ _ h1
    constructor
    · omega
    · rw [hid]
      omega

/-! ## The claims about `Read` -/

/-- C1. `Read`, fixed header: for every stream that serves reads in full and
holds a 4-byte length field `len` followed by bytes `body` that supply all
that `Read` asks for, when `Read` accepts it the record's `Pos`, `MapQ`,
`Flags`, `MatePos` and `TempLen` are the little-endian values at offsets 4-7
(signed 32-bit), 9 (unsigned 8-bit), 14-15 (unsigned 16-bit), 24-27 and 28-31
(signed 32-bit) of `body`, and replacing the two bytes of the bin hint at
offsets 10-11 by any other bytes leaves the result of `Read` unchanged. -/
theorem C1_fixed_header {A : Type} (rd : List UInt8 → Nat → ReadOut (List UInt8))
    (hrd : ServesInFull rd) (parseAux : List UInt8 → Option A) (refs : List Reference)
    (len body : List UInt8) (rc rec : Record A) (s' : List UInt8) (hlen : len.length = 4)
    (hs : Supplied (len ++ body))
    (h : Reader.Read rd parseAux refs (len ++ body) rc = (Result.ok rec, s')) :
    rec.Pos = i32At body 4 ∧ rec.MapQ = u8At body 9 ∧ rec.Flags = u16At body 14 ∧
    rec.MatePos = i32At body 24 ∧ rec.TempLen = i32At body 28 ∧
    ∀ x y : UInt8, Reader.Read rd parseAux refs (len ++ (body.set 10 x).set 11 y) rc
      = (Result.ok rec, s') := by
  rw [Read_supplied hrd parseAux refs _ rc hs] at h
  obtain ⟨a1, a2, a3, a4, a5, a6⟩ := fixed_header_mem parseAux refs len body rc rec s' hlen h
  refine ⟨a1, a2, a3, a4, a5, fun x y => ?_⟩
  have hs' : Supplied (len ++ (body.set 10 x).set 11 y) :=
    Supplied_congr _ _ (by simp) (fixedOf_set_bin len body x y hlen) hs
  rw [Read_supplied hrd parseAux refs _ rc hs']
  exact a6 x y

/-- C1 on the sample block: its header fields, and the same result with the bin
bytes replaced by 200 and 100. -/
theorem C1_fixed_header_witness :
    ServesInFull memRead ∧ sampleLen.length = 4 ∧ Supplied (sampleLen ++ sampleBody) ∧
    Reader.Read memRead some sampleRefs (sampleLen ++ sampleBody) sampleRecord
      = (Result.ok sampleDecoded, []) ∧
    sampleDecoded.Pos = i32At sampleBody 4 ∧ sampleDecoded.MapQ = u8At sampleBody 9 ∧
    sampleDecoded.Flags = u16At sampleBody 14 ∧ sampleDecoded.MatePos = i32At sampleBody 24 ∧
    sampleDecoded.TempLen = i32At sampleBody 28 ∧
    Reader.Read memRead some sampleRefs (sampleLen ++ (sampleBody.set 10 200).set 11 100)
      sampleRecord = (Result.ok sampleDecoded, []) :=
  have t := C1_fixed_header memRead memRead_servesInFull some sampleRefs sampleLen sampleBody
    sampleRecord sampleDecoded [] (by decide) (by decide) (by decide)
  ⟨memRead_servesInFull, by decide, by decide, by decide, t.1, t.2.1, t.2.2.1, t.2.2.2.1,
    t.2.2.2.2.1, t.2.2.2.2.2 200 100⟩

/-- C2. `Read`, variable-length layout: for every stream that serves reads in
full, when `Read` accepts a 4-byte length field `len` (value `L`) followed by
bytes `body` that supply all it asks for, with name length `nameLen`, CIGAR
count `c` and sequence length `N` in the header, then `nameLen ≥ 1`, `N ≥ 0`,
the stream holds the `L` bytes of the block, `Name` is the first `nameLen - 1`
bytes after the 32-byte fixed header, `Seq` is the `⌈N/2⌉` bytes after the `4c`
CIGAR bytes with `Length = N`, `Qual` is the `N` bytes after that, and the
auxiliary parser was given exactly the remaining
`L - 32 - nameLen - 4c - ⌈N/2⌉ - N` bytes; for `N = 0` both `Seq` and `Qual`
are empty and the auxiliary bytes start right after the CIGAR bytes. -/
theorem C2_variable_layout {A : Type} (rd : List UInt8 → Nat → ReadOut (List UInt8))
    (hrd : ServesInFull rd) (parseAux : List UInt8 → Option A) (refs : List Reference)
    (len body : List UInt8) (rc rec : Record A) (s' : List UInt8)
    (hlen : len.length = 4) (hs : Supplied (len ++ body))
    (h : Reader.Read rd parseAux refs (len ++ body) rc = (Result.ok rec, s')) :
    1 ≤ u8At body 8 ∧ 0 ≤ i32At body 16 ∧ i32At len 0 ≤ (body.length : Int) ∧
    rec.Name = (body.drop 32).take (u8At body 8 - 1) ∧
    rec.Seq.Seq = (body.drop (32 + (u8At body 8 + 4 * u16At body 12))).take
      (ceilHalf (i32At body 16)).toNat ∧
    rec.Seq.Length = i32At body 16 ∧
    rec.Qual = (body.drop (32 + (u8At body 8 + 4 * u16At body 12
      + (ceilHalf (i32At body 16)).toNat))).take (i32At body 16).toNat ∧
    0 ≤ i32At len 0 - (32 + u8At body 8 + 4 * u16At body 12 + ceilHalf (i32At body 16)
      + i32At body 16) ∧
    parseAux ((body.drop (32 + (u8At body 8 + 4 * u16At body 12
        + (ceilHalf (i32At body 16)).toNat + (i32At body 16).toNat))).take
      (i32At len 0 - (32 + u8At body 8 + 4 * u16At body 12 + ceilHalf (i32At body 16)
        + i32At body 16)).toNat) = some rec.AuxTags ∧
    (i32At body 16 = 0 → rec.Seq.Seq = [] ∧ rec.Qual = [] ∧
      parseAux ((body.drop (32 + (u8At body 8 + 4 * u16At body 12))).take
        (i32At len 0 - (32 + u8At body 8 + 4 * u16At body 12)).toNat) = some rec.AuxTags) := by
  rw [Read_supplied hrd parseAux refs _ rc hs] at h
  exact variable_layout_mem parseAux refs len body rc rec s' hlen h

/-- C2 on the sample block. -/
theorem C2_variable_layout_witness :
    ServesInFull memRead ∧ sampleLen.length = 4 ∧ Supplied (sampleLen ++ sampleBody) ∧
    Reader.Read memRead some sampleRefs (sampleLen ++ sampleBody) sampleRecord
      = (Result.ok sampleDecoded, []) ∧
    1 ≤ u8At sampleBody 8 ∧ 0 ≤ i32At sampleBody 16 ∧
    sampleDecoded.Name = (sampleBody.drop 32).take (u8At sampleBody 8 - 1) ∧
    sampleDecoded.Seq.Length = i32At sampleBody 16 :=
  have t := C2_variable_layout memRead memRead_servesInFull some sampleRefs sampleLen sampleBody sampleRecord sampleDecoded []
    (by decide) (by decide) (by decide)
  ⟨memRead_servesInFull, by decide, by decide, by decide, t.1, t.2.1, t.2.2.2.1, t.2.2.2.2.2.1⟩

/-- C3. `Read`, block-size accounting: for every stream that serves reads in
full, when `Read` accepts a stream that supplies all it asks for and whose
length field holds `L`, then `L ≥ 0`, the stream it leaves is the input without
its first `4 + L` bytes (so the bytes taken after the 4-byte length field are
exactly `L`), and a block followed by a second valid block `b2` is decoded by
one `Read`, which stops at the first byte of `b2`, so that the next `Read`
decodes `b2`. -/
theorem C3_block_size {A : Type} (rd : List UInt8 → Nat → ReadOut (List UInt8))
    (hrd : ServesInFull rd) (parseAux : List UInt8 → Option A) (refs : List Reference)
    (bs : List UInt8) (rc rec : Record A) (s' : List UInt8) (hs : Supplied bs)
    (h : Reader.Read rd parseAux refs bs rc = (Result.ok rec, s')) :
    0 ≤ i32At bs 0 ∧ s' = bs.drop (4 + (i32At bs 0).toNat) ∧
    (bs.length : Int) - s'.length = 4 + i32At bs 0 ∧
    ∀ (b2 rest : List UInt8) (rc2 rec2 : Record A), Supplied b2 →
      Reader.Read rd parseAux refs b2 rc2 = (Result.ok rec2, []) →
      Reader.Read rd parseAux refs (bs.take (4 + (i32At bs 0).toNat) ++ (b2 ++ rest)) rc
        = (Result.ok rec, b2 ++ rest) ∧
      Reader.Read rd parseAux refs
        (Reader.Read rd parseAux refs
          (bs.take (4 + (i32At bs 0).toNat) ++ (b2 ++ rest)) rc).2 rc2
        = (Result.ok rec2, rest) := by
  rw [Read_supplied hrd parseAux refs _ rc hs] at h
  obtain ⟨a1, a2, a3, a4⟩ := block_size_mem parseAux refs bs rc rec s' h
  refine ⟨a1, a2, a3, ?_⟩
  intro b2 rest rc2 rec2 hs2 h2
  rw [Read_supplied hrd parseAux refs _ rc2 hs2] at h2
  obtain ⟨m1, m2⟩ := a4 b2 rest rc2 rec2 h2
  rw [m1] at m2
  rw [Read_supplied hrd parseAux refs _ rc (Supplied_of_ok m1), m1]
  refine ⟨rfl, ?_⟩
  dsimp only
  rw [Read_supplied hrd parseAux refs _ rc2 (Supplied_of_ok m2)]
  exact m2

/-- C3 on the sample block, followed by a second copy of it and one more byte. -/
theorem C3_block_size_witness :
    ServesInFull memRead ∧ Supplied sampleBlock ∧
    Reader.Read memRead some sampleRefs sampleBlock sampleRecord = (Result.ok sampleDecoded, []) ∧
    (sampleBlock.length : Int) - ([] : List UInt8).length = 4 + i32At sampleBlock 0 ∧
    Reader.Read memRead some sampleRefs
      (sampleBlock.take (4 + (i32At sampleBlock 0).toNat) ++ (sampleBlock ++ [7])) sampleRecord
      = (Result.ok sampleDecoded, sampleBlock ++ [7]) ∧
    Reader.Read memRead some sampleRefs
      (Reader.Read memRead some sampleRefs
        (sampleBlock.take (4 + (i32At sampleBlock 0).toNat) ++ (sampleBlock ++ [7]))
        sampleRecord).2 sampleRecord
      = (Result.ok sampleDecoded, [7]) :=
  have t := C3_block_size memRead memRead_servesInFull some sampleRefs sampleBlock sampleRecord
    sampleDecoded [] (by decide) (by decide)
  have u := t.2.2.2 sampleBlock [7] sampleRecord sampleDecoded (by decide) (by decide)
  ⟨memRead_servesInFull, by decide, by decide, t.2.2.1, u.1, u.2⟩

/-- C4. `Read`, reference bounds: for every stream that serves reads in full
and begins with a block well-formed in every respect but its reference ids,
and with a reference table of `refCount` entries (a count that fits `int32`),
`Read` returns an error if and only if the reference id (offset 0 after the
length field) or the mate reference id (offset 20) lies outside
`-1 ≤ id < refCount`; the error is the reference-id error when the record's own
id is out of range, the mate error when only the mate's is, and otherwise
`Read` returns a record. -/
theorem C4_reference_bounds {A : Type} (rd : List UInt8 → Nat → ReadOut (List UInt8))
    (hrd : ServesInFull rd) (parseAux : List UInt8 → Option A) (refs : List Reference)
    (bs : List UInt8) (rc : Record A)
    (hw : WellFormed parseAux bs) (hlen : refs.length < 2147483648) :
    ((∃ e, (Reader.Read rd parseAux refs bs rc).1 = Result.error e) ↔
      ¬ ((-1 ≤ i32At bs 4 ∧ i32At bs 4 < (refs.length : Int)) ∧
         (-1 ≤ i32At bs 24 ∧ i32At bs 24 < (refs.length : Int)))) ∧
    (¬ (-1 ≤ i32At bs 4 ∧ i32At bs 4 < (refs.length : Int)) →
      (Reader.Read rd parseAux refs bs rc).1 = Result.error Error.refOutOfRange) ∧
    ((-1 ≤ i32At bs 4 ∧ i32At bs 4 < (refs.length : Int)) →
      ¬ (-1 ≤ i32At bs 24 ∧ i32At bs 24 < (refs.length : Int)) →
      (Reader.Read rd parseAux refs bs rc).1 = Result.error Error.mateRefOutOfRange) ∧
    ((-1 ≤ i32At bs 4 ∧ i32At bs 4 < (refs.length : Int)) →
      (-1 ≤ i32At bs 24 ∧ i32At bs 24 < (refs.length : Int)) →
      ∃ rec, (Reader.Read rd parseAux refs bs rc).1 = Result.ok rec) := by
  rw [Read_supplied hrd parseAux refs _ rc (Supplied_of_wf hw)]
  exact reference_bounds_mem parseAux refs bs rc hw hlen

/-- C4 on the sample block, whose reference id is 1, with a table of one entry:
the id equal to the reference count is rejected. -/
theorem C4_reference_bounds_witness :
    ServesInFull memRead ∧ WellFormed some sampleBlock ∧ [Reference.mk 0 "chr1" 1000].length < 2147483648 ∧
    ¬ (-1 ≤ i32At sampleBlock 4 ∧ i32At sampleBlock 4 < ([Reference.mk 0 "chr1" 1000].length : Int)) ∧
    (Reader.Read memRead some [Reference.mk 0 "chr1" 1000] sampleBlock sampleRecord).1
      = Result.error Error.refOutOfRange :=
  have t := C4_reference_bounds memRead memRead_servesInFull some [Reference.mk 0 "chr1" 1000] sampleBlock sampleRecord
    (by decide) (by decide)
  ⟨memRead_servesInFull, by decide, by decide, by decide, t.2.1 (by decide)⟩

/-- C5. `Read`, reference resolution: for every stream that serves reads in
full and supplies all that `Read` asks for, whenever `Read` returns a record,
both ids are at least -1, `Ref` is absent when the reference id is -1 and is
the table entry at that index otherwise, and `MateRef` is determined in the
same way from the mate reference id alone; and a well-formed block with both
ids equal to -1 decodes without error, with neither reference resolved. -/
theorem C5_reference_resolution {A : Type} (rd : List UInt8 → Nat → ReadOut (List UInt8))
    (hrd : ServesInFull rd) (parseAux : List UInt8 → Option A) (refs : List Reference)
    (bs : List UInt8) (rc : Record A) (hs : Supplied bs) :
    (∀ rec s', Reader.Read rd parseAux refs bs rc = (Result.ok rec, s') →
      -1 ≤ i32At bs 4 ∧ -1 ≤ i32At bs 24 ∧
      (i32At bs 4 = -1 → rec.Ref = none) ∧
      (i32At bs 4 ≠ -1 → ∃ r, refs[(i32At bs 4).toNat]? = some r ∧ rec.Ref = some r) ∧
      (i32At bs 24 = -1 → rec.MateRef = none) ∧
      (i32At bs 24 ≠ -1 → ∃ r, refs[(i32At bs 24).toNat]? = some r ∧ rec.MateRef = some r)) ∧
    (WellFormed parseAux bs → i32At bs 4 = -1 → i32At bs 24 = -1 →
      ∃ rec, (Reader.Read rd parseAux refs bs rc).1 = Result.ok rec ∧
        rec.Ref = none ∧ rec.MateRef = none) := by
  rw [Read_supplied hrd parseAux refs _ rc hs]
  exact reference_resolution_mem parseAux refs bs rc

/-- C5 on the sample block with both reference ids set to -1. -/
theorem C5_reference_resolution_witness :
    ServesInFull memRead ∧ Supplied sampleUnmapped ∧
    WellFormed some sampleUnmapped ∧ i32At sampleUnmapped 4 = -1 ∧ i32At sampleUnmapped 24 = -1 ∧
    ∃ rec, (Reader.Read memRead some sampleRefs sampleUnmapped sampleRecord).1 = Result.ok rec ∧
      rec.Ref = none ∧ rec.MateRef = none :=
  ⟨memRead_servesInFull, by decide, by decide, by decide, by decide,
    (C5_reference_resolution memRead memRead_servesInFull some sampleRefs sampleUnmapped
      sampleRecord (by decide)).2 (by decide) (by decide) (by decide)⟩

/-- C6. `Read`, truncation is never silent: when `Read` accepts a stream whose
first block has `4 + L` bytes, then on the stream that holds only the first
`k < 4 + L` bytes of it and then ends, `Read` returns an error and no record,
whatever record is passed in (also for `k = 0`, the empty stream). -/
theorem C6_truncation_not_silent {A : Type} (parseAux : List UInt8 → Option A)
    (refs : List Reference) (bs : List UInt8) (rc rec : Record A) (s' : List UInt8)
    (h : Reader.Read memRead parseAux refs bs rc = (Result.ok rec, s'))
    (k : Nat) (hk : k < 4 + (i32At bs 0).toNat) (rc' : Record A) :
    ∃ e, Reader.Read memRead parseAux refs (bs.take k) rc' = (Result.error e, []) := by
  obtain ⟨hw, _⟩ := Read_ok parseAux refs bs rc rec s' h
  exact ⟨_, Read_truncated parseAux refs bs rc' hw k hk⟩

/-- C6 on the sample block cut one byte before its end. -/
theorem C6_truncation_not_silent_witness :
    Reader.Read memRead some sampleRefs sampleBlock sampleRecord = (Result.ok sampleDecoded, []) ∧
    51 < 4 + (i32At sampleBlock 0).toNat ∧
    ∃ e, Reader.Read memRead some sampleRefs (sampleBlock.take 51) sampleDecoded
      = (Result.error e, []) :=
  ⟨by decide, by decide,
    C6_truncation_not_silent some sampleRefs sampleBlock sampleRecord sampleDecoded []
      (by decide) 51 (by decide) sampleDecoded⟩

/-- C7 fails on the sample block cut at offset 42, inside its CIGAR bytes (after
the first of its two CIGAR words): `Read` returns the stream's end-of-stream error, which names no field and is the
result it also returns when the block is cut inside the fixed header; it does
so too when the stream reports its end one read later. -/
theorem C7_truncation_stage_counterexample :
    Reader.Read memRead some sampleRefs sampleBlock sampleRecord = (Result.ok sampleDecoded, []) ∧
    fieldAt (fixedOf sampleBlock) 42 = some Field.cigar ∧
    Reader.Read memRead some sampleRefs (sampleBlock.take 42) sampleRecord
      = (Result.error (Error.stream StreamError.EOF), []) ∧
    (Error.stream StreamError.EOF).names = none ∧
    Reader.Read memRead some sampleRefs (sampleBlock.take 20) sampleRecord
      = Reader.Read memRead some sampleRefs (sampleBlock.take 42) sampleRecord ∧
    Reader.Read memReadLate some sampleRefs (sampleBlock.take 42) sampleRecord
      = (Result.error (Error.stream StreamError.EOF), []) := by
  decide

/-- C7 (amended). `Read`, truncation stage: when `Read` accepts a stream whose
first block has `4 + L` bytes, then on the stream that ends at offset
`k < 4 + L` of it `Read` returns the error `truncError` gives for `k`: the name
error when byte `k` belongs to the name, the sequence error when it belongs to
the packed sequence, the quality error when it belongs to the quality bytes,
the auxiliary-data error when it belongs to the auxiliary block, each naming
its field; and the stream's own end-of-stream error, which names no field,
when byte `k` belongs to the CIGAR bytes (as inside the fixed header). -/
theorem C7_truncation_stage {A : Type} (parseAux : List UInt8 → Option A)
    (refs : List Reference) (bs : List UInt8) (rc rec : Record A) (s' : List UInt8)
    (h : Reader.Read memRead parseAux refs bs rc = (Result.ok rec, s'))
    (k : Nat) (hk : k < 4 + (i32At bs 0).toNat) (rc' : Record A) :
    Reader.Read memRead parseAux refs (bs.take k) rc'
      = (Result.error (truncError (fixedOf bs) k), []) ∧
    (fieldAt (fixedOf bs) k = some Field.cigar →
      truncError (fixedOf bs) k = Error.stream StreamError.EOF) ∧
    (fieldAt (fixedOf bs) k ≠ none → fieldAt (fixedOf bs) k ≠ some Field.cigar →
      (truncError (fixedOf bs) k).names = fieldAt (fixedOf bs) k) := by
  obtain ⟨hw, _⟩ := Read_ok parseAux refs bs rc rec s' h
  refine ⟨Read_truncated parseAux refs bs rc' hw k hk, ?_, ?_⟩
  · generalize fixedOf bs = fx
    unfold fieldAt truncError
    split_ifs <;> simp
  · generalize fixedOf bs = fx
    unfold fieldAt truncError
    split_ifs <;> simp [Error.names]

/-- C7 (amended) on the sample block cut at offset 49, inside its quality bytes. -/
theorem C7_truncation_stage_witness :
    Reader.Read memRead some sampleRefs sampleBlock sampleRecord = (Result.ok sampleDecoded, []) ∧
    49 < 4 + (i32At sampleBlock 0).toNat ∧
    Reader.Read memRead some sampleRefs (sampleBlock.take 49) sampleRecord
      = (Result.error Error.truncatedQuality, []) :=
  ⟨by decide, by decide,
    (C7_truncation_stage some sampleRefs sampleBlock sampleRecord sampleDecoded []
      (by decide) 49 (by decide) sampleRecord).1⟩

/-- C8 fails on the sample block cut after 1 byte (inside the length field) and
after 20 bytes (inside the fixed header): `Read` returns what it returns on the
empty stream, also when the stream reports its end one read later. -/
theorem C8_clean_eof_counterexample :
    Reader.Read memRead some sampleRefs [] sampleRecord
      = (Result.error (Error.stream StreamError.EOF), []) ∧
    Reader.Read memRead some sampleRefs (sampleBlock.take 1) sampleRecord
      = Reader.Read memRead some sampleRefs [] sampleRecord ∧
    Reader.Read memRead some sampleRefs (sampleBlock.take 20) sampleRecord
      = Reader.Read memRead some sampleRefs [] sampleRecord ∧
    Reader.Read memReadLate some sampleRefs (sampleBlock.take 1) sampleRecord
      = Reader.Read memReadLate some sampleRefs [] sampleRecord ∧
    Reader.Read memReadLate some sampleRefs (sampleBlock.take 20) sampleRecord
      = Reader.Read memReadLate some sampleRefs [] sampleRecord := by
  decide

/-- C8 (amended). `Read`, end of stream: on a stream with zero bytes left `Read`
returns the stream's end-of-stream error and no record; it returns the very
same result on every stream that ends inside the length field or the fixed
header (fewer than 36 bytes), and on a valid block cut inside its CIGAR bytes,
so the returned error does not tell these from a clean end of stream; on a
valid block cut inside its name, packed sequence, quality or auxiliary bytes
the result differs from the one at a clean end of stream. -/
theorem C8_clean_eof {A : Type} (parseAux : List UInt8 → Option A) (refs : List Reference)
    (rc : Record A) :
    Reader.Read memRead parseAux refs [] rc = (Result.error (Error.stream StreamError.EOF), []) ∧
    (∀ (bs : List UInt8) (rc' : Record A), bs.length < 36 →
      Reader.Read memRead parseAux refs bs rc' = Reader.Read memRead parseAux refs [] rc) ∧
    (∀ (bs s' : List UInt8) (rc0 rec rc' : Record A) (k : Nat),
      Reader.Read memRead parseAux refs bs rc0 = (Result.ok rec, s') →
      k < 4 + (i32At bs 0).toNat →
      (fieldAt (fixedOf bs) k = some Field.cigar →
        Reader.Read memRead parseAux refs (bs.take k) rc'
          = Reader.Read memRead parseAux refs [] rc) ∧
      (fieldAt (fixedOf bs) k ≠ none → fieldAt (fixedOf bs) k ≠ some Field.cigar →
        (Reader.Read memRead parseAux refs (bs.take k) rc').1
          ≠ (Reader.Read memRead parseAux refs [] rc).1)) := by
  have h0 : ∀ (bs : List UInt8) (rc' : Record A), bs.length < 36 →
      Reader.Read memRead parseAux refs bs rc'
        = (Result.error (Error.stream StreamError.EOF), []) := by
    intro bs rc' hlt
    rw [Read_mem]
    unfold readSpec
    rw [if_pos hlt]
  have hnil := h0 [] rc (by decide)
  refine ⟨hnil, fun bs rc' hlt => by rw [h0 bs rc' hlt, hnil], ?_⟩
  intro bs s' rc0 rec rc' k h hk
  obtain ⟨hw, _⟩ := Read_ok parseAux refs bs rc0 rec s' h
  rw [Read_truncated parseAux refs bs rc' hw k hk, hnil]
  generalize fixedOf bs = fx
  unfold fieldAt truncError
  constructor
  · split_ifs <;> simp
  · split_ifs <;> simp

/-- C8 (amended) on the sample block: cut at offset 20 (fixed header) and 42
(CIGAR) the result is that of the empty stream, cut at offset 49 (quality) it
is not. -/
theorem C8_clean_eof_witness :
    Reader.Read memRead some sampleRefs (sampleBlock.take 20) sampleRecord
      = Reader.Read memRead some sampleRefs [] sampleRecord ∧
    Reader.Read memRead some sampleRefs (sampleBlock.take 42) sampleRecord
      = Reader.Read memRead some sampleRefs [] sampleRecord ∧
    (Reader.Read memRead some sampleRefs (sampleBlock.take 49) sampleRecord).1
      ≠ (Reader.Read memRead some sampleRefs [] sampleRecord).1 :=
  have t := C8_clean_eof some sampleRefs sampleRecord
  have u := fun k hk => t.2.2 sampleBlock [] sampleRecord sampleDecoded sampleRecord k
    (by decide) hk
  ⟨t.2.1 (sampleBlock.take 20) sampleRecord (by decide), (u 42 (by decide)).1 (by decide),
    (u 49 (by decide)).2 (by decide) (by decide)⟩

/-- C9. `Read`, implausible block size: on the stream whose length field holds
`L = 0`, and on the one that holds `L = -1`, followed by the 48 bytes of a
complete record, `Read` returns neither a record nor an error: after the
quality bytes the counter stands at 47, and the allocation of `L - 47`
auxiliary bytes aborts before the counter is compared with `L`. On the stream
with `L = 0` and a header whose name length is 0 it aborts at the slice
`name[:len(name)-1]`. -/
theorem C9_implausible_block_size :
    i32At sampleShortLength 0 = 0 ∧
    (Reader.Read memRead some sampleRefs sampleShortLength sampleRecord).1 = Result.crash ∧
    i32At sampleNegativeLength 0 = -1 ∧
    (Reader.Read memRead some sampleRefs sampleNegativeLength sampleRecord).1 = Result.crash ∧
    i32At sampleEmptyName 0 = 0 ∧ u8At sampleEmptyName 12 = 0 ∧
    (Reader.Read memRead some sampleRefs sampleEmptyName sampleRecord).1 = Result.crash ∧
    (Reader.Read memReadLate some sampleRefs sampleShortLength sampleRecord).1 = Result.crash ∧
    (Reader.Read memReadLate some sampleRefs sampleEmptyName sampleRecord).1 = Result.crash := by
  decide

/-- C10 fails on the sample block with a non-zero last name byte: the name field
is the two bytes `A`, `B`, and `Read` returns the record with the name `A`. -/
theorem C10_name_terminator_counterexample :
    u8At sampleUnterminated 12 = 2 ∧ byteAt sampleUnterminated (36 + 2 - 1) = 66 ∧
    Reader.Read memRead some sampleRefs sampleUnterminated sampleRecord
      = (Result.ok sampleDecoded, []) ∧
    Reader.Read memReadLate some sampleRefs sampleUnterminated sampleRecord
      = (Result.ok sampleDecoded, []) := by
  decide

/-- C10 (amended). `Read`, name terminator: `Read` does not look at the last
byte of the name field. For every stream that serves reads in full and supplies
all that `Read` asks for, when `Read` accepts the stream it accepts the stream
with any other byte `x` in place of the last name byte (offset
`36 + nameLen - 1`), and returns the same record, whose `Name` is the first
`nameLen - 1` bytes of the name field. -/
theorem C10_name_terminator {A : Type} (rd : List UInt8 → Nat → ReadOut (List UInt8))
    (hrd : ServesInFull rd) (parseAux : List UInt8 → Option A) (refs : List Reference)
    (bs : List UInt8) (rc rec : Record A) (s' : List UInt8) (hs : Supplied bs)
    (h : Reader.Read rd parseAux refs bs rc = (Result.ok rec, s')) (x : UInt8) :
    1 ≤ u8At bs 12 ∧ rec.Name = (bs.drop 36).take (u8At bs 12 - 1) ∧
    Reader.Read rd parseAux refs (bs.set (36 + (u8At bs 12 - 1)) x) rc
      = (Result.ok rec, s') := by
  rw [Read_supplied hrd parseAux refs _ rc hs] at h
  have hs' : Supplied (bs.set (36 + (u8At bs 12 - 1)) x) :=
    Supplied_congr _ _ (by simp) (fixedOf_set_tail bs _ x (by omega)) hs
  rw [Read_supplied hrd parseAux refs _ rc hs']
  exact name_terminator_mem parseAux refs bs rc rec s' h x

/-- C10 (amended) on the sample block, with 66 in place of the terminator. -/
theorem C10_name_terminator_witness :
    ServesInFull memRead ∧ Supplied sampleBlock ∧
    Reader.Read memRead some sampleRefs sampleBlock sampleRecord = (Result.ok sampleDecoded, []) ∧
    Reader.Read memRead some sampleRefs (sampleBlock.set (36 + (u8At sampleBlock 12 - 1)) 66)
      sampleRecord = (Result.ok sampleDecoded, []) :=
  ⟨memRead_servesInFull, by decide, by decide,
    (C10_name_terminator memRead memRead_servesInFull some sampleRefs sampleBlock sampleRecord
      sampleDecoded [] (by decide) (by decide) 66).2.2⟩

/-! ## The claims about `readCigarOps`, `Fetch`, record reuse and `errReader` -/

/-- C11. CIGAR decode: for every count `n` (of any size, so for the counts
0..65535 of a `uint16`) and every stream that serves reads in full and holds
`4 * n` bytes, `readCigarOps` returns exactly
`n` operations in stream order, the `i`-th being the unsigned 32-bit
little-endian value of bytes `4i..4i+3`; each value keeps every bit of its four
bytes (the bytes are recovered from it, whatever the operation kind in the low
4 bits is), and the reader is left `4 * n` bytes on, without an error. -/
theorem C11_cigar_decode (rd : List UInt8 → Nat → ReadOut (List UInt8))
    (hrd : ServesInFull rd) (s buf : List UInt8) (c : Int) (n : Nat)
    (hs : 4 * n ≤ s.length) :
    (readCigarOps rd ⟨⟨s, c, none⟩, buf⟩ n).1.length = n ∧
    (∀ i, i < n → ∃ op, (readCigarOps rd ⟨⟨s, c, none⟩, buf⟩ n).1[i]? = some op ∧
      op = le32 (byteAt s (4 * i)) (byteAt s (4 * i + 1)) (byteAt s (4 * i + 2))
        (byteAt s (4 * i + 3)) ∧
      op < 4294967296 ∧
      op % 256 = (byteAt s (4 * i)).toNat ∧ op / 256 % 256 = (byteAt s (4 * i + 1)).toNat ∧
      op / 65536 % 256 = (byteAt s (4 * i + 2)).toNat ∧
      op / 16777216 = (byteAt s (4 * i + 3)).toNat ∧
      op % 16 = (byteAt s (4 * i)).toNat % 16) ∧
    (readCigarOps rd ⟨⟨s, c, none⟩, buf⟩ n).2.r = ⟨s.drop (4 * n), c + 4 * n, none⟩ := by
  obtain ⟨h1, h2⟩ := readCigarOps_any hrd s buf c n hs
  rw [h1]
  refine ⟨cigarOf_length n s hs, ?_, h2⟩
  intro i hi
  obtain ⟨a0, a1, a2, a3, a4⟩ := le32_bytes (byteAt s (4 * i)) (byteAt s (4 * i + 1))
    (byteAt s (4 * i + 2)) (byteAt s (4 * i + 3))
  refine ⟨_, cigarOf_get n s i hs hi, rfl, a0, a1, a2, a3, a4, ?_⟩
  omega

/-- C11 on three operations, the second of kind 15 (not one of the 9 known
kinds) and the third with every bit set. -/
theorem C11_cigar_decode_witness :
    ServesInFull memRead ∧
    (readCigarOps memRead ⟨⟨[64, 0, 0, 0, 31, 0, 0, 0, 255, 255, 255, 255, 9], 0, none⟩,
      [0, 0, 0, 0]⟩ 3).1 = [64, 31, 4294967295] ∧
    (readCigarOps memRead ⟨⟨[64, 0, 0, 0, 31, 0, 0, 0, 255, 255, 255, 255, 9], 0, none⟩,
      [0, 0, 0, 0]⟩ 3).1.length = 3 ∧
    (readCigarOps memRead ⟨⟨[64, 0, 0, 0, 31, 0, 0, 0, 255, 255, 255, 255, 9], 0, none⟩,
      [0, 0, 0, 0]⟩ 3).2.r = ⟨[9], 12, none⟩ :=
  have t := C11_cigar_decode memRead memRead_servesInFull
    [64, 0, 0, 0, 31, 0, 0, 0, 255, 255, 255, 255, 9] [0, 0, 0, 0] 0 3 (by decide)
  ⟨memRead_servesInFull, by decide, t.1, t.2.2⟩

/-- C12 fails on a stream of one record inside the window. The sample record
lies on reference 1 at `[5, 8)`, so for the query `(1, 0, 100)` the
specification has `Fetch` yield that record; `Fetch` decodes it, meets the end
of the stream and returns, and its result holds no record: the Go function has
no results at all, while the demo driver takes an iterator and an ok flag from
it. -/
theorem C12_fetch_yields_nothing :
    Decodes some sampleRefs [] sampleBlock sampleDecoded ∧
    overlapping sampleEnd 1 0 100 [sampleDecoded] = [sampleDecoded] ∧
    Reader.Fetch memRead some sampleRefs sampleEnd (some sampleSeek) [] sampleChunks 1 0 100 5
      sampleBlock = some (FetchResult.returned [] []) ∧
    Reader.Fetch memReadLate some sampleRefs sampleEnd (some sampleSeek) [] sampleChunks 1 0 100 5
      sampleBlock = some (FetchResult.returned [] []) := by
  decide

/-- C13. Fetch early termination: for every stream that serves reads in full,
every non-empty chunk list and every stream position after the seek that
begins with decodable records `pre`, each with a reference (id ≥ 0) and none
past the window, `Fetch` reads on to what follows them. When that is a
decodable record past the window (reference id greater than `rid`, or equal
with a position beyond `endp`), `Fetch` returns with the stream at the first
byte after that record, whatever came before: it has decoded that record and
nothing after it. When instead `Read` fails there (a decode error or the end
of the stream), `Fetch` returns with the stream as that `Read` left it. In
both cases one iteration per record read is enough fuel. The reference id
`Fetch` compares is the id of the reference the record resolved to; on a
table whose entries carry their position as id it is the reference id of the
record's header, which is not negative. -/
theorem C13_fetch_early_termination {A : Type} (rd : List UInt8 → Nat → ReadOut (List UInt8))
    (hrd : ServesInFull rd) (parseAux : List UInt8 → Option A) (refs : List Reference)
    (End : Record A → Int) (sk : List UInt8 → Offset → List UInt8) (nilTags : A)
    (idxChunks : Int → Int → Int → List Chunk) (rid beg endp : Int) (s : List UInt8)
    (c : Chunk) (cs : List Chunk) (hc : idxChunks rid beg endp = c :: cs)
    (pre : List (List UInt8 × Record A × Reference)) (tail : List UInt8)
    (hpre : ∀ x ∈ pre, Decodes parseAux refs nilTags x.1 x.2.1 ∧ x.2.1.Ref = some x.2.2 ∧
      ¬ PastWindow rid endp x.2.1 x.2.2)
    (hstream : sk s c.Begin = blocksToStream (pre.map (fun x => x.1)) ++ tail) :
    (∀ (stop rest : List UInt8) (recS : Record A) (refS : Reference), tail = stop ++ rest →
      Decodes parseAux refs nilTags stop recS → recS.Ref = some refS →
      PastWindow rid endp recS refS →
      ∃ printed, ∀ fuel, pre.length + 1 ≤ fuel →
        Reader.Fetch rd parseAux refs End (some sk) nilTags idxChunks rid beg endp fuel s
          = some (FetchResult.returned printed rest)) ∧
    (∀ (e : Error) (s2 : List UInt8),
      Reader.Read rd parseAux refs tail (Record.zero nilTags) = (Result.error e, s2) →
      ∀ fuel, pre.length + 1 ≤ fuel →
        Reader.Fetch rd parseAux refs End (some sk) nilTags idxChunks rid beg endp fuel s
          = some (FetchResult.returned [] s2)) ∧
    (IndexedTable refs → ∀ x ∈ pre, 0 ≤ i32At x.1 4 ∧ x.2.2.id = i32At x.1 4) := by
  obtain ⟨rc', hs', hscan⟩ := fetchLoop_scan rd hrd parseAux refs End nilTags rid beg endp tail
    pre hpre (Record.zero nilTags) false
  have hfetch : ∀ k, Reader.Fetch rd parseAux refs End (some sk) nilTags idxChunks rid beg endp
      (pre.length + (k + 1)) s
      = Reader.fetchLoop rd parseAux refs End rid beg endp (k + 1) tail rc' hs' := by
    intro k
    unfold Reader.Fetch
    rw [hc]
    dsimp only
    rw [hstream, hscan]
  have hfuel : ∀ fuel, pre.length + 1 ≤ fuel → ∃ k, fuel = pre.length + (k + 1) :=
    fun fuel h => ⟨fuel - (pre.length + 1), by omega⟩
  refine ⟨?_, ?_, fun hidx x hx =>
    Decodes_ref_id parseAux refs nilTags x.1 x.2.1 x.2.2 hidx (hpre x hx).1 (hpre x hx).2.1⟩
  · intro stop rest recS refS ht hd hr hp
    refine ⟨if hs' = false then ["Wrong in reading the bam file"] else [], fun fuel hf => ?_⟩
    obtain ⟨k, rfl⟩ := hfuel fuel hf
    rw [hfetch k, ht]
    exact fetchLoop_past rd parseAux refs End rid beg endp k _ _ rc' recS hs' refS
      (Read_block rd hrd parseAux refs nilTags stop recS hd rest rc') hr hp
  · intro e s2 he fuel hf
    obtain ⟨k, rfl⟩ := hfuel fuel hf
    rw [hfetch k]
    rw [Read_rc rd parseAux refs tail rc' (Record.zero nilTags)] at he
    exact fetchLoop_error rd parseAux refs End rid beg endp k _ _ rc' hs' e he

/-- C13 on the sample record (reference 1, position 5) followed by the same
record at position 200 and by a third record, for the query `(1, 0, 100)`:
`Fetch` returns with the third record unread. -/
theorem C13_fetch_early_termination_witness :
    ServesInFull memRead ∧ sampleChunks 1 0 100 = [⟨⟨0, 0⟩, ⟨0, 52⟩⟩] ∧
    Decodes some sampleRefs [] sampleLater { sampleDecoded with Pos := 200 } ∧
    PastWindow 1 100 { sampleDecoded with Pos := 200 } ⟨1, "chr2", 2000⟩ ∧
    ∃ printed, ∀ fuel, 1 + 1 ≤ fuel →
      Reader.Fetch memRead some sampleRefs sampleEnd (some sampleSeek) [] sampleChunks 1 0 100
        fuel (blocksToStream [sampleBlock] ++ (sampleLater ++ sampleBlock))
        = some (FetchResult.returned printed sampleBlock) :=
  ⟨memRead_servesInFull, rfl, by decide, by decide,
    (C13_fetch_early_termination memRead memRead_servesInFull some sampleRefs sampleEnd
      sampleSeek [] sampleChunks 1 0 100
      (blocksToStream [sampleBlock] ++ (sampleLater ++ sampleBlock)) ⟨⟨0, 0⟩, ⟨0, 52⟩⟩ [] rfl
      [(sampleBlock, sampleDecoded, ⟨1, "chr2", 2000⟩)] (sampleLater ++ sampleBlock)
      (by decide) rfl).1 sampleLater sampleBlock { sampleDecoded with Pos := 200 }
      ⟨1, "chr2", 2000⟩ rfl (by decide) rfl (by decide)⟩

/-- C14 fails for every reader and query: when the chunk index returns an empty
chunk list, `Fetch` does not return; it aborts at `overlappingChunks[0]`
(reader.go 169), before the stream is looked at. -/
theorem C14_empty_chunk_list_aborts {σ A : Type} (rd : σ → Nat → ReadOut σ)
    (parseAux : List UInt8 → Option A) (refs : List Reference) (End : Record A → Int)
    (seek : Option (σ → Offset → σ)) (nilTags : A) (idxChunks : Int → Int → Int → List Chunk)
    (rid beg endp : Int) (fuel : Nat) (s : σ) (h : idxChunks rid beg endp = []) :
    Reader.Fetch rd parseAux refs End seek nilTags idxChunks rid beg endp fuel s
      = some FetchResult.crash := by
  unfold Reader.Fetch
  rw [h]

/-- C14 fails on the sample stream with an index that has no chunk for the
query. -/
theorem C14_empty_chunk_list_aborts_witness :
    (fun (_ _ _ : Int) => ([] : List Chunk)) 1 0 100 = [] ∧
    Reader.Fetch memRead some sampleRefs sampleEnd (some sampleSeek) []
      (fun _ _ _ => []) 1 0 100 5 sampleBlock = some FetchResult.crash :=
  ⟨rfl, C14_empty_chunk_list_aborts memRead some sampleRefs sampleEnd (some sampleSeek) []
    (fun _ _ _ => []) 1 0 100 5 sampleBlock rfl⟩

/-- C15. Record reuse: for every stream, reference table and auxiliary parser,
and any two initial contents `rc1`, `rc2` of the record passed in, two
successful `Read`s of the same stream position return records equal in every
decoded field (`Ref`, `Pos`, `MapQ`, `Flags`, `Name`, `Cigar`, `Seq`, `Qual`,
`AuxTags`, `MateRef`, `MatePos`, `TempLen`), hence equal records, and leave the
stream at the same position: nothing of what the record held before survives
into the result. -/
theorem C15_record_reuse {σ A : Type} (rd : σ → Nat → ReadOut σ)
    (parseAux : List UInt8 → Option A) (refs : List Reference) (s : σ)
    (rc1 rc2 rec1 rec2 : Record A) (s1 s2 : σ)
    (h1 : Reader.Read rd parseAux refs s rc1 = (Result.ok rec1, s1))
    (h2 : Reader.Read rd parseAux refs s rc2 = (Result.ok rec2, s2)) :
    rec1.Ref = rec2.Ref ∧ rec1.Pos = rec2.Pos ∧ rec1.MapQ = rec2.MapQ ∧
    rec1.Flags = rec2.Flags ∧ rec1.Name = rec2.Name ∧ rec1.Cigar = rec2.Cigar ∧
    rec1.Seq = rec2.Seq ∧ rec1.Qual = rec2.Qual ∧ rec1.AuxTags = rec2.AuxTags ∧
    rec1.MateRef = rec2.MateRef ∧ rec1.MatePos = rec2.MatePos ∧ rec1.TempLen = rec2.TempLen ∧
    rec1 = rec2 ∧ s1 = s2 := by
  rw [Read_rc rd parseAux refs s rc1 rc2, h1] at h2
  obtain ⟨e1, e2⟩ := Prod.mk.inj h2
  have e := Result.ok.inj e1
  subst e
  subst e2
  exact ⟨rfl, rfl, rfl, rfl, rfl, rfl, rfl, rfl, rfl, rfl, rfl, rfl, rfl, rfl⟩

/-- C15 on the sample block, read into an empty record and into a record that
holds other values in every field. -/
theorem C15_record_reuse_witness :
    Reader.Read memRead some sampleRefs sampleBlock sampleRecord
      = (Result.ok sampleDecoded, []) ∧
    Reader.Read memRead some sampleRefs sampleBlock sampleStale
      = (Result.ok sampleDecoded, []) ∧
    sampleDecoded.Name = sampleDecoded.Name ∧ sampleDecoded = sampleDecoded :=
  have t := C15_record_reuse memRead some sampleRefs sampleBlock sampleRecord sampleStale
    sampleDecoded sampleDecoded [] [] (by decide) (by decide)
  ⟨by decide, by decide, t.2.2.2.2.1, t.2.2.2.2.2.2.2.2.2.2.2.2.1⟩

/-- C16 fails on an unmapped record. The stream holds the sample record with
both reference ids -1, which `Read` decodes without a reference; for the target
reference 1 its id is less than the target, and `Fetch` does not continue past
it: it aborts at `rec.Ref.id` (reader.go 187), on both in-memory streams. -/
theorem C16_fetch_unmapped_aborts :
    i32At sampleUnmapped 4 = -1 ∧
    Decodes some sampleRefs [] sampleUnmapped { sampleDecoded with Ref := none } ∧
    Reader.Fetch memRead some sampleRefs sampleEnd (some sampleSeek) [] sampleChunks 1 0 100 5
      sampleUnmapped = some FetchResult.crash ∧
    Reader.Fetch memReadLate some sampleRefs sampleEnd (some sampleSeek) [] sampleChunks 1 0 100 5
      sampleUnmapped = some FetchResult.crash := by
  decide

/-- C17 fails at `N = 2^31 - 1`: the sum `N + 1` wraps to `-2^31` in `int32`,
so the size `Read` computes is `-2^30`, not `⌈N/2⌉ = 2^30`; on a block whose
header holds that sequence length `Read` aborts at the allocation of the
packed sequence (on both in-memory streams). -/
theorem C17_packed_size_overflow :
    packedLen 2147483647 = -1073741824 ∧ ceilHalf 2147483647 = 1073741824 ∧
    i32At sampleMaxSeq 20 = 2147483647 ∧
    (Reader.Read memRead some sampleRefs sampleMaxSeq sampleRecord).1 = Result.crash ∧
    (Reader.Read memReadLate some sampleRefs sampleMaxSeq sampleRecord).1 = Result.crash := by
  decide

/-- C18 fails on every block whose name-length byte is 0: on a stream that
serves reads in full and holds the 36 bytes of the length field and the fixed
header, `Read` returns neither a record nor an error; it aborts at the slice
`name[:len(name)-1]`, with the stream left after the header. -/
theorem C18_empty_name_aborts {A : Type} (rd : List UInt8 → Nat → ReadOut (List UInt8))
    (hrd : ServesInFull rd) (parseAux : List UInt8 → Option A) (refs : List Reference)
    (bs : List UInt8) (rc : Record A) (h36 : 36 ≤ bs.length) (h0 : u8At bs 12 = 0) :
    Reader.Read rd parseAux refs bs rc = (Result.crash, bs.drop 36) :=
  Read_noName rd hrd parseAux refs bs rc h36 h0

/-- C18 fails on the 36-byte stream with an empty name, and also on the sample
block with the sequence length -1, where the allocation of the quality bytes
aborts. -/
theorem C18_empty_name_aborts_witness :
    ServesInFull memRead ∧ 36 ≤ sampleEmptyName.length ∧ u8At sampleEmptyName 12 = 0 ∧
    Reader.Read memRead some sampleRefs sampleEmptyName sampleRecord
      = (Result.crash, sampleEmptyName.drop 36) ∧
    i32At sampleNegativeSeq 20 = -1 ∧
    (Reader.Read memRead some sampleRefs sampleNegativeSeq sampleRecord).1 = Result.crash :=
  ⟨memRead_servesInFull, by decide, by decide,
    C18_empty_name_aborts memRead memRead_servesInFull some sampleRefs sampleEmptyName
      sampleRecord (by decide) (by decide),
    by decide, by decide⟩

/-- C19. Stream stays aligned after a reference-id error: for every stream that
serves reads in full and supplies all that `Read` asks for, whenever `Read`
fails with the reference-id or the mate-reference-id out-of-range error, the
length field holds `L ≥ 0` and `Read` has taken exactly the `4 + L` bytes of
the block; and when a valid block `b2` follows the block, `Read` fails with the
same error and stops at the first byte of `b2`, so that the next `Read` on the
stream decodes `b2` to the record it holds. -/
theorem C19_aligned_after_ref_error {A : Type} (rd : List UInt8 → Nat → ReadOut (List UInt8))
    (hrd : ServesInFull rd) (parseAux : List UInt8 → Option A) (refs : List Reference)
    (bs : List UInt8) (rc : Record A) (e : Error) (s' : List UInt8) (hs : Supplied bs)
    (he : e = Error.refOutOfRange ∨ e = Error.mateRefOutOfRange)
    (h : Reader.Read rd parseAux refs bs rc = (Result.error e, s')) :
    0 ≤ i32At bs 0 ∧ s' = bs.drop (4 + (i32At bs 0).toNat) ∧
    (bs.length : Int) - s'.length = 4 + i32At bs 0 ∧
    ∀ (b2 rest : List UInt8) (rc2 rec2 : Record A), Supplied b2 →
      Reader.Read rd parseAux refs b2 rc2 = (Result.ok rec2, []) →
      Reader.Read rd parseAux refs (bs.take (4 + (i32At bs 0).toNat) ++ (b2 ++ rest)) rc
        = (Result.error e, b2 ++ rest) ∧
      Reader.Read rd parseAux refs
        (Reader.Read rd parseAux refs
          (bs.take (4 + (i32At bs 0).toNat) ++ (b2 ++ rest)) rc).2 rc2
        = (Result.ok rec2, rest) := by
  rw [Read_supplied hrd parseAux refs _ rc hs] at h
  obtain ⟨hw, tags, hp, hres, hdrop⟩ := Read_ref_error parseAux refs bs rc e s' he h
  have hb := (blockSize_range bs).2
  obtain ⟨_, hkl, _, _, _, _, _, hL⟩ := fx_layout _ _ hw.1 hw.2.1 hw.2.2.1 hw.2.2.2.1 hb
  have hfr := fun next => Read_frame_wf parseAux refs bs rc tags hw hp next
  have hwf := fun next => (WellFormed_frame parseAux bs rc tags hw next).1
  rw [hres] at hfr
  change 0 ≤ i32At bs 0 at hL
  change 4 + (i32At bs 0).toNat ≤ bs.length at hkl
  change s' = bs.drop (4 + (i32At bs 0).toNat) at hdrop
  change ∀ next, Reader.Read memRead parseAux refs
    (bs.take (4 + (i32At bs 0).toNat) ++ next) rc = (Result.error e, next) at hfr
  change ∀ next, WellFormed parseAux (bs.take (4 + (i32At bs 0).toNat) ++ next) at hwf
  refine ⟨hL, hdrop, ?_, ?_⟩
  · exact consumed_arith _ _ _ hL hkl (by rw [hdrop, List.length_drop])
  · intro b2 rest rc2 rec2 hs2 h2
    rw [Read_supplied hrd parseAux refs _ rc2 hs2] at h2
    have m2 := Read_append parseAux refs b2 rc2 rec2 h2 rest
    rw [Read_supplied hrd parseAux refs _ rc (Supplied_of_wf (hwf (b2 ++ rest))),
      hfr (b2 ++ rest)]
    refine ⟨rfl, ?_⟩
    dsimp only
    rw [Read_supplied hrd parseAux refs _ rc2 (Supplied_of_ok m2)]
    exact m2

/-- C19 on the sample block (reference id 1) with a reference table of one
entry, followed by the sample block with both ids -1 and one more byte. -/
theorem C19_aligned_after_ref_error_witness :
    ServesInFull memRead ∧ Supplied sampleBlock ∧
    Reader.Read memRead some [Reference.mk 0 "chr1" 1000] sampleBlock sampleRecord
      = (Result.error Error.refOutOfRange, []) ∧
    (sampleBlock.length : Int) - ([] : List UInt8).length = 4 + i32At sampleBlock 0 ∧
    Reader.Read memRead some [Reference.mk 0 "chr1" 1000]
      (sampleBlock.take (4 + (i32At sampleBlock 0).toNat) ++ (sampleUnmapped ++ [7])) sampleRecord
      = (Result.error Error.refOutOfRange, sampleUnmapped ++ [7]) ∧
    (Reader.Read memRead some [Reference.mk 0 "chr1" 1000]
      (Reader.Read memRead some [Reference.mk 0 "chr1" 1000]
        (sampleBlock.take (4 + (i32At sampleBlock 0).toNat) ++ (sampleUnmapped ++ [7]))
        sampleRecord).2 sampleRecord).2 = [7] :=
  have t := C19_aligned_after_ref_error memRead memRead_servesInFull some
    [Reference.mk 0 "chr1" 1000] sampleBlock sampleRecord Error.refOutOfRange [] (by decide)
    (Or.inl rfl) (by decide)
  have u := t.2.2.2 sampleUnmapped [7] sampleRecord
    { sampleDecoded with Ref := none } (by decide) (by decide)
  ⟨memRead_servesInFull, by decide, by decide, t.2.2.1, u.1, congrArg Prod.snd u.2⟩

/-- C20. `errReader` is sticky and counts exactly. Once the underlying stream
has returned an error `e` to an `errReader.Read`, the reader holds `e`; a
reader that holds an error returns 0 bytes and stays as it is on every later
`Read` (same error, same counter, and the underlying stream, instrumented with
the log of its calls, is not read again), also over any run of later calls.
And after any run of calls from a reset counter, the counter `n` is the sum of
the byte counts the underlying stream has returned since. -/
theorem C20_errReader_sticky_counts {σ : Type} (rd : σ → Nat → ReadOut σ) (s : σ)
    (err0 : Option StreamError) (ks : List Nat) :
    (∀ (r : errReader (σ × List Nat)) (k : Nat) (e : StreamError),
      r.err = none → (logged rd r.r k).err = some e →
      (errReader.Read (logged rd) r k).2.err = some e) ∧
    (∀ (r : errReader (σ × List Nat)) (e : StreamError), r.err = some e →
      (∀ k, errReader.Read (logged rd) r k = ([], r)) ∧
      (∀ later, errReader.run (logged rd) r later = r)) ∧
    (errReader.run (logged rd) ⟨(s, []), 0, err0⟩ ks).n
      = logSum (errReader.run (logged rd) ⟨(s, []), 0, err0⟩ ks).r.2 := by
  refine ⟨?_, ?_, run_count rd ks _ rfl⟩
  · intro r k e h0 h1
    unfold errReader.Read
    rw [h0]
    exact h1
  · intro r e h
    refine ⟨fun k => ?_, run_sticky _ r e h⟩
    unfold errReader.Read
    rw [h]

/-- C20 on the in-memory stream `[1, 2, 3]` and reads of 2, 2, 5 and 1 bytes:
the second read is short and sets the error, the counter ends at 3, and the
stream was called twice (for 2 bytes and for 1 byte). -/
theorem C20_errReader_sticky_counts_witness :
    errReader.run (logged memRead) ⟨([1, 2, 3], []), 0, none⟩ [2, 2, 5, 1]
      = ⟨([], [2, 1]), 3, some StreamError.EOF⟩ ∧
    (errReader.run (logged memRead) ⟨([1, 2, 3], []), 0, none⟩ [2, 2, 5, 1]).n
      = logSum (errReader.run (logged memRead) ⟨([1, 2, 3], []), 0, none⟩ [2, 2, 5, 1]).r.2 ∧
    errReader.Read (logged memRead) ⟨([], [2, 1]), 3, some StreamError.EOF⟩ 4
      = ([], ⟨([], [2, 1]), 3, some StreamError.EOF⟩) :=
  have t := C20_errReader_sticky_counts memRead [1, 2, 3] none [2, 2, 5, 1]
  ⟨by decide, t.2.2, (t.2.1 ⟨([], [2, 1]), 3, some StreamError.EOF⟩ StreamError.EOF rfl).1 4⟩

end bam
